import Mathlib

/-!
Shallow embedding of the generalized totalizer encoding (GTE) from
`src/encodings/pb/gte.rs` of the rustsat repository, together with theorems
checking the natural-language specification against the code.

Modelling conventions:
* Rust `usize` arithmetic is modelled by `Nat`; every subtraction in the
  source is guarded so `Nat` truncated subtraction coincides with it.
* `BTreeMap<usize, Lit>` is modelled by an association list kept sorted by
  key (`OutMap`); iteration in ascending key order is list order, and the
  range queries of the source become order-preserving filters.
* `HashMap<Lit, usize>` (input buffer, internalized inputs) is modelled by an
  association list kept sorted by a key on literals.  Rust hash maps iterate
  in an unspecified order; wherever that order is observable
  (`extend_tree` collecting the buffer) the model takes the iteration
  order as an explicit parameter, and the deterministic wrappers pass the
  canonical order.
* The variable manager (`BasicVarManager`) is a counter: `next_free` returns
  the counter and increments it, `n_used` is the counter.
* `CNF` is the list of emitted clauses in emission order; a clause is the
  list of its literals as built by `add_lit_impl_lit` / `add_cube_impl_lit`.
-/

namespace GteSpec

/-- A literal: a Boolean variable index with a polarity, as in `types::Lit`. -/
structure Lit where
  v : Nat
  pol : Bool
deriving DecidableEq

/-- Literal negation (`!l` in Rust): flip the polarity. -/
def negLit (l : Lit) : Lit := ⟨l.v, !l.pol⟩

/-- `Var::pos_lit`: the positive literal of a variable. -/
def posLit (v : Nat) : Lit := ⟨v, true⟩

/-- Default literal used to totalize the `unwrap` of `out_lits.get`; the
encoder only ever calls `get` on keys previously reserved, so this default is
never reachable from the public operations. -/
def defLit : Lit := ⟨0, true⟩

/-- A clause: list of literals. -/
abbrev Clause := List Lit

/-- A CNF: the clauses in emission order, as in `instances::CNF`. -/
abbrev CNF := List Clause

/-- `CNF::add_lit_impl_lit(a, b)` emits the clause `{!a, b}`. -/
def litImplLit (a b : Lit) : Clause := [negLit a, b]

/-- `CNF::add_cube_impl_lit([a, b], c)` emits the clause `{!a, !b, c}`. -/
def cubeImplLit (a b c : Lit) : Clause := [negLit a, negLit b, c]

/-! ### The ordered output map (`BTreeMap<usize, Lit>`) -/

/-- `out_lits`: association list sorted strictly ascending by key. -/
abbrev OutMap := List (Nat × Lit)

/-- Ordered insert, replacing an existing binding (`BTreeMap::insert`). -/
def omInsert (k : Nat) (x : Lit) : OutMap → OutMap
  | [] => [(k, x)]
  | p :: ps =>
      if p.1 = k then (k, x) :: ps
      else if p.1 < k then p :: omInsert k x ps
      else (k, x) :: p :: ps

/-- `BTreeMap::get`. -/
def omGet (k : Nat) : OutMap → Option Lit
  | [] => none
  | p :: ps => if p.1 = k then some p.2 else omGet k ps

/-- `BTreeMap::contains_key`. -/
def omContains (k : Nat) (m : OutMap) : Bool := (omGet k m).isSome

/-- `get(..).unwrap()`, totalized with `defLit` (see `defLit`). -/
def omGetD (k : Nat) (m : OutMap) : Lit := (omGet k m).getD defLit

/-- Range `[lo, hi]` (both bounds included), in ascending order. -/
def omRangeII (lo hi : Nat) (m : OutMap) : OutMap :=
  m.filter fun p => decide (lo ≤ p.1 ∧ p.1 ≤ hi)

/-- Range `(lo, hi)` (both bounds excluded), in ascending order. -/
def omRangeEE (lo hi : Nat) (m : OutMap) : OutMap :=
  m.filter fun p => decide (lo < p.1 ∧ p.1 < hi)

/-- Range `(lo, hi]` (excluded, included), in ascending order. -/
def omRangeEI (lo hi : Nat) (m : OutMap) : OutMap :=
  m.filter fun p => decide (lo < p.1 ∧ p.1 ≤ hi)

/-! ### The adder tree (`enum Node`) -/

/-- The totalizer tree node, mirroring `Node` in `gte.rs`. -/
inductive Node where
  | leaf (lit : Lit) (weight : Nat)
  | internal (out_lits : OutMap) (depth : Nat) (n_clauses : Nat) (max_val : Nat)
      (min_max_enc : Option (Nat × Nat)) (left : Node) (right : Node)
deriving DecidableEq

namespace Node

/-- `Node::new_leaf`. -/
def newLeaf (l : Lit) (w : Nat) : Node := .leaf l w

/-- The value a child contributes to `max_val` in `Node::new_internal`:
its weight for a leaf, its `max_val` for an internal node. -/
def childVal : Node → Nat
  | .leaf _ w => w
  | .internal _ _ _ mv _ _ _ => mv

/-- The depth a child contributes in `Node::new_internal`. -/
def childDepth : Node → Nat
  | .leaf _ _ => 1
  | .internal _ d _ _ _ _ _ => d

/-- `Node::new_internal`. -/
def newInternal (l r : Node) : Node :=
  .internal [] (if childDepth l > childDepth r then childDepth l + 1 else childDepth r + 1)
    0 (childVal l + childVal r) none l r

/-- `Node::get_depth`. -/
def getDepth : Node → Nat
  | .leaf _ _ => 1
  | .internal _ d _ _ _ _ _ => d

/-- The output-literal map a child exposes to its parent
(`Node::get_child_lit_maps`): a leaf is the singleton `{weight ↦ lit}`,
an internal node exposes its `out_lits`. -/
def nodeMap : Node → OutMap
  | .leaf l w => [(w, l)]
  | .internal out _ _ _ _ _ _ => out

/-- The leaves of the subtree, left to right, with their weights. -/
def leavesOf : Node → List (Lit × Nat)
  | .leaf l w => [(l, w)]
  | .internal _ _ _ _ _ l r => leavesOf l ++ leavesOf r

/-- Keys for which `reserve_vars_from_till` considers the pairwise sums of
child outputs, in iteration order of the two nested range loops. -/
def sumKeys (minE maxE : Nat) (lmap rmap : OutMap) : List Nat :=
  (omRangeEE 0 maxE lmap).flatMap fun p =>
    let rmin := if minE > p.1 then minE - p.1 else 0
    (omRangeII rmin (maxE - p.1) rmap).filterMap fun q =>
      if p.1 + q.1 > maxE ∨ p.1 + q.1 < minE then none else some (p.1 + q.1)

/-- Insert a fresh positive literal for every key not yet present, minting
variables from the counter in order (the three reservation loops of
`Node::reserve_vars_from_till`, with the keys precomputed in loop order). -/
def reserveKeys : List Nat → OutMap × Nat → OutMap × Nat
  | [], st => st
  | k :: ks, st =>
      if omContains k st.1 then reserveKeys ks st
      else reserveKeys ks (omInsert k (posLit st.2) st.1, st.2 + 1)

/-- The keys the three reservation loops of `reserve_vars_from_till` visit,
in loop order: left range, right range, in-window pairwise sums. -/
def reserveList (minE maxE : Nat) (lmap rmap : OutMap) : List Nat :=
  (omRangeII minE maxE lmap).map Prod.fst
    ++ (omRangeII minE maxE rmap).map Prod.fst
    ++ sumKeys minE maxE lmap rmap

/-- `Node::reserve_vars_from_till`. -/
def reserveVarsFromTill (minE maxE vm : Nat) : Node → Node × Nat
  | .leaf l w => (.leaf l w, vm)
  | .internal out d nc mv mme left right =>
      let rk := reserveKeys (reserveList minE maxE (nodeMap left) (nodeMap right)) (out, vm)
      (.internal rk.1 d nc mv mme left right, rk.2)

/-- The clauses of the sum-propagation loop of `Node::encode_from_till`
(group by left entry, then iterate the right range; the `continue` of the
source becomes the `filterMap` dropping out-of-window sums). -/
def sumClauses (minE maxE : Nat) (lmap rmap out : OutMap) : CNF :=
  (omRangeEE 0 maxE lmap).flatMap fun p =>
    let rmin := if minE > p.1 then minE - p.1 else 0
    (omRangeII rmin (maxE - p.1) rmap).filterMap fun q =>
      if p.1 + q.1 > maxE ∨ p.1 + q.1 < minE then none
      else some (cubeImplLit p.2 q.2 (omGetD (p.1 + q.1) out))

/-- The clauses of the three emission loops of `Node::encode_from_till`, in
loop order: left propagation, right propagation, sum propagation. -/
def fromTillClauses (minE maxE : Nat) (lmap rmap out : OutMap) : CNF :=
  ((omRangeII minE maxE lmap).map fun p => litImplLit p.2 (omGetD p.1 out))
    ++ ((omRangeII minE maxE rmap).map fun p => litImplLit p.2 (omGetD p.1 out))
    ++ sumClauses minE maxE lmap rmap out

/-- `Node::encode_from_till`: reserve the needed output variables, then emit
left-propagation, right-propagation and sum-propagation clauses for output
values in `[minE, maxE]`.  Returns the node (with grown `out_lits`), the
variable counter and the emitted CNF. -/
def encodeFromTill (minE maxE vm : Nat) (t : Node) : Node × Nat × CNF :=
  if minE > maxE then (t, vm, [])
  else
    let rv := reserveVarsFromTill minE maxE vm t
    match rv.1 with
    | .leaf l w => (.leaf l w, rv.2, [])
    | .internal out d nc mv mme left right =>
        if minE > mv then (.internal out d nc mv mme left right, rv.2, [])
        else
          (.internal out d nc mv mme left right, rv.2,
           fromTillClauses minE maxE (nodeMap left) (nodeMap right) out)

/-- `Node::compute_required_min_enc`. -/
def computeRequiredMinEnc (minReq maxReq : Nat) (sibling : Node) : Nat :=
  match sibling with
  | .leaf _ _ => if minReq > 2 then minReq - 1 else 1
  | .internal _ _ _ mv _ _ _ =>
      if maxReq < mv then (if minReq > maxReq then minReq - maxReq else 1)
      else if minReq > mv then minReq - mv
      else 1

/-- `Node::encode_rec`: recurse depth first with narrowed child windows, then
encode this node from scratch over `[minE, maxE]` and overwrite the stats. -/
def encodeRec (minE maxE vm : Nat) : Node → Node × Nat × CNF
  | .leaf l w => (.leaf l w, vm, [])
  | .internal out d nc mv mme left right =>
      let lmin := computeRequiredMinEnc minE maxE right
      let rmin := computeRequiredMinEnc minE maxE left
      let lr := encodeRec lmin maxE vm left
      let rr := encodeRec rmin maxE lr.2.1 right
      let ft := encodeFromTill minE maxE rr.2.1 (.internal out d nc mv mme lr.1 rr.1)
      match ft.1 with
      | .leaf l w => (.leaf l w, ft.2.1, lr.2.2 ++ rr.2.2 ++ ft.2.2)
      | .internal out2 d2 nc2 mv2 _ l2 r2 =>
          (.internal out2 d2 (nc2 + ft.2.2.length) mv2 (some (minE, min mv2 maxE)) l2 r2,
           ft.2.1, lr.2.2 ++ rr.2.2 ++ ft.2.2)

/-- `Node::encode_change_rec`: recurse depth first, then encode only the part
of `[minE, maxE]` not yet covered by `min_max_enc`, and widen the window. -/
def encodeChangeRec (minE maxE vm : Nat) : Node → Node × Nat × CNF
  | .leaf l w => (.leaf l w, vm, [])
  | .internal out d nc mv mme left right =>
      let lmin := computeRequiredMinEnc minE maxE right
      let rmin := computeRequiredMinEnc minE maxE left
      let lr := encodeChangeRec lmin maxE vm left
      let rr := encodeChangeRec rmin maxE lr.2.1 right
      let t1 : Node := .internal out d nc mv mme lr.1 rr.1
      let ft :=
        match mme with
        | none => encodeFromTill minE maxE rr.2.1 t1
        | some (oldMin, oldMax) =>
            let fa := if minE < oldMin then encodeFromTill minE (oldMin - 1) rr.2.1 t1
                      else (t1, rr.2.1, [])
            let fb := if maxE > oldMax then encodeFromTill (oldMax + 1) maxE fa.2.1 fa.1
                      else (fa.1, fa.2.1, [])
            (fb.1, fb.2.1, fa.2.2 ++ fb.2.2)
      match ft.1 with
      | .leaf l w => (.leaf l w, ft.2.1, lr.2.2 ++ rr.2.2 ++ ft.2.2)
      | .internal out2 d2 nc2 mv2 _ l2 r2 =>
          let mme2 :=
            match mme with
            | some (oldMin, oldMax) =>
                some (min minE oldMin, min mv2 (max maxE oldMax))
            | none => some (minE, min maxE mv2)
          (.internal out2 d2 (nc2 + ft.2.2.length) mv2 mme2 l2 r2,
           ft.2.1, lr.2.2 ++ rr.2.2 ++ ft.2.2)

/-- `Node::reserve_all_vars`. -/
def reserveAllVars (vm : Nat) (t : Node) : Node × Nat :=
  match t with
  | .leaf _ _ => (t, vm)
  | .internal _ _ _ mv _ _ _ => reserveVarsFromTill 0 mv vm t

/-- `Node::reserve_all_vars_rec`. -/
def reserveAllVarsRec (vm : Nat) : Node → Node × Nat
  | .leaf l w => (.leaf l w, vm)
  | .internal out d nc mv mme left right =>
      let lr := reserveAllVarsRec vm left
      let rr := reserveAllVarsRec lr.2 right
      reserveAllVars rr.2 (.internal out d nc mv mme lr.1 rr.1)

end Node

/-! ### The encoders -/

/-- The error type `encodings::EncodingError` (the kinds used by the GTE). -/
inductive EncodingError where
  | invalidLimits
  | notEncoded
  | unsat
deriving DecidableEq

/-- State shared by `GeneralizedTotalizer` and
`InvertedGeneralizedTotalizer` (their fields are identical). -/
structure GTE where
  in_lits : List (Lit × Nat)
  lit_buffer : List (Lit × Nat)
  root : Option Node
  reserve_vars : Bool
  max_leaf_weight : Nat
  total_weight : Nat
  n_vars : Nat
  n_clauses : Nat
deriving DecidableEq

/-- Canonical key under which the hash-map model keeps literals sorted. -/
def litKey (l : Lit) : Nat := 2 * l.v + (if l.pol then 1 else 0)

/-- `HashMap::insert` with weight accumulation (`old_w + w` on a hit), on the
canonical sorted association list. -/
def wmAdd (l : Lit) (w : Nat) : List (Lit × Nat) → List (Lit × Nat)
  | [] => [(l, w)]
  | p :: ps =>
      if p.1 = l then (l, p.2 + w) :: ps
      else if litKey p.1 < litKey l then p :: wmAdd l w ps
      else (l, w) :: p :: ps

/-- `GeneralizedTotalizer::new` / `InvertedGeneralizedTotalizer::new`. -/
def newGTE : GTE :=
  { in_lits := [], lit_buffer := [], root := none, reserve_vars := false,
    max_leaf_weight := 0, total_weight := 0, n_vars := 0, n_clauses := 0 }

/-- `new_reserving`. -/
def newReservingGTE : GTE := { newGTE with reserve_vars := true }

/-- `add`: accumulate the weighted literals into the buffer and the total
weight.  The argument list is the iteration order of the caller's map. -/
def addLits (ls : List (Lit × Nat)) (s : GTE) : GTE :=
  ls.foldl
    (fun s p =>
      { s with total_weight := s.total_weight + p.2,
               lit_buffer := wmAdd p.1 p.2 s.lit_buffer })
    s

/-- Weight sum of a list of weighted literals. -/
def wsum (S : List (Lit × Nat)) : Nat := (S.map Prod.snd).sum

/-- Stable ascending sort by weight (`sort_by(|(_, w1), (_, w2)| w1.cmp(w2))`).
`List.insertionSort` with the non-strict weight order is stable in the same
sense as Rust's `sort_by`. -/
def sortByWeight (l : List (Lit × Nat)) : List (Lit × Nat) :=
  l.insertionSort fun p q => p.2 ≤ q.2

/-- `GeneralizedTotalizer::build_tree` with explicit structural fuel (the
source recursion is on the halves of the slice; fuel `l.length` suffices).
The `[]` case is the `assert_ne!(lits.len(), 0)` of the source: unreachable
from the public operations. -/
def buildTreeF : Nat → List (Lit × Nat) → Node
  | _, [] => .leaf defLit 0
  | _, [x] => .leaf x.1 x.2
  | 0, x :: _ => .leaf x.1 x.2
  | fuel + 1, x :: y :: rest =>
      let l := x :: y :: rest
      let split := l.length / 2
      Node.newInternal (buildTreeF fuel (l.take split)) (buildTreeF fuel (l.drop split))

/-- `GeneralizedTotalizer::build_tree`. -/
def buildTree (l : List (Lit × Nat)) : Node := buildTreeF l.length l

/-- `extend_tree`, parameterized by the iteration order `order` of the hash
map `lit_buffer` (a permutation of the canonical buffer; Rust leaves this
order unspecified).  When `inv` is true the literals are negated as they
enter the tree (`InvertedGeneralizedTotalizer::extend_tree`). -/
def extendTreeWith (inv : Bool) (order : List (Lit × Nat)) (maxWeight vm : Nat)
    (s : GTE) : GTE × Nat :=
  if s.lit_buffer = [] then (s, vm)
  else
    let newLits := (order.filter fun p => decide (p.2 ≤ maxWeight)).map
      fun p => (if inv then negLit p.1 else p.1, p.2)
    let mlw := newLits.foldl (fun m p => max m p.2) s.max_leaf_weight
    if newLits = [] then (s, vm)
    else
      let subtree := buildTree (sortByWeight newLits)
      let sr := if s.reserve_vars then Node.reserveAllVarsRec vm subtree else (subtree, vm)
      let rr : Node × Nat :=
        match s.root with
        | none => sr
        | some oldRoot =>
            let nr := Node.newInternal oldRoot sr.1
            if s.reserve_vars then Node.reserveAllVars sr.2 nr else (nr, sr.2)
      let inLits' := s.lit_buffer.foldl
        (fun acc p => if p.2 ≤ maxWeight then wmAdd p.1 p.2 acc else acc) s.in_lits
      let buf' := s.lit_buffer.filter fun p => decide (¬ p.2 ≤ maxWeight)
      ({ s with root := some rr.1, in_lits := inLits', lit_buffer := buf',
                max_leaf_weight := mlw }, rr.2)

/-- `GeneralizedTotalizer::extend_tree` with the canonical iteration order. -/
def extendTree (maxWeight vm : Nat) (s : GTE) : GTE × Nat :=
  extendTreeWith false s.lit_buffer maxWeight vm s

/-- `encode_ub`, with explicit buffer iteration order. -/
def encodeUbWith (order : List (Lit × Nat)) (minUb maxUb vm : Nat) (s : GTE) :
    Except EncodingError (CNF × GTE × Nat) :=
  if minUb > maxUb then .error .invalidLimits
  else
    let ex := extendTreeWith false order maxUb vm s
    let res : CNF × Option Node × Nat :=
      match ex.1.root with
      | none => ([], none, ex.2)
      | some root =>
          let er := Node.encodeRec (minUb + 1) (maxUb + ex.1.max_leaf_weight) ex.2 root
          (er.2.2, some er.1, er.2.1)
    .ok (res.1,
         { ex.1 with root := res.2.1,
                     n_clauses := ex.1.n_clauses + res.1.length,
                     n_vars := ex.1.n_vars + (res.2.2 - vm) },
         res.2.2)

/-- `GeneralizedTotalizer::encode_ub` (canonical iteration order). -/
def encodeUb (minUb maxUb vm : Nat) (s : GTE) :
    Except EncodingError (CNF × GTE × Nat) :=
  encodeUbWith s.lit_buffer minUb maxUb vm s

/-- `encode_ub_change`, with explicit buffer iteration order. -/
def encodeUbChangeWith (order : List (Lit × Nat)) (minUb maxUb vm : Nat) (s : GTE) :
    Except EncodingError (CNF × GTE × Nat) :=
  if minUb > maxUb then .error .invalidLimits
  else
    let ex := extendTreeWith false order maxUb vm s
    let res : CNF × Option Node × Nat :=
      match ex.1.root with
      | none => ([], none, ex.2)
      | some root =>
          let er := Node.encodeChangeRec (minUb + 1) (maxUb + ex.1.max_leaf_weight) ex.2 root
          (er.2.2, some er.1, er.2.1)
    .ok (res.1,
         { ex.1 with root := res.2.1,
                     n_clauses := ex.1.n_clauses + res.1.length,
                     n_vars := ex.1.n_vars + (res.2.2 - vm) },
         res.2.2)

/-- `GeneralizedTotalizer::encode_ub_change` (canonical iteration order). -/
def encodeUbChange (minUb maxUb vm : Nat) (s : GTE) :
    Except EncodingError (CNF × GTE × Nat) :=
  encodeUbChangeWith s.lit_buffer minUb maxUb vm s

/-- The tree part of the `enforce_ub` assumptions (the `assumps.extend(..)`
match of the source).  Shared verbatim by `enforce_lb` on the inverted
encoder. -/
def enforceTree (ub : Nat) (s : GTE) : Except EncodingError (List Lit) :=
  match s.root with
  | none => .ok []
  | some (.leaf _ _) => .ok []
  | some (.internal out _ _ mv mme _ _) =>
      if ub ≥ mv then .ok []
      else
        match mme with
        | some (minEnc, maxEnc) =>
            if maxEnc < min (ub + s.max_leaf_weight) mv ∨ minEnc > ub + 1 then
              .error .notEncoded
            else
              .ok ((omRangeEI ub (ub + s.max_leaf_weight) out).map fun p => negLit p.2)
        | none => .error .notEncoded

/-- `GeneralizedTotalizer::enforce_ub`.  The buffer fold of the source fails
with `NotEncoded` as soon as a buffered weight is `≤ ub`, else collects the
negations; then the over-weight internalized inputs are negated, then the
tree assumptions are appended. -/
def enforceUb (ub : Nat) (s : GTE) : Except EncodingError (List Lit) :=
  if s.lit_buffer.any fun p => decide (p.2 ≤ ub) then .error .notEncoded
  else
    match enforceTree ub s with
    | .error e => .error e
    | .ok a3 =>
        .ok ((s.lit_buffer.map fun p => negLit p.1)
          ++ ((s.in_lits.filter fun p => decide (p.2 > ub)).map fun p => negLit p.1)
          ++ a3)

/-! ### The inverted (lower-bound) encoder -/

/-- `InvertedGeneralizedTotalizer::convert_lb_ub`. -/
def convertLbUb (s : GTE) (bound : Nat) : Except EncodingError Nat :=
  if s.total_weight > bound then .ok (s.total_weight - bound)
  else .error .unsat

/-- `InvertedGeneralizedTotalizer::encode_lb` (canonical iteration order).
Note the `unwrap_or(0)` of the source on both conversions. -/
def encodeLb (minLb maxLb vm : Nat) (s : GTE) :
    Except EncodingError (CNF × GTE × Nat) :=
  if minLb > maxLb then .error .invalidLimits
  else
    let intMinUb := ((convertLbUb s maxLb).toOption).getD 0
    let intMaxUb := ((convertLbUb s minLb).toOption).getD 0
    let ex := extendTreeWith true s.lit_buffer intMaxUb vm s
    let res : CNF × Option Node × Nat :=
      match ex.1.root with
      | none => ([], none, ex.2)
      | some root =>
          let er := Node.encodeRec (intMinUb + 1) (intMaxUb + ex.1.max_leaf_weight) ex.2 root
          (er.2.2, some er.1, er.2.1)
    .ok (res.1,
         { ex.1 with root := res.2.1,
                     n_clauses := ex.1.n_clauses + res.1.length,
                     n_vars := ex.1.n_vars + (res.2.2 - vm) },
         res.2.2)

/-- `InvertedGeneralizedTotalizer::encode_lb_change` (canonical order). -/
def encodeLbChange (minLb maxLb vm : Nat) (s : GTE) :
    Except EncodingError (CNF × GTE × Nat) :=
  if minLb > maxLb then .error .invalidLimits
  else
    let intMinUb := ((convertLbUb s maxLb).toOption).getD 0
    let intMaxUb := ((convertLbUb s minLb).toOption).getD 0
    let ex := extendTreeWith true s.lit_buffer intMaxUb vm s
    let res : CNF × Option Node × Nat :=
      match ex.1.root with
      | none => ([], none, ex.2)
      | some root =>
          let er := Node.encodeChangeRec (intMinUb + 1) (intMaxUb + ex.1.max_leaf_weight)
            ex.2 root
          (er.2.2, some er.1, er.2.1)
    .ok (res.1,
         { ex.1 with root := res.2.1,
                     n_clauses := ex.1.n_clauses + res.1.length,
                     n_vars := ex.1.n_vars + (res.2.2 - vm) },
         res.2.2)

/-- `InvertedGeneralizedTotalizer::enforce_lb`: convert the bound (this is
where `Unsat` is raised), assume over-weight inputs positively, then the same
tree assumptions as the upper-bound encoder. -/
def enforceLb (lb : Nat) (s : GTE) : Except EncodingError (List Lit) :=
  match convertLbUb s lb with
  | .error e => .error e
  | .ok ub =>
      if s.lit_buffer.any fun p => decide (p.2 ≤ ub) then .error .notEncoded
      else
        match enforceTree ub s with
        | .error e => .error e
        | .ok a3 =>
            .ok ((s.lit_buffer.map fun p => p.1)
              ++ ((s.in_lits.filter fun p => decide (p.2 > ub)).map fun p => p.1)
              ++ a3)

/-! ### Assignment semantics -/

/-- Value of a literal under a variable assignment. -/
def litValB (f : Nat → Bool) (l : Lit) : Bool := if l.pol then f l.v else !(f l.v)

/-- A clause is satisfied when one of its literals is. -/
def clauseSatB (f : Nat → Bool) (c : Clause) : Bool := c.any (litValB f)

/-- A CNF is satisfied when every clause is. -/
def cnfSatB (f : Nat → Bool) (cnf : CNF) : Bool := cnf.all (clauseSatB f)

/-- All assumption literals hold under the assignment. -/
def assumpsSatB (f : Nat → Bool) (as : List Lit) : Bool := as.all (litValB f)

/-- The summed weight of the literals of `S` that are true under `f`. -/
def trueWeight (f : Nat → Bool) (S : List (Lit × Nat)) : Nat :=
  wsum (S.filter fun p => litValB f p.1)

/-! ### Invariant predicates (decidable, for the tree-wide invariants) -/

/-- Keys of an `out_lits` map are strictly ascending (so in particular there
are no duplicate output values). -/
def omSortedB : OutMap → Bool
  | [] => true
  | [_] => true
  | p :: q :: rest => decide (p.1 < q.1) && omSortedB (q :: rest)

/-- The tree-wide structural invariant of the spec: at every internal node,
`max_val` is the sum of the leaf weights of the subtree, `out_lits` has
strictly ascending (hence duplicate-free) keys, and every key is at most
`max_val`. -/
def nodeInvB : Node → Bool
  | .leaf _ _ => true
  | .internal out _ _ mv _ l r =>
      decide (mv = wsum (Node.leavesOf l) + wsum (Node.leavesOf r))
        && omSortedB out && out.all (fun p => decide (p.1 ≤ mv))
        && nodeInvB l && nodeInvB r

/-- Every output literal minted anywhere in the tree has variable index
below `vm` (the variable-manager counter). -/
def varsBoundB (vm : Nat) : Node → Bool
  | .leaf _ _ => true
  | .internal out _ _ _ _ l r =>
      out.all (fun p => decide (p.2.v < vm)) && varsBoundB vm l && varsBoundB vm r

/-- Every key of every `out_lits` map lies inside the node's recorded
encoding window (`min_max_enc`); a node never encoded has an empty map.
Holds for non-reserving encoders. -/
def kiwB : Node → Bool
  | .leaf _ _ => true
  | .internal out _ _ _ mme l r =>
      (match mme with
       | none => out.isEmpty
       | some w => out.all fun p => decide (w.1 ≤ p.1 ∧ p.1 ≤ w.2))
        && kiwB l && kiwB r

/-- Every `out_lits` map of the tree is empty (a freshly built tree). -/
def emptyOutB : Node → Bool
  | .leaf _ _ => true
  | .internal out _ _ _ _ l r => out.isEmpty && emptyOutB l && emptyOutB r

/-- Every literal of the tree — leaf inputs and minted outputs alike — has
variable index below `vm`. -/
def allVarsB (vm : Nat) : Node → Bool
  | .leaf l _ => decide (l.v < vm)
  | .internal out _ _ _ _ l r =>
      out.all (fun p => decide (p.2.v < vm)) && allVarsB vm l && allVarsB vm r

/-- Same tree skeleton: equal constructor at every position and equal
`max_val` on internal nodes (what `compute_required_min_enc` inspects). -/
def sameShapeB : Node → Node → Bool
  | .leaf _ _, .leaf _ _ => true
  | .internal _ _ _ mv _ l r, .internal _ _ _ mv2 _ l2 r2 =>
      (mv == mv2) && sameShapeB l l2 && sameShapeB r r2
  | _, _ => false

/-- The literal `x` is an output literal of some node of the tree. -/
def hasOutLit (x : Lit) : Node → Bool
  | .leaf _ _ => false
  | .internal out _ _ _ _ l r =>
      out.any (fun p => p.2 == x) || hasOutLit x l || hasOutLit x r

/-- The whole requested window `[minE, maxE]` (clamped to `max_val`, and
narrowed for the children exactly as `compute_required_min_enc` does) is
already covered by the recorded `min_max_enc` windows of the subtree. -/
def coversB (minE maxE : Nat) : Node → Bool
  | .leaf _ _ => true
  | .internal _ _ _ mv mme l r =>
      (match mme with
       | none => false
       | some w => decide (w.1 ≤ minE ∧ min mv maxE ≤ w.2 ∧ w.2 ≤ mv))
        && coversB (Node.computeRequiredMinEnc minE maxE r) maxE l
        && coversB (Node.computeRequiredMinEnc minE maxE l) maxE r

/-- `out_lits` of the second tree extends the first: same skeleton and leaf
content, and every binding of every node is still present (so a literal
minted for an output value is reused, never replaced). -/
def outExtB : Node → Node → Bool
  | .leaf l w, .leaf l2 w2 => l2 == l && w2 == w
  | .internal out _ _ _ _ l r, .internal out2 _ _ _ _ l2 r2 =>
      (out.all fun p => omGet p.1 out2 == some p.2) && outExtB l l2 && outExtB r r2
  | _, _ => false

/-- Well-formedness of the root for `enforce_ub` reasoning: if the root is an
internal node, its `out_lits` is sorted with keys bounded by `max_val`. -/
def rootOkB (s : GTE) : Bool :=
  match s.root with
  | some (.internal out _ _ mv _ _ _) =>
      omSortedB out && out.all (fun p => decide (p.1 ≤ mv))
  | _ => true

/-- The `out_lits` map of the root, when the root is an internal node. -/
def rootOut (s : GTE) : OutMap :=
  match s.root with
  | some (.internal out _ _ _ _ _ _) => out
  | _ => []

/-! ### Operation traces (for the determinism claim)

A run of the encoder is a list of operations; each encode operation carries
the iteration order in which the Rust `HashMap` buffer happened to be
traversed (two runs of the same program may observe different orders). -/

/-- One public operation on a `GeneralizedTotalizer`. -/
inductive GteOp where
  | addOp (ls : List (Lit × Nat))
  | encodeOp (lo hi : Nat)
  | encodeChangeOp (lo hi : Nat)
deriving DecidableEq

/-- Execute one operation; `ord` is the buffer iteration order observed by
this call (ignored by `add`).  A failing encode leaves the state unchanged
and emits no clauses. -/
def stepOp (op : GteOp) (ord : List (Lit × Nat)) (s : GTE) (vm : Nat) :
    GTE × Nat × CNF :=
  match op with
  | .addOp ls => (addLits ls s, vm, [])
  | .encodeOp lo hi =>
      match encodeUbWith ord lo hi vm s with
      | .ok r => (r.2.1, r.2.2, r.1)
      | .error _ => (s, vm, [])
  | .encodeChangeOp lo hi =>
      match encodeUbChangeWith ord lo hi vm s with
      | .ok r => (r.2.1, r.2.2, r.1)
      | .error _ => (s, vm, [])

/-- Run a trace, collecting the clause set emitted by each call. -/
def runTrace : List (GteOp × List (Lit × Nat)) → GTE → Nat → GTE × Nat × List CNF
  | [], s, vm => (s, vm, [])
  | step :: rest, s, vm =>
      let r := stepOp step.1 step.2 s vm
      let rr := runTrace rest r.1 r.2.1
      (rr.1, rr.2.1, r.2.2 :: rr.2.2)

/-- The recorded iteration order of each encode step really is a permutation
of the buffer at that point (any actual run of the Rust code satisfies
this). -/
def validTraceB : List (GteOp × List (Lit × Nat)) → GTE → Nat → Bool
  | [], _, _ => true
  | step :: rest, s, vm =>
      (match step.1 with
       | .addOp _ => true
       | _ => decide (step.2.Perm s.lit_buffer))
        && (let r := stepOp step.1 step.2 s vm
            validTraceB rest r.1 r.2.1)

/-- At every encode step of the trace, the buffered literals admitted to the
tree have pairwise distinct weights. -/
def distinctTraceB : List (GteOp × List (Lit × Nat)) → GTE → Nat → Bool
  | [], _, _ => true
  | step :: rest, s, vm =>
      (match step.1 with
       | .addOp _ => true
       | .encodeOp _ hi =>
           decide (((s.lit_buffer.filter fun p => decide (p.2 ≤ hi)).map Prod.snd).Nodup)
       | .encodeChangeOp _ hi =>
           decide (((s.lit_buffer.filter fun p => decide (p.2 ≤ hi)).map Prod.snd).Nodup))
        && (let r := stepOp step.1 step.2 s vm
            distinctTraceB rest r.1 r.2.1)

/-! ### Concrete instances used to settle individual claims -/

/-- Three literals of weight 3 (claim C1). -/
def c1adds : List (Lit × Nat) := [(⟨0, true⟩, 3), (⟨1, true⟩, 3), (⟨2, true⟩, 3)]

/-- Encoder state after adding `c1adds`. -/
def c1state : GTE := addLits c1adds newGTE

/-- Assignment setting exactly the first two input literals true. -/
def c1sigma : Nat → Bool := fun v => v == 0 || v == 1

/-- One literal of weight 1 (claim C2): total weight 1 < requested bound 2. -/
def c2state : GTE := addLits [(⟨0, true⟩, 1)] newGTE

/-- Two equal-weight literals (claim C3). -/
def c3state : GTE := addLits [(⟨0, true⟩, 1), (⟨1, true⟩, 1)] newGTE

/-- Weights 1 and 2 (claim C4). -/
def c4state : GTE := addLits [(⟨0, true⟩, 1), (⟨1, true⟩, 2)] newGTE

/-- Two unit-weight literals (claim C7). -/
def c7state : GTE := addLits [(⟨0, true⟩, 1), (⟨1, true⟩, 1)] newGTE

/-- Assignment with all inputs false and all minted output variables true
(claim C7): variables 0 and 1 are the inputs, minted variables start at 2. -/
def c7sigma : Nat → Bool := fun v => decide (v ≥ 2)

/-- Weight-1 literal together with a weight-0 literal (claim C9). -/
def c9stateZ : GTE := addLits [(⟨0, true⟩, 1), (⟨1, true⟩, 0)] newGTE

/-- The same encoder without the weight-0 literal (claim C9). -/
def c9state : GTE := addLits [(⟨0, true⟩, 1)] newGTE

/-- Weights 5, 5, 3, 3 (claims C5/C6 witnesses; the input multiset of the
repository's own unit tests). -/
def c5state : GTE :=
  addLits [(⟨0, true⟩, 5), (⟨1, true⟩, 5), (⟨2, true⟩, 3), (⟨3, true⟩, 3)] newGTE

/-- The clause set of a successful encode (empty on error). -/
def exCnf (r : Except EncodingError (CNF × GTE × Nat)) : CNF :=
  match r with
  | .ok x => x.1
  | .error _ => []

/-- The post-state of a successful encode (`newGTE` on error). -/
def exState (r : Except EncodingError (CNF × GTE × Nat)) : GTE :=
  match r with
  | .ok x => x.2.1
  | .error _ => newGTE

/-- The variable counter after a successful encode (`0` on error). -/
def exVm (r : Except EncodingError (CNF × GTE × Nat)) : Nat :=
  match r with
  | .ok x => x.2.2
  | .error _ => 0

/-- The assumptions of a successful enforce (empty on error). -/
def exAssumps (r : Except EncodingError (List Lit)) : List Lit :=
  match r with
  | .ok a => a
  | .error _ => []

/-- The run of C1: encode the window `[4, 5]` (variables 0-2 are inputs, the
manager mints from 3). -/
def c1res : Except EncodingError (CNF × GTE × Nat) := encodeUb 4 5 3 c1state

/-- Trace of C3, first run: one encode observing the canonical buffer
order. -/
def c3trace1 : List (GteOp × List (Lit × Nat)) :=
  [(.encodeOp 0 2, [(⟨0, true⟩, 1), (⟨1, true⟩, 1)])]

/-- Trace of C3, second run: the same call observing the reversed hash-map
iteration order. -/
def c3trace2 : List (GteOp × List (Lit × Nat)) :=
  [(.encodeOp 0 2, [(⟨1, true⟩, 1), (⟨0, true⟩, 1)])]

/-- C4 first call: `encode_ub(1, 2)`. -/
def c4step1 : Except EncodingError (CNF × GTE × Nat) := encodeUb 1 2 2 c4state

/-- C4 second call: `encode_ub_change(0, 2)` on the state left by the
first. -/
def c4step2 : Except EncodingError (CNF × GTE × Nat) :=
  encodeUbChange 0 2 (exVm c4step1) (exState c4step1)

/-- C4: union of the clause sets of the two incremental calls. -/
def c4union : CNF := exCnf c4step1 ++ exCnf c4step2

/-- C4: the one-shot `encode_ub(min(1,0), max(2,2)) = encode_ub(0, 2)` on a
fresh encoder with the same inputs. -/
def c4oneshot : CNF := exCnf (encodeUb 0 2 2 c4state)

/-- The run of C7: full window encode `[0, 2]`. -/
def c7res : Except EncodingError (CNF × GTE × Nat) := encodeUb 0 2 2 c7state

/-- The root of the C7 run. -/
def c7root : Node := ((exState c7res).root).getD (Node.leaf defLit 0)

instance : IsTrans (Nat × Lit) (fun p q => p.1 < q.1) :=
  ⟨fun _ _ _ => Nat.lt_trans⟩

instance : IsTotal (Lit × Nat) (fun p q => p.2 ≤ q.2) :=
  ⟨fun a b => Nat.le_total a.2 b.2⟩

instance : IsTrans (Lit × Nat) (fun p q => p.2 ≤ q.2) :=
  ⟨fun _ _ _ => Nat.le_trans⟩

instance {ε α : Type} [DecidableEq ε] [DecidableEq α] : DecidableEq (Except ε α) :=
  fun a b =>
    match a, b with
    | .ok x, .ok y =>
        if h : x = y then .isTrue (by rw [h]) else .isFalse (by simp [h])
    | .error x, .error y =>
        if h : x = y then .isTrue (by rw [h]) else .isFalse (by simp [h])
    | .ok _, .error _ => .isFalse (by simp)
    | .error _, .ok _ => .isFalse (by simp)

/-! ## Theorems -/

/-! ### Lemmas about the ordered output map -/

open Node

theorem omGet_insert_self (k : Nat) (x : Lit) (m : OutMap) :
    omGet k (omInsert k x m) = some x := by
  induction m with
  | nil => simp [omInsert, omGet]
  | cons p ps ih =>
      by_cases h1 : p.1 = k
      · simp [omInsert, h1, omGet]
      · by_cases h2 : p.1 < k
        · simp [omInsert, h1, h2, omGet, ih]
        · simp [omInsert, h1, h2, omGet]

theorem omGet_insert_ne (k k' : Nat) (x : Lit) (m : OutMap) (h : k' ≠ k) :
    omGet k' (omInsert k x m) = omGet k' m := by
  induction m with
  | nil => simp [omInsert, omGet, Ne.symm h]
  | cons p ps ih =>
      by_cases h1 : p.1 = k
      · simp [omInsert, h1, omGet, Ne.symm h, h]
      · by_cases h2 : p.1 < k
        · simp [omInsert, h1, h2, omGet, ih]
        · simp [omInsert, h1, h2, omGet, Ne.symm h, h]

theorem omGet_mem {k : Nat} {v : Lit} {m : OutMap} (h : omGet k m = some v) :
    (k, v) ∈ m := by
  induction m with
  | nil => simp [omGet] at h
  | cons p ps ih =>
      obtain ⟨a, b⟩ := p
      rw [omGet] at h
      by_cases h1 : a = k
      · rw [if_pos h1] at h
        injection h with h2
        rw [← h1, ← h2]
        exact .head _
      · rw [if_neg h1] at h
        exact .tail _ (ih h)

theorem omContains_def {k : Nat} {m : OutMap} :
    omContains k m = true ↔ ∃ v, omGet k m = some v := by
  rw [omContains, Option.isSome_iff_exists]

theorem omContains_of_get {k : Nat} {v : Lit} {m : OutMap}
    (h : omGet k m = some v) : omContains k m = true := by
  rw [omContains, h]
  rfl

theorem mem_insert {k : Nat} {x : Lit} {m : OutMap} {p : Nat × Lit}
    (h : p ∈ omInsert k x m) : p = (k, x) ∨ p ∈ m := by
  induction m with
  | nil => simpa [omInsert] using h
  | cons q qs ih =>
      by_cases h1 : q.1 = k
      · rw [omInsert, if_pos h1] at h
        rcases List.mem_cons.mp h with h | h
        · exact .inl h
        · exact .inr (.tail _ h)
      · by_cases h2 : q.1 < k
        · rw [omInsert, if_neg h1, if_pos h2] at h
          rcases List.mem_cons.mp h with h | h
          · exact .inr (by rw [h]; exact .head _)
          · rcases ih h with h | h
            · exact .inl h
            · exact .inr (.tail _ h)
        · rw [omInsert, if_neg h1, if_neg h2] at h
          rcases List.mem_cons.mp h with h | h
          · exact .inl h
          · exact .inr h

theorem mem_insert_of_mem {k : Nat} {x : Lit} {m : OutMap}
    (hnc : omContains k m = false) {p : Nat × Lit} (hp : p ∈ m) :
    p ∈ omInsert k x m := by
  induction m with
  | nil => cases hp
  | cons q qs ih =>
      rw [omContains, omGet] at hnc
      by_cases h1 : q.1 = k
      · rw [if_pos h1] at hnc
        simp at hnc
      · rw [if_neg h1] at hnc
        by_cases h2 : q.1 < k
        · rw [omInsert, if_neg h1, if_pos h2]
          rcases List.mem_cons.mp hp with hp | hp
          · rw [hp]
            exact .head _
          · exact .tail _ (ih hnc hp)
        · rw [omInsert, if_neg h1, if_neg h2]
          exact .tail _ hp

/-- A lookup in `omInsert` returns the inserted binding or an old one. -/
theorem omGet_insert_cases {k k' : Nat} {x : Lit} {m : OutMap} {v : Lit}
    (h : omGet k' (omInsert k x m) = some v) :
    (k' = k ∧ v = x) ∨ omGet k' m = some v := by
  by_cases he : k' = k
  · subst he
    rw [omGet_insert_self] at h
    injection h with h
    exact .inl ⟨rfl, h.symm⟩
  · rw [omGet_insert_ne _ _ _ _ he] at h
    exact .inr h

/-! ### Lemmas about variable reservation (`reserveKeys`) -/

theorem reserveKeys_get_old {ks : List Nat} {st : OutMap × Nat} {k : Nat} {v : Lit}
    (h : omGet k st.1 = some v) : omGet k (reserveKeys ks st).1 = some v := by
  induction ks generalizing st with
  | nil => exact h
  | cons a as ih =>
      rw [reserveKeys]
      by_cases hc : omContains a st.1
      · rw [if_pos hc]
        exact ih h
      · rw [if_neg hc]
        refine ih ?_
        have hne : k ≠ a := by
          intro he
          rw [← he, omContains, h] at hc
          exact hc rfl
        rw [omGet_insert_ne _ _ _ _ hne]
        exact h

theorem reserveKeys_contains_old {ks : List Nat} {st : OutMap × Nat} {k : Nat}
    (h : omContains k st.1 = true) : omContains k (reserveKeys ks st).1 = true := by
  rcases omContains_def.mp h with ⟨v, hv⟩
  exact omContains_of_get (reserveKeys_get_old hv)

theorem reserveKeys_contains_mem {ks : List Nat} {st : OutMap × Nat} {k : Nat}
    (h : k ∈ ks) : omContains k (reserveKeys ks st).1 = true := by
  induction ks generalizing st with
  | nil => cases h
  | cons a as ih =>
      rw [reserveKeys]
      rcases List.mem_cons.mp h with he | h
      · subst he
        by_cases hc : omContains k st.1
        · rw [if_pos hc]
          exact reserveKeys_contains_old hc
        · rw [if_neg hc]
          exact reserveKeys_contains_old (omContains_of_get (omGet_insert_self _ _ _))
      · by_cases hc : omContains a st.1
        · rw [if_pos hc]
          exact ih h
        · rw [if_neg hc]
          exact ih h

theorem reserveKeys_vm_le (ks : List Nat) (st : OutMap × Nat) :
    st.2 ≤ (reserveKeys ks st).2 := by
  induction ks generalizing st with
  | nil => exact Nat.le_refl _
  | cons a as ih =>
      rw [reserveKeys]
      by_cases hc : omContains a st.1
      · rw [if_pos hc]
        exact ih st
      · rw [if_neg hc]
        exact Nat.le_trans (Nat.le_succ _) (ih (omInsert a (posLit st.2) st.1, st.2 + 1))

/-- Every binding of the reserved map is an old binding or a freshly minted
positive literal whose variable lies in `[st.2, counter-after)`. -/
theorem reserveKeys_get_cases {ks : List Nat} {st : OutMap × Nat} {k : Nat} {v : Lit}
    (h : omGet k (reserveKeys ks st).1 = some v) :
    omGet k st.1 = some v
      ∨ (v = posLit v.v ∧ st.2 ≤ v.v ∧ v.v < (reserveKeys ks st).2 ∧ k ∈ ks) := by
  induction ks generalizing st with
  | nil => exact .inl h
  | cons a as ih =>
      rw [reserveKeys] at h ⊢
      by_cases hc : omContains a st.1
      · rw [if_pos hc] at h ⊢
        rcases ih h with h | ⟨h1, h2, h3, h4⟩
        · exact .inl h
        · exact .inr ⟨h1, h2, h3, .tail _ h4⟩
      · rw [if_neg hc] at h ⊢
        rcases ih h with h | ⟨h1, h2, h3, h4⟩
        · rcases omGet_insert_cases h with ⟨he, hv⟩ | h
          · subst he hv
            refine .inr ⟨rfl, Nat.le_refl _, ?_, .head _⟩
            exact Nat.lt_of_lt_of_le (Nat.lt_succ_self _)
              (reserveKeys_vm_le as (omInsert k (posLit st.2) st.1, st.2 + 1))
          · exact .inl h
        · exact .inr ⟨h1, Nat.le_trans (Nat.le_succ _) h2, h3, .tail _ h4⟩

/-- Keys of the reserved map are old keys or members of `ks`. -/
theorem reserveKeys_contains_cases {ks : List Nat} {st : OutMap × Nat} {k : Nat}
    (h : omContains k (reserveKeys ks st).1 = true) :
    omContains k st.1 = true ∨ k ∈ ks := by
  rcases omContains_def.mp h with ⟨v, hv⟩
  rcases reserveKeys_get_cases hv with h | ⟨_, _, _, h⟩
  · exact .inl (omContains_of_get h)
  · exact .inr h

/-- Old entries survive reservation as list members. -/
theorem reserveKeys_mem_old {ks : List Nat} {st : OutMap × Nat} {p : Nat × Lit}
    (h : p ∈ st.1) : p ∈ (reserveKeys ks st).1 := by
  induction ks generalizing st with
  | nil => exact h
  | cons a as ih =>
      rw [reserveKeys]
      by_cases hc : omContains a st.1
      · rw [if_pos hc]
        exact ih h
      · rw [if_neg hc]
        exact ih (mem_insert_of_mem (Bool.not_eq_true _ ▸ hc) h)

/-- Every entry of the reserved map is an old entry or freshly minted. -/
theorem reserveKeys_mem_cases {ks : List Nat} {st : OutMap × Nat} {p : Nat × Lit}
    (h : p ∈ (reserveKeys ks st).1) :
    p ∈ st.1 ∨ (p.2 = posLit p.2.v ∧ st.2 ≤ p.2.v ∧ p.1 ∈ ks) := by
  induction ks generalizing st with
  | nil => exact .inl h
  | cons a as ih =>
      rw [reserveKeys] at h
      by_cases hc : omContains a st.1
      · rw [if_pos hc] at h
        rcases ih h with h | ⟨h1, h2, h3⟩
        · exact .inl h
        · exact .inr ⟨h1, h2, .tail _ h3⟩
      · rw [if_neg hc] at h
        rcases ih h with h | ⟨h1, h2, h3⟩
        · rcases mem_insert h with h | h
          · rw [h]
            exact .inr ⟨rfl, Nat.le_refl _, .head _⟩
          · exact .inl h
        · exact .inr ⟨h1, Nat.le_trans (Nat.le_succ _) h2, .tail _ h3⟩


/-! ### Equations and shape of the encoding kernel -/

theorem encodeFromTill_of_gt {minE maxE vm : Nat} {t : Node} (h : minE > maxE) :
    encodeFromTill minE maxE vm t = (t, vm, []) := by
  rw [encodeFromTill, if_pos h]

theorem encodeFromTill_leaf (minE maxE vm : Nat) (l : Lit) (w : Nat) :
    encodeFromTill minE maxE vm (.leaf l w) = (.leaf l w, vm, []) := by
  rw [encodeFromTill]
  split <;> rfl

theorem encodeFromTill_internal_hi {minE maxE : Nat} (vm : Nat) (out : OutMap)
    (d nc mv : Nat) (mme : Option (Nat × Nat)) (l r : Node) (h1 : ¬ minE > maxE)
    (h2 : minE > mv) :
    encodeFromTill minE maxE vm (.internal out d nc mv mme l r) =
      (.internal (reserveKeys (reserveList minE maxE (nodeMap l) (nodeMap r)) (out, vm)).1
         d nc mv mme l r,
       (reserveKeys (reserveList minE maxE (nodeMap l) (nodeMap r)) (out, vm)).2, []) := by
  rw [encodeFromTill, if_neg h1]
  simp only [reserveVarsFromTill]
  rw [if_pos h2]

theorem encodeFromTill_internal_lo {minE maxE : Nat} (vm : Nat) (out : OutMap)
    (d nc mv : Nat) (mme : Option (Nat × Nat)) (l r : Node) (h1 : ¬ minE > maxE)
    (h2 : ¬ minE > mv) :
    encodeFromTill minE maxE vm (.internal out d nc mv mme l r) =
      (.internal (reserveKeys (reserveList minE maxE (nodeMap l) (nodeMap r)) (out, vm)).1
         d nc mv mme l r,
       (reserveKeys (reserveList minE maxE (nodeMap l) (nodeMap r)) (out, vm)).2,
       fromTillClauses minE maxE (nodeMap l) (nodeMap r)
         (reserveKeys (reserveList minE maxE (nodeMap l) (nodeMap r)) (out, vm)).1) := by
  rw [encodeFromTill, if_neg h1]
  simp only [reserveVarsFromTill]
  rw [if_neg h2]

/-- `encode_from_till` keeps the node internal and only changes `out_lits`. -/
theorem encodeFromTill_shape (minE maxE vm : Nat) (out : OutMap) (d nc mv : Nat)
    (mme : Option (Nat × Nat)) (l r : Node) :
    ∃ out2 vm2 cnf2,
      encodeFromTill minE maxE vm (.internal out d nc mv mme l r)
        = (.internal out2 d nc mv mme l r, vm2, cnf2) := by
  by_cases h : minE > maxE
  · exact ⟨out, vm, [], encodeFromTill_of_gt h⟩
  · by_cases h2 : minE > mv
    · exact ⟨_, _, _, encodeFromTill_internal_hi vm out d nc mv mme l r h h2⟩
    · exact ⟨_, _, _, encodeFromTill_internal_lo vm out d nc mv mme l r h h2⟩

/-- The kernel emits nothing when the window starts above `max_val`. -/
theorem encodeFromTill_cnf_nil_of_gt_max {minE maxE vm : Nat} {out : OutMap}
    {d nc mv : Nat} {mme : Option (Nat × Nat)} {l r : Node} (h : minE > mv) :
    (encodeFromTill minE maxE vm (.internal out d nc mv mme l r)).2.2 = [] := by
  by_cases hm : minE > maxE
  · rw [encodeFromTill_of_gt hm]
  · rw [encodeFromTill_internal_hi vm out d nc mv mme l r hm h]

theorem encodeFromTill_vm_le (minE maxE vm : Nat) (t : Node) :
    vm ≤ (encodeFromTill minE maxE vm t).2.1 := by
  by_cases h : minE > maxE
  · rw [encodeFromTill_of_gt h]
  · cases t with
    | leaf l w => rw [encodeFromTill_leaf]
    | internal out d nc mv mme l r =>
        by_cases h2 : minE > mv
        · rw [encodeFromTill_internal_hi vm out d nc mv mme l r h h2]
          exact reserveKeys_vm_le (reserveList minE maxE (nodeMap l) (nodeMap r)) (out, vm)
        · rw [encodeFromTill_internal_lo vm out d nc mv mme l r h h2]
          exact reserveKeys_vm_le (reserveList minE maxE (nodeMap l) (nodeMap r)) (out, vm)

/-- Bindings of `out_lits` survive `encode_from_till`. -/
theorem encodeFromTill_get_old {minE maxE vm : Nat} {out : OutMap} {d nc mv : Nat}
    {mme : Option (Nat × Nat)} {l r : Node} {k : Nat} {v : Lit}
    (h : omGet k out = some v) :
    omGet k (nodeMap (encodeFromTill minE maxE vm (.internal out d nc mv mme l r)).1)
      = some v := by
  by_cases hm : minE > maxE
  · rw [encodeFromTill_of_gt hm]
    exact h
  · by_cases h2 : minE > mv
    · rw [encodeFromTill_internal_hi vm out d nc mv mme l r hm h2]
      exact reserveKeys_get_old h
    · rw [encodeFromTill_internal_lo vm out d nc mv mme l r hm h2]
      exact reserveKeys_get_old h

/-! ### Membership in the reservation list and the emitted clauses -/

theorem reserveList_mem_left {minE maxE : Nat} {lmap rmap : OutMap} {a : Nat} {la : Lit}
    (hm : (a, la) ∈ lmap) (h1 : minE ≤ a) (h2 : a ≤ maxE) :
    a ∈ reserveList minE maxE lmap rmap := by
  refine List.mem_append_left _ (List.mem_append_left _ ?_)
  exact List.mem_map.mpr ⟨(a, la), List.mem_filter.mpr ⟨hm, by simp [h1, h2]⟩, rfl⟩

theorem reserveList_mem_right {minE maxE : Nat} {lmap rmap : OutMap} {b : Nat} {lb : Lit}
    (hm : (b, lb) ∈ rmap) (h1 : minE ≤ b) (h2 : b ≤ maxE) :
    b ∈ reserveList minE maxE lmap rmap := by
  refine List.mem_append_left _ (List.mem_append_right _ ?_)
  exact List.mem_map.mpr ⟨(b, lb), List.mem_filter.mpr ⟨hm, by simp [h1, h2]⟩, rfl⟩

theorem sumKeys_mem {minE maxE : Nat} {lmap rmap : OutMap} {a b : Nat} {la lb : Lit}
    (hla : (a, la) ∈ lmap) (hlb : (b, lb) ∈ rmap) (ha0 : 0 < a) (haM : a < maxE)
    (hmin : minE ≤ a + b) (hmax : a + b ≤ maxE) :
    (a + b) ∈ sumKeys minE maxE lmap rmap := by
  rw [sumKeys]
  refine List.mem_flatMap.mpr ⟨(a, la), List.mem_filter.mpr ⟨hla, by simp [ha0, haM]⟩, ?_⟩
  refine List.mem_filterMap.mpr ⟨(b, lb), List.mem_filter.mpr ⟨hlb, ?_⟩, ?_⟩
  · simp only [decide_eq_true_eq]
    constructor
    · by_cases hca : minE > a
      · rw [if_pos hca]
        exact Nat.sub_le_iff_le_add.mpr (by omega)
      · rw [if_neg hca]
        exact Nat.zero_le _
    · omega
  · rw [if_neg (by omega)]

theorem reserveList_mem_sum {minE maxE : Nat} {lmap rmap : OutMap} {a b : Nat} {la lb : Lit}
    (hla : (a, la) ∈ lmap) (hlb : (b, lb) ∈ rmap) (ha0 : 0 < a) (haM : a < maxE)
    (hmin : minE ≤ a + b) (hmax : a + b ≤ maxE) :
    (a + b) ∈ reserveList minE maxE lmap rmap :=
  List.mem_append_right _ (sumKeys_mem hla hlb ha0 haM hmin hmax)

theorem fromTillClauses_mem_left {minE maxE : Nat} {lmap rmap out : OutMap}
    {a : Nat} {la : Lit} (hm : (a, la) ∈ lmap) (h1 : minE ≤ a) (h2 : a ≤ maxE) :
    litImplLit la (omGetD a out) ∈ fromTillClauses minE maxE lmap rmap out := by
  refine List.mem_append_left _ (List.mem_append_left _ ?_)
  exact List.mem_map.mpr ⟨(a, la), List.mem_filter.mpr ⟨hm, by simp [h1, h2]⟩, rfl⟩

theorem fromTillClauses_mem_right {minE maxE : Nat} {lmap rmap out : OutMap}
    {b : Nat} {lb : Lit} (hm : (b, lb) ∈ rmap) (h1 : minE ≤ b) (h2 : b ≤ maxE) :
    litImplLit lb (omGetD b out) ∈ fromTillClauses minE maxE lmap rmap out := by
  refine List.mem_append_left _ (List.mem_append_right _ ?_)
  exact List.mem_map.mpr ⟨(b, lb), List.mem_filter.mpr ⟨hm, by simp [h1, h2]⟩, rfl⟩

theorem fromTillClauses_mem_sum {minE maxE : Nat} {lmap rmap out : OutMap}
    {a b : Nat} {la lb : Lit}
    (hla : (a, la) ∈ lmap) (hlb : (b, lb) ∈ rmap) (ha0 : 0 < a) (haM : a < maxE)
    (hmin : minE ≤ a + b) (hmax : a + b ≤ maxE) :
    cubeImplLit la lb (omGetD (a + b) out) ∈ fromTillClauses minE maxE lmap rmap out := by
  refine List.mem_append_right _ ?_
  rw [sumClauses]
  refine List.mem_flatMap.mpr ⟨(a, la), List.mem_filter.mpr ⟨hla, by simp [ha0, haM]⟩, ?_⟩
  refine List.mem_filterMap.mpr ⟨(b, lb), List.mem_filter.mpr ⟨hlb, ?_⟩, ?_⟩
  · simp only [decide_eq_true_eq]
    constructor
    · by_cases hca : minE > a
      · rw [if_pos hca]
        exact Nat.sub_le_iff_le_add.mpr (by omega)
      · rw [if_neg hca]
        exact Nat.zero_le _
    · omega
  · rw [if_neg (by omega)]

/-! ### Satisfaction lemmas -/

theorem cnfSatB_append {f : Nat → Bool} {c1 c2 : CNF} :
    cnfSatB f (c1 ++ c2) = (cnfSatB f c1 && cnfSatB f c2) := List.all_append

theorem cnfSatB_mem {f : Nat → Bool} {cnf : CNF} {c : Clause}
    (h : cnfSatB f cnf = true) (hc : c ∈ cnf) : clauseSatB f c = true :=
  List.all_eq_true.mp h c hc

theorem litValB_negLit (f : Nat → Bool) (l : Lit) :
    litValB f (negLit l) = !litValB f l := by
  cases hp : l.pol <;> simp [litValB, negLit, hp]

theorem clauseSat_litImplLit {f : Nat → Bool} {a b : Lit}
    (h : clauseSatB f (litImplLit a b) = true) (ha : litValB f a = true) :
    litValB f b = true := by
  rcases List.any_eq_true.mp h with ⟨x, hx, hv⟩
  rcases List.mem_cons.mp hx with he | hx
  · subst he
    rw [litValB_negLit, ha] at hv
    cases hv
  · rcases List.mem_cons.mp hx with he | hx
    · subst he
      exact hv
    · cases hx

theorem clauseSat_cubeImplLit {f : Nat → Bool} {a b c : Lit}
    (h : clauseSatB f (cubeImplLit a b c) = true)
    (ha : litValB f a = true) (hb : litValB f b = true) : litValB f c = true := by
  rcases List.any_eq_true.mp h with ⟨x, hx, hv⟩
  rcases List.mem_cons.mp hx with he | hx
  · subst he
    rw [litValB_negLit, ha] at hv
    cases hv
  · rcases List.mem_cons.mp hx with he | hx
    · subst he
      rw [litValB_negLit, hb] at hv
      cases hv
    · rcases List.mem_cons.mp hx with he | hx
      · subst he
        exact hv
      · cases hx

/-! ### Structure of `encode_rec` -/

/-- A requested lower window bound of 1 narrows to 1 for every child. -/
theorem computeRequiredMinEnc_one (M : Nat) (sib : Node) :
    computeRequiredMinEnc 1 M sib = 1 := by
  cases sib with
  | leaf l w => simp [computeRequiredMinEnc]
  | internal out d nc mv mme l r =>
      rw [computeRequiredMinEnc]
      split_ifs <;> omega

/-- The defining equation of `encode_rec` on an internal node, with the
recursive calls and the kernel call abstracted by hypotheses. -/
theorem encodeRec_internal_eq {minE maxE vm : Nat} {out : OutMap} {d nc mv : Nat}
    {mme : Option (Nat × Nat)} {l r : Node}
    {lt rt : Node} {vm1 vm2 vm3 : Nat} {cL cR cF : CNF} {out2 : OutMap}
    (hl : encodeRec (computeRequiredMinEnc minE maxE r) maxE vm l = (lt, vm1, cL))
    (hr : encodeRec (computeRequiredMinEnc minE maxE l) maxE vm1 r = (rt, vm2, cR))
    (hf : encodeFromTill minE maxE vm2 (.internal out d nc mv mme lt rt)
            = (.internal out2 d nc mv mme lt rt, vm3, cF)) :
    encodeRec minE maxE vm (.internal out d nc mv mme l r)
      = (.internal out2 d (nc + cF.length) mv (some (minE, min mv maxE)) lt rt,
         vm3, cL ++ cR ++ cF) := by
  rw [encodeRec]
  simp only [hl, hr, hf]

theorem wsum_append (a b : List (Lit × Nat)) : wsum (a ++ b) = wsum a + wsum b := by
  simp [wsum]

theorem wsum_pos {S : List (Lit × Nat)} (hne : S ≠ [])
    (hw : ∀ p ∈ S, 1 ≤ p.2) : 1 ≤ wsum S := by
  cases S with
  | nil => cases hne rfl
  | cons p ps =>
      have h1 : 1 ≤ p.2 := hw p (.head _)
      simp only [wsum, List.map_cons, List.sum_cons]
      omega

theorem wsum_sublist_le {S T : List (Lit × Nat)} (h : S.Sublist T) :
    wsum S ≤ wsum T :=
  List.Sublist.sum_le_sum (h.map Prod.snd) (fun a _ => Nat.zero_le a)

theorem sublist_append_split {α : Type} {S A B : List α} (h : S.Sublist (A ++ B)) :
    ∃ SL SR, S = SL ++ SR ∧ SL.Sublist A ∧ SR.Sublist B := by
  induction A generalizing S with
  | nil => exact ⟨[], S, rfl, List.nil_sublist _, h⟩
  | cons a A ih =>
      cases h with
      | cons _ h2 =>
          rcases ih h2 with ⟨SL, SR, hS, hA, hB⟩
          exact ⟨SL, SR, hS, hA.cons a, hB⟩
      | cons₂ _ h2 =>
          rcases ih h2 with ⟨SL, SR, hS, hA, hB⟩
          exact ⟨a :: SL, SR, by rw [hS]; rfl, hA.cons₂ a, hB⟩

/-- Soundness direction of the threshold semantics, for a full-window encode
(`encode_rec` with lower window bound 1): in every assignment satisfying the
emitted clauses, any nonempty all-true selection `S` of leaves with positive
weights and `wsum S ≤ M` forces the output literal of value `wsum S`, which
is present in the node's output map. -/
theorem encodeRec_sound (M : Nat) (f : Nat → Bool) :
    ∀ (t : Node) (vm : Nat), nodeInvB t = true →
      cnfSatB f (encodeRec 1 M vm t).2.2 = true →
      ∀ S : List (Lit × Nat), S.Sublist (leavesOf t) → S ≠ [] →
        (∀ p ∈ S, litValB f p.1 = true) → (∀ p ∈ S, 1 ≤ p.2) → wsum S ≤ M →
        ∃ o, omGet (wsum S) (nodeMap (encodeRec 1 M vm t).1) = some o
          ∧ litValB f o = true := by
  intro t
  induction t with
  | leaf l w =>
      intro vm _ _ S hsub hne htrue hwt _
      rcases List.sublist_singleton.mp hsub with h | h
      · cases hne h
      · subst h
        refine ⟨l, ?_, htrue (l, w) (.head _)⟩
        simp [encodeRec, nodeMap, wsum, omGet]
  | internal out d nc mv mme l r ihl ihr =>
      intro vm hinv hsat S hsub hne htrue hwt hle
      rw [nodeInvB] at hinv
      simp only [Bool.and_eq_true, decide_eq_true_eq] at hinv
      obtain ⟨⟨⟨⟨hmv, _⟩, _⟩, hinvl⟩, hinvr⟩ := hinv
      rcases hlr : encodeRec 1 M vm l with ⟨lt, r1⟩
      rcases r1 with ⟨vm1, cL⟩
      rcases hrr : encodeRec 1 M vm1 r with ⟨rt, r2⟩
      rcases r2 with ⟨vm2, cR⟩
      have hl1 : encodeRec (computeRequiredMinEnc 1 M r) M vm l = (lt, vm1, cL) := by
        rw [computeRequiredMinEnc_one]
        exact hlr
      have hr1 : encodeRec (computeRequiredMinEnc 1 M l) M vm1 r = (rt, vm2, cR) := by
        rw [computeRequiredMinEnc_one]
        exact hrr
      -- the window never starts above max_val here: S is a nonempty selection
      have hS_le_mv : wsum S ≤ mv := by
        rw [hmv]
        calc wsum S ≤ wsum (leavesOf (Node.internal out d nc mv mme l r)) :=
              wsum_sublist_le hsub
          _ = wsum (leavesOf l) + wsum (leavesOf r) := by
              rw [leavesOf, wsum_append]
      have hS_pos : 1 ≤ wsum S := wsum_pos hne hwt
      have hmv1 : ¬ 1 > mv := by omega
      have hM1 : ¬ 1 > M := by omega
      set RK := reserveKeys (reserveList 1 M (nodeMap lt) (nodeMap rt)) (out, vm2) with hRK
      have hf : encodeFromTill 1 M vm2 (.internal out d nc mv mme lt rt)
          = (.internal RK.1 d nc mv mme lt rt, RK.2,
             fromTillClauses 1 M (nodeMap lt) (nodeMap rt) RK.1) :=
        encodeFromTill_internal_lo vm2 out d nc mv mme lt rt hM1 hmv1
      rw [encodeRec_internal_eq hl1 hr1 hf] at hsat ⊢
      simp only [cnfSatB_append, Bool.and_eq_true] at hsat
      obtain ⟨⟨hsatL, hsatR⟩, hsatF⟩ := hsat
      have hsatL' : cnfSatB f (encodeRec 1 M vm l).2.2 = true := by
        rw [hlr]
        exact hsatL
      have hsatR' : cnfSatB f (encodeRec 1 M vm1 r).2.2 = true := by
        rw [hrr]
        exact hsatR
      -- split the selection along the two children
      rw [leavesOf] at hsub
      rcases sublist_append_split hsub with ⟨SL, SR, hSsplit, hsubL, hsubR⟩
      subst hSsplit
      rcases List.eq_nil_or_concat' SL with hSL | _
      · -- selection entirely in the right child
        subst hSL
        simp only [List.nil_append] at htrue hwt hne hle hS_le_mv hS_pos ⊢
        have hres := ihr vm1 hinvr hsatR' SR hsubR hne htrue hwt hle
        rw [hrr] at hres
        rcases hres with ⟨lb, hget, hval⟩
        have hmem : (wsum SR, lb) ∈ nodeMap rt := omGet_mem hget
        have hcl : litImplLit lb (omGetD (wsum SR) RK.1)
            ∈ fromTillClauses 1 M (nodeMap lt) (nodeMap rt) RK.1 :=
          fromTillClauses_mem_right hmem hS_pos hle
        have hcontains : omContains (wsum SR) RK.1 = true :=
          reserveKeys_contains_mem (reserveList_mem_right hmem hS_pos hle)
        rcases omContains_def.mp hcontains with ⟨o, ho⟩
        refine ⟨o, ho, ?_⟩
        have := clauseSat_litImplLit (cnfSatB_mem hsatF hcl) hval
        rw [omGetD, ho] at this
        exact this
      · rcases List.eq_nil_or_concat' SR with hSR | _
        · -- selection entirely in the left child
          subst hSR
          simp only [List.append_nil] at htrue hwt hne hle hS_le_mv hS_pos ⊢
          have hres := ihl vm hinvl hsatL' SL hsubL hne htrue hwt hle
          rw [hlr] at hres
          rcases hres with ⟨la, hget, hval⟩
          have hmem : (wsum SL, la) ∈ nodeMap lt := omGet_mem hget
          have hcl : litImplLit la (omGetD (wsum SL) RK.1)
              ∈ fromTillClauses 1 M (nodeMap lt) (nodeMap rt) RK.1 :=
            fromTillClauses_mem_left hmem hS_pos hle
          have hcontains : omContains (wsum SL) RK.1 = true :=
            reserveKeys_contains_mem (reserveList_mem_left hmem hS_pos hle)
          rcases omContains_def.mp hcontains with ⟨o, ho⟩
          refine ⟨o, ho, ?_⟩
          have := clauseSat_litImplLit (cnfSatB_mem hsatF hcl) hval
          rw [omGetD, ho] at this
          exact this
        · -- both halves nonempty: use the sum-propagation clause
          have hneL : SL ≠ [] := by
            rename_i hc _
            rcases hc with ⟨L0, x, hx⟩
            simp [hx]
          have hneR : SR ≠ [] := by
            rename_i hc
            rcases hc with ⟨L0, x, hx⟩
            simp [hx]
          have htrueL : ∀ p ∈ SL, litValB f p.1 = true := fun p hp =>
            htrue p (List.mem_append_left _ hp)
          have htrueR : ∀ p ∈ SR, litValB f p.1 = true := fun p hp =>
            htrue p (List.mem_append_right _ hp)
          have hwtL : ∀ p ∈ SL, 1 ≤ p.2 := fun p hp =>
            hwt p (List.mem_append_left _ hp)
          have hwtR : ∀ p ∈ SR, 1 ≤ p.2 := fun p hp =>
            hwt p (List.mem_append_right _ hp)
          have hsumsplit : wsum (SL ++ SR) = wsum SL + wsum SR := wsum_append _ _
          have hposL : 1 ≤ wsum SL := wsum_pos hneL hwtL
          have hposR : 1 ≤ wsum SR := wsum_pos hneR hwtR
          have hleL : wsum SL ≤ M := by omega
          have hleR : wsum SR ≤ M := by omega
          have hresL := ihl vm hinvl hsatL' SL hsubL hneL htrueL hwtL hleL
          rw [hlr] at hresL
          rcases hresL with ⟨la, hgetL, hvalL⟩
          have hresR := ihr vm1 hinvr hsatR' SR hsubR hneR htrueR hwtR hleR
          rw [hrr] at hresR
          rcases hresR with ⟨lb, hgetR, hvalR⟩
          have hmemL : (wsum SL, la) ∈ nodeMap lt := omGet_mem hgetL
          have hmemR : (wsum SR, lb) ∈ nodeMap rt := omGet_mem hgetR
          have haM : wsum SL < M := by omega
          have hminsum : 1 ≤ wsum SL + wsum SR := by omega
          have hmaxsum : wsum SL + wsum SR ≤ M := by omega
          have hcl : cubeImplLit la lb (omGetD (wsum SL + wsum SR) RK.1)
              ∈ fromTillClauses 1 M (nodeMap lt) (nodeMap rt) RK.1 :=
            fromTillClauses_mem_sum hmemL hmemR hposL haM hminsum hmaxsum
          have hcontains : omContains (wsum SL + wsum SR) RK.1 = true :=
            reserveKeys_contains_mem
              (reserveList_mem_sum hmemL hmemR hposL haM hminsum hmaxsum)
          rcases omContains_def.mp hcontains with ⟨o, ho⟩
          rw [hsumsplit]
          refine ⟨o, ho, ?_⟩
          have := clauseSat_cubeImplLit (cnfSatB_mem hsatF hcl) hvalL hvalR
          rw [omGetD, ho] at this
          exact this

/-! ### Leaves and invariants of built and encoded trees -/

theorem encodeRec_leaves (minE maxE vm : Nat) (t : Node) :
    leavesOf (encodeRec minE maxE vm t).1 = leavesOf t := by
  induction t generalizing minE maxE vm with
  | leaf l w => rfl
  | internal out d nc mv mme l r ihl ihr =>
      rcases hlr : encodeRec (computeRequiredMinEnc minE maxE r) maxE vm l with ⟨lt, r1⟩
      rcases r1 with ⟨vm1, cL⟩
      rcases hrr : encodeRec (computeRequiredMinEnc minE maxE l) maxE vm1 r with ⟨rt, r2⟩
      rcases r2 with ⟨vm2, cR⟩
      rcases encodeFromTill_shape minE maxE vm2 out d nc mv mme lt rt with ⟨out2, vm3, cF, hf⟩
      rw [encodeRec_internal_eq hlr hrr hf, leavesOf, leavesOf]
      have h1 := ihl (computeRequiredMinEnc minE maxE r) maxE vm
      have h2 := ihr (computeRequiredMinEnc minE maxE l) maxE vm1
      rw [hlr] at h1
      rw [hrr] at h2
      rw [h1, h2]

theorem childVal_eq_wsum_leaves {t : Node} (h : nodeInvB t = true) :
    childVal t = wsum (leavesOf t) := by
  cases t with
  | leaf l w => simp [childVal, leavesOf, wsum]
  | internal out d nc mv mme l r =>
      rw [nodeInvB] at h
      simp only [Bool.and_eq_true, decide_eq_true_eq] at h
      rw [childVal, leavesOf, wsum_append]
      exact h.1.1.1.1

theorem nodeInvB_newInternal {a b : Node} (ha : nodeInvB a = true)
    (hb : nodeInvB b = true) : nodeInvB (newInternal a b) = true := by
  rw [newInternal, nodeInvB]
  simp only [Bool.and_eq_true, decide_eq_true_eq]
  exact ⟨⟨⟨⟨by rw [childVal_eq_wsum_leaves ha, childVal_eq_wsum_leaves hb],
    by simp [omSortedB]⟩, by simp⟩, ha⟩, hb⟩

theorem buildTreeF_leaves : ∀ (fuel : Nat) (l : List (Lit × Nat)),
    l.length ≤ fuel → l ≠ [] → leavesOf (buildTreeF fuel l) = l := by
  intro fuel
  induction fuel with
  | zero =>
      intro l hlen hne
      cases l with
      | nil => cases hne rfl
      | cons x xs => simp at hlen
  | succ fuel ih =>
      intro l hlen hne
      match l with
      | [] => cases hne rfl
      | [x] => rfl
      | x :: y :: rest =>
          rw [buildTreeF]
          set n := (x :: y :: rest).length with hn
          have hlenn : n = rest.length + 2 := by rw [hn]; simp
          have hs1 : 1 ≤ n / 2 := Nat.one_le_div_iff (by omega) |>.mpr (by omega)
          have hslt : n / 2 < n := Nat.div_lt_self (by omega) (by omega)
          have htake : ((x :: y :: rest).take (n / 2)).length = n / 2 := by
            rw [List.length_take, ← hn]
            omega
          have hdrop : ((x :: y :: rest).drop (n / 2)).length = n - n / 2 := by
            rw [List.length_drop, ← hn]
          rw [newInternal, leavesOf]
          rw [ih _ (by rw [htake]; omega)
              (by
                intro h
                rw [h] at htake
                simp at htake
                omega),
            ih _ (by rw [hdrop]; omega)
              (by
                intro h
                rw [h] at hdrop
                simp at hdrop
                omega)]
          exact List.take_append_drop _ _

theorem buildTreeF_inv : ∀ (fuel : Nat) (l : List (Lit × Nat)),
    l.length ≤ fuel → nodeInvB (buildTreeF fuel l) = true := by
  intro fuel
  induction fuel with
  | zero =>
      intro l hlen
      cases l with
      | nil => rfl
      | cons x xs => simp at hlen
  | succ fuel ih =>
      intro l hlen
      match l with
      | [] => rfl
      | [x] => rfl
      | x :: y :: rest =>
          rw [buildTreeF]
          set n := (x :: y :: rest).length with hn
          have hlenn : n = rest.length + 2 := by rw [hn]; simp
          have hs1 : 1 ≤ n / 2 := Nat.one_le_div_iff (by omega) |>.mpr (by omega)
          have hslt : n / 2 < n := Nat.div_lt_self (by omega) (by omega)
          have htake : ((x :: y :: rest).take (n / 2)).length = n / 2 := by
            rw [List.length_take, ← hn]
            omega
          have hdrop : ((x :: y :: rest).drop (n / 2)).length = n - n / 2 := by
            rw [List.length_drop, ← hn]
          exact nodeInvB_newInternal
            (ih _ (by rw [htake]; omega))
            (ih _ (by rw [hdrop]; omega))

theorem buildTree_leaves {l : List (Lit × Nat)} (hne : l ≠ []) :
    leavesOf (buildTree l) = l :=
  buildTreeF_leaves l.length l (Nat.le_refl _) hne

theorem buildTree_inv (l : List (Lit × Nat)) : nodeInvB (buildTree l) = true :=
  buildTreeF_inv l.length l (Nat.le_refl _)

/-- What `extend_tree` does on a non-reserving encoder with no tree yet whose
buffered weights all qualify: it internalizes the whole buffer into a freshly
built balanced tree. -/
theorem extendTree_fresh_eq (hi vm : Nat) (s : GTE)
    (hroot : s.root = none) (hres : s.reserve_vars = false)
    (hbne : s.lit_buffer ≠ []) (hq : ∀ p ∈ s.lit_buffer, p.2 ≤ hi) :
    extendTreeWith false s.lit_buffer hi vm s
      = ({ s with
            root := some (buildTree (sortByWeight s.lit_buffer)),
            in_lits := s.lit_buffer.foldl
              (fun acc p => if p.2 ≤ hi then wmAdd p.1 p.2 acc else acc) s.in_lits,
            lit_buffer := s.lit_buffer.filter fun p => decide (¬ p.2 ≤ hi),
            max_leaf_weight :=
              s.lit_buffer.foldl (fun m p => max m p.2) s.max_leaf_weight }, vm) := by
  have hfilter : (s.lit_buffer.filter fun p => decide (p.2 ≤ hi)) = s.lit_buffer :=
    List.filter_eq_self.mpr fun p hp => by simpa using hq p hp
  rw [extendTreeWith, if_neg hbne]
  simp only [hfilter, Bool.false_eq_true, if_false, Prod.mk.eta, List.map_id']
  rw [if_neg hbne, hres, hroot]
  simp

/-- C7 (amended), soundness direction of the threshold semantics at the
encoder level: after `encode_ub(0, hi)` on a fresh non-reserving encoder
whose buffered weights are positive and at most `hi`, every satisfying
assignment of the emitted clauses makes the root output literal of value
`wsum S` true (and that output value is present) for every nonempty all-true
selection `S` of the leaves with `wsum S` inside the encoded window.  The
converse direction of the claim is refuted by
`threshold_iff_counterexample`. -/
theorem gte_threshold_sound (hi vm : Nat) (s : GTE) (f : Nat → Bool)
    (cnf : CNF) (s1 : GTE) (vm1 : Nat) (rt : Node) (S : List (Lit × Nat))
    (hroot : s.root = none) (hres : s.reserve_vars = false)
    (hwts : ∀ p ∈ s.lit_buffer, 1 ≤ p.2 ∧ p.2 ≤ hi)
    (henc : encodeUb 0 hi vm s = .ok (cnf, s1, vm1))
    (hrt : s1.root = some rt)
    (hsat : cnfSatB f cnf = true)
    (hsub : S.Sublist (leavesOf rt)) (hne : S ≠ [])
    (htrue : ∀ p ∈ S, litValB f p.1 = true)
    (hle : wsum S ≤ hi + s1.max_leaf_weight) :
    ∃ o, omGet (wsum S) (nodeMap rt) = some o ∧ litValB f o = true := by
  by_cases hbe : s.lit_buffer = []
  · -- no inputs: the tree stays absent, contradicting `s1.root = some rt`
    rw [encodeUb, encodeUbWith, if_neg (by omega)] at henc
    rw [extendTreeWith, if_pos hbe] at henc
    simp only [hroot] at henc
    rw [Except.ok.injEq, Prod.mk.injEq, Prod.mk.injEq] at henc
    obtain ⟨-, hs1, -⟩ := henc
    rw [← hs1] at hrt
    simp at hrt
  · rw [encodeUb, encodeUbWith, if_neg (by omega)] at henc
    rw [extendTree_fresh_eq hi vm s hroot hres hbe (fun p hp => (hwts p hp).2)] at henc
    simp only [Nat.zero_add] at henc
    set mlw := s.lit_buffer.foldl (fun m p => max m p.2) s.max_leaf_weight with hmlw
    set tree0 := buildTree (sortByWeight s.lit_buffer) with htree0
    set er := encodeRec 1 (hi + mlw) vm tree0 with her
    rw [Except.ok.injEq, Prod.mk.injEq, Prod.mk.injEq] at henc
    obtain ⟨hcnf, hs1, hvm1⟩ := henc
    have hmlw1 : s1.max_leaf_weight = mlw := by
      rw [← hs1]
    have hroot1 : rt = er.1 := by
      rw [← hs1] at hrt
      simp only at hrt
      injection hrt with h
      exact h.symm
    have hsorted_ne : sortByWeight s.lit_buffer ≠ [] := by
      intro h
      have hl := (List.perm_insertionSort (fun p q : Lit × Nat => p.2 ≤ q.2)
        s.lit_buffer).length_eq
      rw [sortByWeight] at h
      rw [h] at hl
      simp only [List.length_nil] at hl
      exact hbe (List.length_eq_zero.mp hl.symm)
    have hleaves0 : leavesOf tree0 = sortByWeight s.lit_buffer :=
      buildTree_leaves hsorted_ne
    have hleavesrt : leavesOf rt = sortByWeight s.lit_buffer := by
      rw [hroot1, her, encodeRec_leaves 1 (hi + mlw) vm tree0]
      exact hleaves0
    have hwS : ∀ p ∈ S, 1 ≤ p.2 := by
      intro p hp
      have hmem : p ∈ leavesOf rt := hsub.subset hp
      rw [hleavesrt] at hmem
      have hpb : p ∈ s.lit_buffer :=
        (List.perm_insertionSort (fun p q : Lit × Nat => p.2 ≤ q.2)
          s.lit_buffer).subset hmem
      exact (hwts p hpb).1
    have hsat' : cnfSatB f er.2.2 = true := by
      rw [hcnf]
      exact hsat
    have hsub' : S.Sublist (leavesOf tree0) := by
      rw [hleaves0, ← hleavesrt]
      exact hsub
    have hle' : wsum S ≤ hi + mlw := by
      rw [hmlw1] at hle
      exact hle
    have hsound := encodeRec_sound (hi + mlw) f tree0 vm (buildTree_inv _)
      hsat' S hsub' hne htrue hwS hle'
    rw [hroot1]
    exact hsound

/-! ### Determinism of the sort under distinct weights (claim C3) -/

theorem sortByWeight_sorted (l : List (Lit × Nat)) :
    List.Pairwise (fun p q : Lit × Nat => p.2 ≤ q.2) (sortByWeight l) :=
  List.sorted_insertionSort _ l

theorem sortByWeight_perm (l : List (Lit × Nat)) : (sortByWeight l).Perm l :=
  List.perm_insertionSort _ l

/-- Two weight-sorted lists that are permutations of each other and have
pairwise-distinct weights are equal. -/
theorem sorted_perm_nodup_eq :
    ∀ {l1 l2 : List (Lit × Nat)}, l1.Perm l2 →
      List.Pairwise (fun p q : Lit × Nat => p.2 ≤ q.2) l1 →
      List.Pairwise (fun p q : Lit × Nat => p.2 ≤ q.2) l2 →
      (l1.map Prod.snd).Nodup → l1 = l2 := by
  intro l1
  induction l1 with
  | nil =>
      intro l2 hp _ _ _
      exact (List.Perm.nil_eq hp).symm.symm ▸ rfl
  | cons a t1 ih =>
      intro l2 hp hs1 hs2 hnd
      cases l2 with
      | nil => exact absurd hp.symm (by simp)
      | cons b t2 =>
          by_cases hab : a = b
          · subst hab
            rw [List.pairwise_cons] at hs1 hs2
            rw [List.map_cons, List.nodup_cons] at hnd
            rw [ih (hp.cons_inv) hs1.2 hs2.2 hnd.2]
          · -- `a` and `b` would be two distinct entries of equal weight
            have ha2 : a ∈ b :: t2 := hp.subset (.head _)
            have hb1 : b ∈ a :: t1 := hp.symm.subset (.head _)
            have hat2 : a ∈ t2 := by
              rcases List.mem_cons.mp ha2 with h | h
              · exact absurd h hab
              · exact h
            have hbt1 : b ∈ t1 := by
              rcases List.mem_cons.mp hb1 with h | h
              · exact absurd h.symm hab
              · exact h
            have hle1 : a.2 ≤ b.2 := (List.pairwise_cons.mp hs1).1 b hbt1
            have hle2 : b.2 ≤ a.2 := (List.pairwise_cons.mp hs2).1 a hat2
            have heq2 : b.2 = a.2 := Nat.le_antisymm hle2 hle1
            rw [List.map_cons, List.nodup_cons] at hnd
            exact absurd (heq2 ▸ List.mem_map_of_mem Prod.snd hbt1) hnd.1

/-- With pairwise-distinct weights among the entries, sorting by weight does
not depend on the iteration order. -/
theorem sortByWeight_perm_eq {l1 l2 : List (Lit × Nat)} (hp : l1.Perm l2)
    (hnd : (l1.map Prod.snd).Nodup) : sortByWeight l1 = sortByWeight l2 := by
  refine sorted_perm_nodup_eq ?_ (sortByWeight_sorted l1) (sortByWeight_sorted l2) ?_
  · exact (sortByWeight_perm l1).trans (hp.trans (sortByWeight_perm l2).symm)
  · exact (((sortByWeight_perm l1).map Prod.snd).nodup_iff).mpr hnd

theorem foldl_max_perm {l1 l2 : List (Lit × Nat)} (hp : l1.Perm l2) (init : Nat) :
    l1.foldl (fun m p => max m p.2) init = l2.foldl (fun m p => max m p.2) init := by
  induction hp generalizing init with
  | nil => rfl
  | cons x _ ih => exact ih _
  | swap x y l =>
      simp only [List.foldl_cons]
      rw [Nat.max_right_comm]
  | trans _ _ ih1 ih2 => exact (ih1 _).trans (ih2 _)

/-- `extend_tree` is oblivious to the hash-map iteration order provided the
admitted weights are pairwise distinct. -/
theorem extendTreeWith_perm_eq (inv : Bool) {o1 o2 : List (Lit × Nat)}
    (maxW vm : Nat) (s : GTE) (h1 : o1.Perm s.lit_buffer) (h2 : o2.Perm s.lit_buffer)
    (hnd : ((s.lit_buffer.filter fun p => decide (p.2 ≤ maxW)).map Prod.snd).Nodup) :
    extendTreeWith inv o1 maxW vm s = extendTreeWith inv o2 maxW vm s := by
  by_cases hbe : s.lit_buffer = []
  · rw [extendTreeWith, if_pos hbe, extendTreeWith, if_pos hbe]
  · have hf1 : (o1.filter fun p => decide (p.2 ≤ maxW)).Perm
        (s.lit_buffer.filter fun p => decide (p.2 ≤ maxW)) := h1.filter _
    have hf2 : (o2.filter fun p => decide (p.2 ≤ maxW)).Perm
        (s.lit_buffer.filter fun p => decide (p.2 ≤ maxW)) := h2.filter _
    have hpf : (o1.filter fun p => decide (p.2 ≤ maxW)).Perm
        (o2.filter fun p => decide (p.2 ≤ maxW)) := hf1.trans hf2.symm
    have hpm : ((o1.filter fun p => decide (p.2 ≤ maxW)).map
          fun p => (if inv then negLit p.1 else p.1, p.2)).Perm
        ((o2.filter fun p => decide (p.2 ≤ maxW)).map
          fun p => (if inv then negLit p.1 else p.1, p.2)) := hpf.map _
    have hndm : (((o1.filter fun p => decide (p.2 ≤ maxW)).map
          fun p => (if inv then negLit p.1 else p.1, p.2)).map Prod.snd).Nodup := by
      have : ((o1.filter fun p => decide (p.2 ≤ maxW)).map
          fun p => (if inv then negLit p.1 else p.1, p.2)).map Prod.snd
          = (o1.filter fun p => decide (p.2 ≤ maxW)).map Prod.snd := by
        rw [List.map_map]
        rfl
      rw [this]
      exact ((hf1.map Prod.snd).nodup_iff).mpr hnd
    rw [extendTreeWith, if_neg hbe, extendTreeWith, if_neg hbe]
    simp only
    rw [sortByWeight_perm_eq hpm hndm, foldl_max_perm hpm]
    by_cases hempty : ((o2.filter fun p => decide (p.2 ≤ maxW)).map
        fun p => (if inv then negLit p.1 else p.1, p.2)) = []
    · rw [hempty]
      have : ((o1.filter fun p => decide (p.2 ≤ maxW)).map
          fun p => (if inv then negLit p.1 else p.1, p.2)) = [] := by
        rw [hempty] at hpm
        exact List.Perm.eq_nil hpm
      rw [this]
    · have hne1 : ((o1.filter fun p => decide (p.2 ≤ maxW)).map
          fun p => (if inv then negLit p.1 else p.1, p.2)) ≠ [] := by
        intro h
        rw [h] at hpm
        exact hempty (List.Perm.nil_eq hpm).symm
      rw [if_neg hne1, if_neg hempty]

theorem encodeUbWith_perm_eq {o1 o2 : List (Lit × Nat)} (minUb maxUb vm : Nat) (s : GTE)
    (h1 : o1.Perm s.lit_buffer) (h2 : o2.Perm s.lit_buffer)
    (hnd : ((s.lit_buffer.filter fun p => decide (p.2 ≤ maxUb)).map Prod.snd).Nodup) :
    encodeUbWith o1 minUb maxUb vm s = encodeUbWith o2 minUb maxUb vm s := by
  rw [encodeUbWith, encodeUbWith, extendTreeWith_perm_eq false maxUb vm s h1 h2 hnd]

theorem encodeUbChangeWith_perm_eq {o1 o2 : List (Lit × Nat)} (minUb maxUb vm : Nat)
    (s : GTE) (h1 : o1.Perm s.lit_buffer) (h2 : o2.Perm s.lit_buffer)
    (hnd : ((s.lit_buffer.filter fun p => decide (p.2 ≤ maxUb)).map Prod.snd).Nodup) :
    encodeUbChangeWith o1 minUb maxUb vm s = encodeUbChangeWith o2 minUb maxUb vm s := by
  rw [encodeUbChangeWith, encodeUbChangeWith,
    extendTreeWith_perm_eq false maxUb vm s h1 h2 hnd]

/-- C3 (amended): two runs of the same `add`/`encode_ub`/`encode_ub_change`
sequence from the same state and variable manager produce identical states,
variable counters and clause sequences, provided that at every encode step
the literals admitted to the tree have pairwise-distinct weights.  The
buffer iteration orders of the two runs may differ arbitrarily (the
counterexample shows the restriction on weights is necessary). -/
theorem runTrace_deterministic :
    ∀ (tr1 tr2 : List (GteOp × List (Lit × Nat))) (s : GTE) (vm : Nat),
      tr1.map Prod.fst = tr2.map Prod.fst →
      validTraceB tr1 s vm = true → validTraceB tr2 s vm = true →
      distinctTraceB tr1 s vm = true →
      runTrace tr1 s vm = runTrace tr2 s vm := by
  intro tr1
  induction tr1 with
  | nil =>
      intro tr2 s vm hops _ _ _
      have h2 : tr2 = [] := by
        cases tr2 with
        | nil => rfl
        | cons a b => simp at hops
      rw [h2]
  | cons st1 rest1 ih =>
      intro tr2 s vm hops hv1 hv2 hd1
      obtain ⟨op1, ord1⟩ := st1
      cases tr2 with
      | nil => simp at hops
      | cons st2 rest2 =>
          obtain ⟨op2, ord2⟩ := st2
          simp only [List.map_cons, List.cons.injEq] at hops
          obtain ⟨hop, hopstail⟩ := hops
          subst hop
          rw [validTraceB] at hv1 hv2
          rw [distinctTraceB] at hd1
          simp only [Bool.and_eq_true] at hv1 hv2 hd1
          obtain ⟨hvh1, hvt1⟩ := hv1
          obtain ⟨hvh2, hvt2⟩ := hv2
          obtain ⟨hdh1, hdt1⟩ := hd1
          have hstep : stepOp op1 ord1 s vm = stepOp op1 ord2 s vm := by
            cases op1 with
            | addOp ls => rfl
            | encodeOp lo hi =>
                simp only [decide_eq_true_eq] at hvh1 hvh2 hdh1
                rw [stepOp, stepOp, encodeUbWith_perm_eq lo hi vm s hvh1 hvh2 hdh1]
            | encodeChangeOp lo hi =>
                simp only [decide_eq_true_eq] at hvh1 hvh2 hdh1
                rw [stepOp, stepOp, encodeUbChangeWith_perm_eq lo hi vm s hvh1 hvh2 hdh1]
          have hvt1' : validTraceB rest1 (stepOp op1 ord2 s vm).1
              (stepOp op1 ord2 s vm).2.1 = true := by
            rw [← hstep]
            exact hvt1
          have hdt1' : distinctTraceB rest1 (stepOp op1 ord2 s vm).1
              (stepOp op1 ord2 s vm).2.1 = true := by
            rw [← hstep]
            exact hdt1
          rw [runTrace, runTrace]
          simp only [hstep]
          rw [ih rest2 (stepOp op1 ord2 s vm).1 (stepOp op1 ord2 s vm).2.1
            hopstail hvt1' hvt2 hdt1']

/-! ### Idempotence of the incremental encode (claim C5) -/

theorem computeRequiredMinEnc_congr {a b : Nat} {t t2 : Node}
    (h : sameShapeB t t2 = true) :
    computeRequiredMinEnc a b t2 = computeRequiredMinEnc a b t := by
  cases t with
  | leaf l w =>
      cases t2 with
      | leaf l2 w2 => rfl
      | internal _ _ _ _ _ _ _ => simp [sameShapeB] at h
  | internal out d nc mv mme l r =>
      cases t2 with
      | leaf l2 w2 => simp [sameShapeB] at h
      | internal out2 d2 nc2 mv2 mme2 l2 r2 =>
          rw [sameShapeB] at h
          simp only [Bool.and_eq_true, beq_iff_eq] at h
          rw [computeRequiredMinEnc, computeRequiredMinEnc, h.1.1]

/-- The defining equation of `encode_change_rec` on a never-encoded internal
node. -/
theorem encodeChangeRec_internal_none {minE maxE vm : Nat} {out : OutMap}
    {d nc mv : Nat} {l r lt rt : Node} {vm1 vm2 vm3 : Nat} {cL cR cF : CNF}
    {out2 : OutMap}
    (hl : encodeChangeRec (computeRequiredMinEnc minE maxE r) maxE vm l = (lt, vm1, cL))
    (hr : encodeChangeRec (computeRequiredMinEnc minE maxE l) maxE vm1 r = (rt, vm2, cR))
    (hf : encodeFromTill minE maxE vm2 (.internal out d nc mv none lt rt)
            = (.internal out2 d nc mv none lt rt, vm3, cF)) :
    encodeChangeRec minE maxE vm (.internal out d nc mv none l r)
      = (.internal out2 d (nc + cF.length) mv (some (minE, min maxE mv)) lt rt,
         vm3, cL ++ cR ++ cF) := by
  rw [encodeChangeRec]
  simp only [hl, hr, hf]

/-- The defining equation of `encode_change_rec` on an already-encoded
internal node (window `(a0, b0)` recorded). -/
theorem encodeChangeRec_internal_some {minE maxE vm : Nat} {out : OutMap}
    {d nc mv a0 b0 : Nat} {l r lt rt : Node} {vm1 vm2 vma vmb : Nat}
    {cL cR cA cB : CNF} {outa outb : OutMap}
    (hl : encodeChangeRec (computeRequiredMinEnc minE maxE r) maxE vm l = (lt, vm1, cL))
    (hr : encodeChangeRec (computeRequiredMinEnc minE maxE l) maxE vm1 r = (rt, vm2, cR))
    (hfa : (if minE < a0 then
              encodeFromTill minE (a0 - 1) vm2 (.internal out d nc mv (some (a0, b0)) lt rt)
            else ((.internal out d nc mv (some (a0, b0)) lt rt), vm2, ([] : CNF)))
            = (.internal outa d nc mv (some (a0, b0)) lt rt, vma, cA))
    (hfb : (if maxE > b0 then
              encodeFromTill (b0 + 1) maxE vma (.internal outa d nc mv (some (a0, b0)) lt rt)
            else ((.internal outa d nc mv (some (a0, b0)) lt rt), vma, ([] : CNF)))
            = (.internal outb d nc mv (some (a0, b0)) lt rt, vmb, cB)) :
    encodeChangeRec minE maxE vm (.internal out d nc mv (some (a0, b0)) l r)
      = (.internal outb d (nc + (cA ++ cB).length) mv
           (some (min minE a0, min mv (max maxE b0))) lt rt, vmb,
         cL ++ cR ++ (cA ++ cB)) := by
  rw [encodeChangeRec]
  simp only [hl, hr, hfa, hfb]

/-- `encode_change_rec` keeps the skeleton and afterwards covers the window
it was asked for. -/
theorem encodeChangeRec_covers :
    ∀ (t : Node) (minE maxE vm : Nat),
      sameShapeB t (encodeChangeRec minE maxE vm t).1 = true
        ∧ coversB minE maxE (encodeChangeRec minE maxE vm t).1 = true := by
  intro t
  induction t with
  | leaf l w => intro minE maxE vm; exact ⟨rfl, rfl⟩
  | internal out d nc mv mme l r ihl ihr =>
      intro minE maxE vm
      rcases hlr : encodeChangeRec (computeRequiredMinEnc minE maxE r) maxE vm l
        with ⟨lt, r1⟩
      rcases r1 with ⟨vm1, cL⟩
      rcases hrr : encodeChangeRec (computeRequiredMinEnc minE maxE l) maxE vm1 r
        with ⟨rt, r2⟩
      rcases r2 with ⟨vm2, cR⟩
      have hshl : sameShapeB l lt = true := by
        have h := (ihl (computeRequiredMinEnc minE maxE r) maxE vm).1
        rw [hlr] at h
        exact h
      have hshr : sameShapeB r rt = true := by
        have h := (ihr (computeRequiredMinEnc minE maxE l) maxE vm1).1
        rw [hrr] at h
        exact h
      have hcovl : coversB (computeRequiredMinEnc minE maxE r) maxE lt = true := by
        have h := (ihl (computeRequiredMinEnc minE maxE r) maxE vm).2
        rw [hlr] at h
        exact h
      have hcovr : coversB (computeRequiredMinEnc minE maxE l) maxE rt = true := by
        have h := (ihr (computeRequiredMinEnc minE maxE l) maxE vm1).2
        rw [hrr] at h
        exact h
      cases mme with
      | none =>
          rcases encodeFromTill_shape minE maxE vm2 out d nc mv none lt rt
            with ⟨out2, vm3, cF, hf⟩
          rw [encodeChangeRec_internal_none hlr hrr hf]
          constructor
          · rw [sameShapeB]
            simp only [Bool.and_eq_true, beq_self_eq_true]
            exact ⟨⟨trivial, hshl⟩, hshr⟩
          · rw [coversB]
            simp only [Bool.and_eq_true, decide_eq_true_eq]
            refine ⟨⟨?_, ?_⟩, ?_⟩
            · exact ⟨Nat.le_refl _, by omega, by omega⟩
            · rw [computeRequiredMinEnc_congr hshr]
              exact hcovl
            · rw [computeRequiredMinEnc_congr hshl]
              exact hcovr
      | some w =>
          obtain ⟨a0, b0⟩ := w
          rcases hfa : (if minE < a0 then
              encodeFromTill minE (a0 - 1) vm2 (.internal out d nc mv (some (a0, b0)) lt rt)
            else ((.internal out d nc mv (some (a0, b0)) lt rt), vm2, ([] : CNF)))
            with ⟨na, ra⟩
          rcases ra with ⟨vma, cA⟩
          have hna : ∃ outa, na = Node.internal outa d nc mv (some (a0, b0)) lt rt := by
            by_cases hc : minE < a0
            · rw [if_pos hc] at hfa
              rcases encodeFromTill_shape minE (a0 - 1) vm2 out d nc mv (some (a0, b0)) lt rt
                with ⟨outa, vmx, cX, hx⟩
              rw [hx] at hfa
              exact ⟨outa, by
                injection hfa with h1 h2
                exact h1.symm⟩
            · rw [if_neg hc] at hfa
              exact ⟨out, by
                injection hfa with h1 h2
                exact h1.symm⟩
          rcases hna with ⟨outa, hna⟩
          subst hna
          rcases hfb : (if maxE > b0 then
              encodeFromTill (b0 + 1) maxE vma (.internal outa d nc mv (some (a0, b0)) lt rt)
            else ((.internal outa d nc mv (some (a0, b0)) lt rt), vma, ([] : CNF)))
            with ⟨nb, rb⟩
          rcases rb with ⟨vmb, cB⟩
          have hnb : ∃ outb, nb = Node.internal outb d nc mv (some (a0, b0)) lt rt := by
            by_cases hc : maxE > b0
            · rw [if_pos hc] at hfb
              rcases encodeFromTill_shape (b0 + 1) maxE vma outa d nc mv (some (a0, b0)) lt rt
                with ⟨outb, vmx, cX, hx⟩
              rw [hx] at hfb
              exact ⟨outb, by
                injection hfb with h1 h2
                exact h1.symm⟩
            · rw [if_neg hc] at hfb
              exact ⟨outa, by
                injection hfb with h1 h2
                exact h1.symm⟩
          rcases hnb with ⟨outb, hnb⟩
          subst hnb
          rw [encodeChangeRec_internal_some hlr hrr hfa hfb]
          constructor
          · rw [sameShapeB]
            simp only [Bool.and_eq_true, beq_self_eq_true]
            exact ⟨⟨trivial, hshl⟩, hshr⟩
          · rw [coversB]
            simp only [Bool.and_eq_true, decide_eq_true_eq]
            refine ⟨⟨?_, ?_⟩, ?_⟩
            · exact ⟨by omega, by omega, by omega⟩
            · rw [computeRequiredMinEnc_congr hshr]
              exact hcovl
            · rw [computeRequiredMinEnc_congr hshl]
              exact hcovr

/-- On a tree whose recorded windows already cover the requested window, the
incremental encode emits no clauses. -/
theorem encodeChangeRec_covered_nil :
    ∀ (t : Node) (minE maxE vm : Nat), coversB minE maxE t = true →
      (encodeChangeRec minE maxE vm t).2.2 = [] := by
  intro t
  induction t with
  | leaf l w => intro minE maxE vm _; rfl
  | internal out d nc mv mme l r ihl ihr =>
      intro minE maxE vm hcov
      cases mme with
      | none =>
          rw [coversB] at hcov
          simp at hcov
      | some w =>
          obtain ⟨a0, b0⟩ := w
          rw [coversB] at hcov
          simp only [Bool.and_eq_true, decide_eq_true_eq] at hcov
          obtain ⟨⟨hwin, hcovl⟩, hcovr⟩ := hcov
          obtain ⟨ha0, hb0min, hb0mv⟩ := hwin
          rcases hlr : encodeChangeRec (computeRequiredMinEnc minE maxE r) maxE vm l
            with ⟨lt, r1⟩
          rcases r1 with ⟨vm1, cL⟩
          rcases hrr : encodeChangeRec (computeRequiredMinEnc minE maxE l) maxE vm1 r
            with ⟨rt, r2⟩
          rcases r2 with ⟨vm2, cR⟩
          have hcL : cL = [] := by
            have h := ihl (computeRequiredMinEnc minE maxE r) maxE vm hcovl
            rw [hlr] at h
            exact h
          have hcR : cR = [] := by
            have h := ihr (computeRequiredMinEnc minE maxE l) maxE vm1 hcovr
            rw [hrr] at h
            exact h
          have hfa : (if minE < a0 then
              encodeFromTill minE (a0 - 1) vm2 (.internal out d nc mv (some (a0, b0)) lt rt)
            else ((.internal out d nc mv (some (a0, b0)) lt rt), vm2, ([] : CNF)))
              = ((.internal out d nc mv (some (a0, b0)) lt rt), vm2, ([] : CNF)) :=
            if_neg (by omega)
          by_cases hc : maxE > b0
          · have hb0 : b0 = mv := by omega
            rcases encodeFromTill_shape (b0 + 1) maxE vm2 out d nc mv (some (a0, b0)) lt rt
              with ⟨outb, vmb, cB, hx⟩
            have hcB : cB = [] := by
              have h := @encodeFromTill_cnf_nil_of_gt_max (b0 + 1) maxE vm2 out d nc mv
                (some (a0, b0)) lt rt (by omega)
              rw [hx] at h
              exact h
            have hfb : (if maxE > b0 then
                encodeFromTill (b0 + 1) maxE vm2 (.internal out d nc mv (some (a0, b0)) lt rt)
              else ((.internal out d nc mv (some (a0, b0)) lt rt), vm2, ([] : CNF)))
                = (.internal outb d nc mv (some (a0, b0)) lt rt, vmb, cB) := by
              rw [if_pos hc]
              exact hx
            rw [encodeChangeRec_internal_some hlr hrr hfa hfb]
            rw [hcL, hcR, hcB]
            rfl
          · have hfb : (if maxE > b0 then
                encodeFromTill (b0 + 1) maxE vm2 (.internal out d nc mv (some (a0, b0)) lt rt)
              else ((.internal out d nc mv (some (a0, b0)) lt rt), vm2, ([] : CNF)))
                = ((.internal out d nc mv (some (a0, b0)) lt rt), vm2, ([] : CNF)) :=
              if_neg hc
            rw [encodeChangeRec_internal_some hlr hrr hfa hfb]
            rw [hcL, hcR]
            rfl

/-- After an extension with cap `w`, every literal still buffered weighs more
than `w`. -/
theorem extendTree_buffer_heavy (inv : Bool) (w vm : Nat) (s : GTE) :
    ∀ p ∈ (extendTreeWith inv s.lit_buffer w vm s).1.lit_buffer, ¬ p.2 ≤ w := by
  intro p hp
  by_cases hbe : s.lit_buffer = []
  · rw [extendTreeWith, if_pos hbe] at hp
    rw [hbe] at hp
    cases hp
  · rw [extendTreeWith, if_neg hbe] at hp
    simp only at hp
    by_cases hempty : ((s.lit_buffer.filter fun p => decide (p.2 ≤ w)).map
        fun p => (if inv then negLit p.1 else p.1, p.2)) = []
    · rw [if_pos hempty] at hp
      have hfil : (s.lit_buffer.filter fun p => decide (p.2 ≤ w)) = [] :=
        List.map_eq_nil_iff.mp hempty
      have := List.filter_eq_nil_iff.mp hfil p hp
      simpa using this
    · rw [if_neg hempty] at hp
      simp only at hp
      have := (List.mem_filter.mp hp).2
      simpa using this

/-- If nothing in the observed buffer qualifies, `extend_tree` is the
identity. -/
theorem extendTreeWith_noop (inv : Bool) (ord : List (Lit × Nat)) (w vm : Nat)
    (s : GTE) (h : ∀ p ∈ ord, ¬ p.2 ≤ w) :
    extendTreeWith inv ord w vm s = (s, vm) := by
  by_cases hbe : s.lit_buffer = []
  · rw [extendTreeWith, if_pos hbe]
  · rw [extendTreeWith, if_neg hbe]
    have hf : (ord.filter fun p => decide (p.2 ≤ w)) = [] :=
      List.filter_eq_nil_iff.mpr fun p hp => by simpa using h p hp
    simp only [hf, List.map_nil]
    rw [if_pos trivial]

/-- C5: immediately repeating an `encode_ub_change(a, b)` call (no adds in
between) emits zero clauses. -/
theorem encode_ub_change_idempotent (a b vm : Nat) (s : GTE) (cnf1 : CNF)
    (s1 : GTE) (vm1 : Nat) (hab : a ≤ b)
    (h1 : encodeUbChange a b vm s = .ok (cnf1, s1, vm1)) :
    ∃ s2 vm2, encodeUbChange a b vm1 s1 = .ok ([], s2, vm2) := by
  rw [encodeUbChange, encodeUbChangeWith, if_neg (by omega)] at h1
  rcases hex : extendTreeWith false s.lit_buffer b vm s with ⟨se, vme⟩
  rw [hex] at h1
  simp only at h1
  have hbuf : ∀ p ∈ se.lit_buffer, ¬ p.2 ≤ b := by
    have h := extendTree_buffer_heavy false b vm s
    rw [hex] at h
    exact h
  rcases hroot : se.root with _ | root1
  · rw [hroot] at h1
    simp only at h1
    rw [Except.ok.injEq, Prod.mk.injEq, Prod.mk.injEq] at h1
    obtain ⟨hcnf1, hs1, hvm1⟩ := h1
    have hb1 : s1.lit_buffer = se.lit_buffer := by rw [← hs1]
    have hr1 : s1.root = none := by rw [← hs1]
    rcases h2 : encodeUbChange a b vm1 s1 with e | ok2
    · rw [encodeUbChange, encodeUbChangeWith, if_neg (by omega)] at h2
      simp at h2
    · obtain ⟨cnf2, s2, vm2⟩ := ok2
      have h3 := h2
      rw [encodeUbChange, encodeUbChangeWith, if_neg (by omega)] at h3
      rw [extendTreeWith_noop false s1.lit_buffer b vm1 s1 (by rw [hb1]; exact hbuf)] at h3
      simp only [hr1] at h3
      rw [Except.ok.injEq, Prod.mk.injEq, Prod.mk.injEq] at h3
      obtain ⟨hc2, hs2, hv2⟩ := h3
      exact ⟨s2, vm2, by rw [← hc2]⟩
  · rw [hroot] at h1
    simp only at h1
    set er := encodeChangeRec (a + 1) (b + se.max_leaf_weight) vme root1 with her
    rw [Except.ok.injEq, Prod.mk.injEq, Prod.mk.injEq] at h1
    obtain ⟨hcnf1, hs1, hvm1⟩ := h1
    have hb1 : s1.lit_buffer = se.lit_buffer := by rw [← hs1]
    have hmlw1 : s1.max_leaf_weight = se.max_leaf_weight := by rw [← hs1]
    have hr1 : s1.root = some er.1 := by rw [← hs1]
    have hcov : coversB (a + 1) (b + se.max_leaf_weight) er.1 = true := by
      have h := (encodeChangeRec_covers root1 (a + 1) (b + se.max_leaf_weight) vme).2
      rw [← her] at h
      exact h
    rcases h2 : encodeUbChange a b vm1 s1 with e | ok2
    · rw [encodeUbChange, encodeUbChangeWith, if_neg (by omega)] at h2
      simp at h2
    · obtain ⟨cnf2, s2, vm2⟩ := ok2
      have h3 := h2
      rw [encodeUbChange, encodeUbChangeWith, if_neg (by omega)] at h3
      rw [extendTreeWith_noop false s1.lit_buffer b vm1 s1 (by rw [hb1]; exact hbuf)] at h3
      simp only [hr1, hmlw1] at h3
      rw [encodeChangeRec_covered_nil er.1 (a + 1) (b + se.max_leaf_weight) vm1 hcov] at h3
      rw [Except.ok.injEq, Prod.mk.injEq, Prod.mk.injEq] at h3
      obtain ⟨hc2, hs2, hv2⟩ := h3
      exact ⟨s2, vm2, by rw [← hc2]⟩

/-- Witness for C5 on the repository's own test inputs {5, 5, 3, 3} with
`encode_ub_change(0, 4)` repeated. -/
theorem encode_ub_change_idempotent_witness :
    ∃ s2 vm2,
      encodeUbChange 0 4 (exVm (encodeUbChange 0 4 4 c5state))
        (exState (encodeUbChange 0 4 4 c5state)) = .ok ([], s2, vm2) :=
  encode_ub_change_idempotent 0 4 4 c5state
    (exCnf (encodeUbChange 0 4 4 c5state))
    (exState (encodeUbChange 0 4 4 c5state))
    (exVm (encodeUbChange 0 4 4 c5state))
    (by decide) (by decide)

/-- Witness for C3 (amended) on distinct weights {1, 2}: the two iteration
orders produce identical runs. -/
theorem runTrace_deterministic_witness :
    runTrace [(.encodeOp 0 2, [(⟨0, true⟩, 1), (⟨1, true⟩, 2)])] c4state 2
      = runTrace [(.encodeOp 0 2, [(⟨1, true⟩, 2), (⟨0, true⟩, 1)])] c4state 2 :=
  runTrace_deterministic
    [(.encodeOp 0 2, [(⟨0, true⟩, 1), (⟨1, true⟩, 2)])]
    [(.encodeOp 0 2, [(⟨1, true⟩, 2), (⟨0, true⟩, 1)])]
    c4state 2 (by decide) (by decide) (by decide) (by decide)

/-- Witness for C7 (amended) on the C7 run itself: the all-true assignment
satisfies the clauses and the selection of both unit-weight leaves forces the
root output of value 2. -/
theorem gte_threshold_sound_witness :
    ∃ o, omGet (wsum (leavesOf c7root)) (nodeMap c7root) = some o
      ∧ litValB (fun _ => true) o = true :=
  gte_threshold_sound 2 2 c7state (fun _ => true) (exCnf c7res) (exState c7res)
    (exVm c7res) c7root (leavesOf c7root) (by decide) (by decide) (by decide)
    (by decide) (by decide) (by decide) (by decide) (by decide) (by decide)
    (by decide)

/-! ### Characterization of `enforce_ub` (claim C6) -/

theorem omSortedB_chain : ∀ m : OutMap,
    omSortedB m = true ↔ List.Chain' (fun p q => p.1 < q.1) m
  | [] => by simp [omSortedB]
  | [p] => by simp [omSortedB]
  | p :: q :: rest => by
      rw [omSortedB, Bool.and_eq_true, decide_eq_true_eq, omSortedB_chain (q :: rest),
        List.chain'_cons]

theorem omGet_of_mem_sorted {m : OutMap} (hs : omSortedB m = true) {k : Nat} {v : Lit}
    (h : (k, v) ∈ m) : omGet k m = some v := by
  rw [omSortedB_chain m, List.chain'_iff_pairwise] at hs
  induction m with
  | nil => cases h
  | cons p ps ih =>
      rw [List.pairwise_cons] at hs
      rcases List.mem_cons.mp h with he | hm
      · rw [omGet, ← he]
        simp
      · rw [omGet]
        have hlt : p.1 < k := hs.1 (k, v) hm
        rw [if_neg (by omega)]
        exact ih hs.2 hm

/-- The buffer and internalized-input part of the `enforce_ub` assumptions
is exactly the negations of the over-weight inputs. -/
theorem mem_enforce_base {s : GTE} {ub : Nat} {x : Lit}
    (hbuf : ∀ p ∈ s.lit_buffer, ¬ p.2 ≤ ub) :
    (x ∈ (s.lit_buffer.map fun p => negLit p.1)
        ++ ((s.in_lits.filter fun p => decide (p.2 > ub)).map fun p => negLit p.1)
      ↔ ∃ l w, ((l, w) ∈ s.lit_buffer ∨ (l, w) ∈ s.in_lits) ∧ ub < w ∧ x = negLit l) := by
  rw [List.mem_append]
  constructor
  · intro h
    rcases h with h | h
    · rcases List.mem_map.mp h with ⟨p, hp, hx⟩
      exact ⟨p.1, p.2, .inl hp, by have := hbuf p hp; omega, hx.symm⟩
    · rcases List.mem_map.mp h with ⟨p, hp, hx⟩
      have hp2 := List.mem_filter.mp hp
      refine ⟨p.1, p.2, .inr hp2.1, ?_, hx.symm⟩
      have h3 := hp2.2
      simpa using h3
  · rintro ⟨l, w, hmem, hlt, hx⟩
    rcases hmem with h | h
    · exact .inl (List.mem_map.mpr ⟨(l, w), h, hx.symm⟩)
    · refine .inr (List.mem_map.mpr ⟨(l, w), List.mem_filter.mpr ⟨h, ?_⟩, hx.symm⟩)
      simpa using hlt

/-- C6: `enforce_ub(ub)` fails with `NotEncoded` exactly when a buffered
weight is `≤ ub`, or the root is internal with `ub < max_val` and the
recorded window is absent or fails `max_enc ≥ min(ub + max_leaf_weight,
max_val)` or `min_enc ≤ ub + 1`; on success the assumptions are exactly the
negations of the over-weight buffered and internalized literals plus the
negated root outputs with values in `(ub, ub + max_leaf_weight]`. -/
theorem enforce_ub_characterization (ub : Nat) (s : GTE) (hok : rootOkB s = true) :
    ((enforceUb ub s = .error .notEncoded) ↔
      ((∃ p ∈ s.lit_buffer, p.2 ≤ ub)
        ∨ ∃ out d nc mv mme l r, s.root = some (.internal out d nc mv mme l r)
            ∧ ub < mv
            ∧ (mme = none ∨ ∃ w1 w2, mme = some (w1, w2)
                ∧ (w2 < min (ub + s.max_leaf_weight) mv ∨ ub + 1 < w1))))
    ∧ ∀ asmps, enforceUb ub s = .ok asmps →
        ∀ x, x ∈ asmps ↔
          ((∃ l w, ((l, w) ∈ s.lit_buffer ∨ (l, w) ∈ s.in_lits) ∧ ub < w ∧ x = negLit l)
            ∨ ∃ v lx, omGet v (rootOut s) = some lx ∧ ub < v
                ∧ v ≤ ub + s.max_leaf_weight ∧ x = negLit lx) := by
  by_cases hany : (s.lit_buffer.any fun p => decide (p.2 ≤ ub)) = true
  · have herr : enforceUb ub s = .error .notEncoded := by
      rw [enforceUb, if_pos hany]
    refine ⟨?_, ?_⟩
    · rw [herr]
      constructor
      · intro _
        left
        rcases List.any_eq_true.mp hany with ⟨p, hp, hdec⟩
        exact ⟨p, hp, by simpa using hdec⟩
      · intro _
        rfl
    · intro asmps habs
      rw [herr] at habs
      simp at habs
  · have hbuf : ∀ p ∈ s.lit_buffer, ¬ p.2 ≤ ub := by
      intro p hp hle
      exact hany (List.any_eq_true.mpr ⟨p, hp, by simpa using hle⟩)
    have hnotex : ¬ ∃ p ∈ s.lit_buffer, p.2 ≤ ub := by
      rintro ⟨p, hp, h⟩
      exact hbuf p hp h
    rcases hroot : s.root with _ | t
    · -- no tree
      have htree : enforceTree ub s = .ok [] := by
        rw [enforceTree, hroot]
      have hok2 : enforceUb ub s = .ok ((s.lit_buffer.map fun p => negLit p.1)
          ++ ((s.in_lits.filter fun p => decide (p.2 > ub)).map fun p => negLit p.1)
          ++ []) := by
        rw [enforceUb, if_neg hany, htree]
      refine ⟨?_, ?_⟩
      · rw [hok2]
        constructor
        · intro h
          simp at h
        · intro h
          rcases h with h | ⟨out, d, nc, mv, mme, l, r, hcontra, _⟩
          · exact absurd h hnotex
          · simp at hcontra
      · intro asmps hasmps x
        rw [hok2] at hasmps
        injection hasmps with h
        subst h
        rw [List.append_nil]
        rw [mem_enforce_base hbuf]
        constructor
        · intro h
          exact .inl h
        · intro h
          rcases h with h | ⟨v, lx, hget, _⟩
          · exact h
          · rw [rootOut, hroot] at hget
            simp [omGet] at hget
    · cases t with
      | leaf lt wt =>
          have htree : enforceTree ub s = .ok [] := by
            rw [enforceTree, hroot]
          have hok2 : enforceUb ub s = .ok ((s.lit_buffer.map fun p => negLit p.1)
              ++ ((s.in_lits.filter fun p => decide (p.2 > ub)).map fun p => negLit p.1)
              ++ []) := by
            rw [enforceUb, if_neg hany, htree]
          refine ⟨?_, ?_⟩
          · rw [hok2]
            constructor
            · intro h
              simp at h
            · intro h
              rcases h with h | ⟨out, d, nc, mv, mme, l, r, hcontra, _⟩
              · exact absurd h hnotex
              · simp at hcontra
          · intro asmps hasmps x
            rw [hok2] at hasmps
            injection hasmps with h
            subst h
            rw [List.append_nil]
            rw [mem_enforce_base hbuf]
            constructor
            · intro h
              exact .inl h
            · intro h
              rcases h with h | ⟨v, lx, hget, _⟩
              · exact h
              · rw [rootOut, hroot] at hget
                simp [omGet] at hget
      | internal out d nc mv mme l r =>
          have hokroot : omSortedB out = true
              ∧ (out.all fun p => decide (p.1 ≤ mv)) = true := by
            rw [rootOkB, hroot] at hok
            rw [Bool.and_eq_true] at hok
            exact hok
          have hkeys : ∀ p ∈ out, p.1 ≤ mv := by
            intro p hp
            have h := List.all_eq_true.mp hokroot.2 p hp
            simpa using h
          by_cases hub : ub ≥ mv
          · have htree : enforceTree ub s = .ok [] := by
              rw [enforceTree, hroot]
              simp only [if_pos hub]
            have hok2 : enforceUb ub s = .ok ((s.lit_buffer.map fun p => negLit p.1)
                ++ ((s.in_lits.filter fun p => decide (p.2 > ub)).map fun p => negLit p.1)
                ++ []) := by
              rw [enforceUb, if_neg hany, htree]
            refine ⟨?_, ?_⟩
            · rw [hok2]
              constructor
              · intro h
                simp at h
              · intro h
                rcases h with h | ⟨out2, d2, nc2, mv2, mme2, l2, r2, heq, hlt, _⟩
                · exact absurd h hnotex
                · injection heq with heq
                  cases heq
                  omega
            · intro asmps hasmps x
              rw [hok2] at hasmps
              injection hasmps with h
              subst h
              rw [List.append_nil]
              rw [mem_enforce_base hbuf]
              constructor
              · intro h
                exact .inl h
              · intro h
                rcases h with h | ⟨v, lx, hget, hv1, _, _⟩
                · exact h
                · rw [rootOut, hroot] at hget
                  have := hkeys (v, lx) (omGet_mem hget)
                  omega
          · cases hmme : mme with
            | none =>
                have htree : enforceTree ub s = .error .notEncoded := by
                  rw [enforceTree, hroot, hmme]
                  simp only [if_neg hub]
                have herr : enforceUb ub s = .error .notEncoded := by
                  rw [enforceUb, if_neg hany, htree]
                refine ⟨?_, ?_⟩
                · rw [herr]
                  constructor
                  · intro _
                    right
                    exact ⟨out, d, nc, mv, none, l, r, rfl, by omega, .inl rfl⟩
                  · intro _
                    rfl
                · intro asmps habs
                  rw [herr] at habs
                  simp at habs
            | some w =>
                obtain ⟨w1, w2⟩ := w
                by_cases hcond : w2 < min (ub + s.max_leaf_weight) mv ∨ ub + 1 < w1
                · have htree : enforceTree ub s = .error .notEncoded := by
                    rw [enforceTree, hroot, hmme]
                    simp only [if_neg hub]
                    rw [if_pos (by omega)]
                  have herr : enforceUb ub s = .error .notEncoded := by
                    rw [enforceUb, if_neg hany, htree]
                  refine ⟨?_, ?_⟩
                  · rw [herr]
                    constructor
                    · intro _
                      right
                      exact ⟨out, d, nc, mv, some (w1, w2), l, r, rfl, by omega,
                        .inr ⟨w1, w2, rfl, hcond⟩⟩
                    · intro _
                      rfl
                  · intro asmps habs
                    rw [herr] at habs
                    simp at habs
                · have htree : enforceTree ub s
                      = .ok ((omRangeEI ub (ub + s.max_leaf_weight) out).map
                          fun p => negLit p.2) := by
                    rw [enforceTree, hroot, hmme]
                    simp only [if_neg hub]
                    rw [if_neg (by omega)]
                  have hok2 : enforceUb ub s
                      = .ok ((s.lit_buffer.map fun p => negLit p.1)
                        ++ ((s.in_lits.filter fun p => decide (p.2 > ub)).map
                              fun p => negLit p.1)
                        ++ (omRangeEI ub (ub + s.max_leaf_weight) out).map
                              fun p => negLit p.2) := by
                    rw [enforceUb, if_neg hany, htree]
                  refine ⟨?_, ?_⟩
                  · rw [hok2]
                    constructor
                    · intro h
                      simp at h
                    · intro h
                      rcases h with h | ⟨out2, d2, nc2, mv2, mme2, l2, r2, heq, hlt, hwin⟩
                      · exact absurd h hnotex
                      · injection heq with heq
                        cases heq
                        rcases hwin with hw | ⟨v1, v2, hv, hcond2⟩
                        · cases hw
                        · injection hv with hv
                          injection hv with hv1 hv2
                          subst hv1
                          subst hv2
                          omega
                  · intro asmps hasmps x
                    rw [hok2] at hasmps
                    injection hasmps with h
                    subst h
                    rw [List.mem_append, mem_enforce_base hbuf]
                    have hroot_out : rootOut s = out := by
                      rw [rootOut, hroot]
                    constructor
                    · intro h
                      rcases h with h | h
                      · exact .inl h
                      · rcases List.mem_map.mp h with ⟨p, hp, hx⟩
                        have hp2 := List.mem_filter.mp hp
                        have hb := hp2.2
                        simp only [decide_eq_true_eq] at hb
                        refine .inr ⟨p.1, p.2, ?_, hb.1, hb.2, hx.symm⟩
                        rw [hroot_out]
                        exact omGet_of_mem_sorted hokroot.1 hp2.1
                    · intro h
                      rcases h with h | ⟨v, lx, hget, hv1, hv2, hx⟩
                      · exact .inl h
                      · refine .inr (List.mem_map.mpr ⟨(v, lx), ?_, hx.symm⟩)
                        rw [hroot_out] at hget
                        exact List.mem_filter.mpr ⟨omGet_mem hget, by simp [hv1, hv2]⟩

/-- Witness for C6 on the encoded test state (weights {5, 5, 3, 3},
`encode_ub(0, 6)`, threshold 4). -/
theorem enforce_ub_characterization_witness :
    ((enforceUb 4 (exState (encodeUb 0 6 4 c5state)) = .error .notEncoded) ↔
      ((∃ p ∈ (exState (encodeUb 0 6 4 c5state)).lit_buffer, p.2 ≤ 4)
        ∨ ∃ out d nc mv mme l r,
            (exState (encodeUb 0 6 4 c5state)).root
              = some (.internal out d nc mv mme l r)
            ∧ 4 < mv
            ∧ (mme = none ∨ ∃ w1 w2, mme = some (w1, w2)
                ∧ (w2 < min (4 + (exState (encodeUb 0 6 4 c5state)).max_leaf_weight) mv
                    ∨ 4 + 1 < w1))))
    ∧ ∀ asmps, enforceUb 4 (exState (encodeUb 0 6 4 c5state)) = .ok asmps →
        ∀ x, x ∈ asmps ↔
          ((∃ l w, ((l, w) ∈ (exState (encodeUb 0 6 4 c5state)).lit_buffer
                ∨ (l, w) ∈ (exState (encodeUb 0 6 4 c5state)).in_lits)
              ∧ 4 < w ∧ x = negLit l)
            ∨ ∃ v lx, omGet v (rootOut (exState (encodeUb 0 6 4 c5state))) = some lx
                ∧ 4 < v
                ∧ v ≤ 4 + (exState (encodeUb 0 6 4 c5state)).max_leaf_weight
                ∧ x = negLit lx) :=
  enforce_ub_characterization 4 (exState (encodeUb 0 6 4 c5state)) (by decide)

/-! ### Preservation of the tree-wide invariants (claim C8) -/

theorem omSortedB_iff_pairwise (m : OutMap) :
    omSortedB m = true ↔ List.Pairwise (fun p q => p.1 < q.1) m := by
  rw [omSortedB_chain, List.chain'_iff_pairwise]

theorem pairwise_omInsert {k : Nat} {x : Lit} : ∀ {m : OutMap},
    List.Pairwise (fun p q => p.1 < q.1) m →
    List.Pairwise (fun p q => p.1 < q.1) (omInsert k x m)
  | [], _ => by simp [omInsert]
  | p :: ps, h => by
      rw [List.pairwise_cons] at h
      rw [omInsert]
      by_cases h1 : p.1 = k
      · rw [if_pos h1, List.pairwise_cons]
        refine ⟨fun q hq => ?_, h.2⟩
        have h2 := h.1 q hq
        show k < q.1
        omega
      · by_cases h2 : p.1 < k
        · rw [if_neg h1, if_pos h2, List.pairwise_cons]
          refine ⟨fun q hq => ?_, pairwise_omInsert h.2⟩
          rcases mem_insert hq with hq | hq
          · rw [hq]
            exact h2
          · exact h.1 q hq
        · rw [if_neg h1, if_neg h2, List.pairwise_cons]
          refine ⟨fun q hq => ?_, List.pairwise_cons.mpr h⟩
          rcases List.mem_cons.mp hq with hq | hq
          · rw [hq]
            show k < p.1
            omega
          · have h3 := h.1 q hq
            show k < q.1
            omega

theorem reserveKeys_sorted : ∀ (ks : List Nat) (st : OutMap × Nat),
    omSortedB st.1 = true → omSortedB (reserveKeys ks st).1 = true
  | [], _, h => h
  | a :: as, st, h => by
      rw [reserveKeys]
      by_cases hc : omContains a st.1
      · rw [if_pos hc]
        exact reserveKeys_sorted as st h
      · rw [if_neg hc]
        refine reserveKeys_sorted as _ ?_
        rw [omSortedB_iff_pairwise]
        exact pairwise_omInsert ((omSortedB_iff_pairwise st.1).mp h)

theorem reserveKeys_keys_le {B : Nat} {ks : List Nat} {st : OutMap × Nat}
    (hks : ∀ k ∈ ks, k ≤ B) (hst : ∀ p ∈ st.1, p.1 ≤ B) :
    ∀ p ∈ (reserveKeys ks st).1, p.1 ≤ B := by
  intro p hp
  rcases reserveKeys_mem_cases hp with h | ⟨_, _, h3⟩
  · exact hst p h
  · exact hks p.1 h3

theorem nodeMap_keys_le {t : Node} (h : nodeInvB t = true) :
    ∀ p ∈ nodeMap t, p.1 ≤ childVal t := by
  cases t with
  | leaf l w =>
      intro p hp
      rw [nodeMap] at hp
      rcases List.mem_cons.mp hp with hp | hp
      · rw [hp]
        exact Nat.le_refl _
      · cases hp
  | internal out d nc mv mme l r =>
      intro p hp
      rw [nodeInvB] at h
      simp only [Bool.and_eq_true, decide_eq_true_eq] at h
      have h3 := List.all_eq_true.mp h.1.1.2 p hp
      simpa using h3

theorem reserveList_keys_le {minE maxE A B : Nat} {lmap rmap : OutMap}
    (hl : ∀ p ∈ lmap, p.1 ≤ A) (hr : ∀ p ∈ rmap, p.1 ≤ B) :
    ∀ k ∈ reserveList minE maxE lmap rmap, k ≤ A + B := by
  intro k hk
  rw [reserveList, List.mem_append, List.mem_append] at hk
  rcases hk with (hk | hk) | hk
  · rcases List.mem_map.mp hk with ⟨p, hp, he⟩
    have h1 := hl p (List.mem_filter.mp hp).1
    omega
  · rcases List.mem_map.mp hk with ⟨p, hp, he⟩
    have h1 := hr p (List.mem_filter.mp hp).1
    omega
  · rw [sumKeys] at hk
    rcases List.mem_flatMap.mp hk with ⟨p, hp, hk2⟩
    simp only at hk2
    rcases List.mem_filterMap.mp hk2 with ⟨q, hq, he⟩
    by_cases hc : p.1 + q.1 > maxE ∨ p.1 + q.1 < minE
    · rw [if_pos hc] at he
      cases he
    · rw [if_neg hc] at he
      injection he with he
      have h1 := hl p (List.mem_filter.mp hp).1
      have h2 := hr q (List.mem_filter.mp hq).1
      omega

theorem reserveVarsFromTill_internal (minE maxE vm : Nat) (out : OutMap)
    (d nc mv : Nat) (mme : Option (Nat × Nat)) (l r : Node) :
    reserveVarsFromTill minE maxE vm (.internal out d nc mv mme l r)
      = (.internal
          (reserveKeys (reserveList minE maxE (nodeMap l) (nodeMap r)) (out, vm)).1
          d nc mv mme l r,
         (reserveKeys (reserveList minE maxE (nodeMap l) (nodeMap r)) (out, vm)).2) :=
  rfl

theorem reserveVarsFromTill_inv (minE maxE vm : Nat) (t : Node)
    (h : nodeInvB t = true) :
    nodeInvB (reserveVarsFromTill minE maxE vm t).1 = true := by
  cases t with
  | leaf l w => exact h
  | internal out d nc mv mme l r =>
      rw [nodeInvB] at h
      simp only [Bool.and_eq_true, decide_eq_true_eq] at h
      obtain ⟨⟨⟨⟨hmv, hsort⟩, hall⟩, hil⟩, hir⟩ := h
      rw [reserveVarsFromTill_internal, nodeInvB]
      simp only [Bool.and_eq_true, decide_eq_true_eq]
      refine ⟨⟨⟨⟨hmv, reserveKeys_sorted _ (out, vm) hsort⟩, ?_⟩, hil⟩, hir⟩
      rw [List.all_eq_true]
      intro p hp
      simp only [decide_eq_true_eq]
      have hold : ∀ q ∈ out, q.1 ≤ mv := by
        intro q hq
        have h4 := List.all_eq_true.mp hall q hq
        simpa using h4
      have hkeys : ∀ k ∈ reserveList minE maxE (nodeMap l) (nodeMap r), k ≤ mv := by
        intro k hk
        have h5 := reserveList_keys_le (nodeMap_keys_le hil) (nodeMap_keys_le hir) k hk
        have h6 : childVal l + childVal r = mv := by
          rw [childVal_eq_wsum_leaves hil, childVal_eq_wsum_leaves hir]
          omega
        omega
      exact reserveKeys_keys_le hkeys hold p hp

theorem outExtB_refl {t : Node} (h : nodeInvB t = true) : outExtB t t = true := by
  induction t with
  | leaf l w => simp [outExtB]
  | internal out d nc mv mme l r ihl ihr =>
      rw [nodeInvB] at h
      simp only [Bool.and_eq_true, decide_eq_true_eq] at h
      obtain ⟨⟨⟨⟨hmv, hsort⟩, hall⟩, hil⟩, hir⟩ := h
      rw [outExtB]
      simp only [Bool.and_eq_true]
      refine ⟨⟨?_, ihl hil⟩, ihr hir⟩
      rw [List.all_eq_true]
      intro p hp
      obtain ⟨a, b⟩ := p
      simp only [beq_iff_eq]
      exact omGet_of_mem_sorted hsort hp

theorem outExtB_trans : ∀ (a b c : Node), outExtB a b = true → outExtB b c = true →
    outExtB a c = true := by
  intro a
  induction a with
  | leaf l w =>
      intro b c hab hbc
      cases b with
      | leaf l2 w2 =>
          cases c with
          | leaf l3 w3 =>
              rw [outExtB] at hab hbc ⊢
              simp only [Bool.and_eq_true, beq_iff_eq] at hab hbc ⊢
              exact ⟨hbc.1.trans hab.1, hbc.2.trans hab.2⟩
          | internal _ _ _ _ _ _ _ => simp [outExtB] at hbc
      | internal _ _ _ _ _ _ _ => simp [outExtB] at hab
  | internal out d nc mv mme l r ihl ihr =>
      intro b c hab hbc
      cases b with
      | leaf _ _ => simp [outExtB] at hab
      | internal out2 d2 nc2 mv2 mme2 l2 r2 =>
          cases c with
          | leaf _ _ => simp [outExtB] at hbc
          | internal out3 d3 nc3 mv3 mme3 l3 r3 =>
              rw [outExtB] at hab hbc ⊢
              simp only [Bool.and_eq_true] at hab hbc ⊢
              obtain ⟨⟨hab1, habl⟩, habr⟩ := hab
              obtain ⟨⟨hbc1, hbcl⟩, hbcr⟩ := hbc
              refine ⟨⟨?_, ihl l2 l3 habl hbcl⟩, ihr r2 r3 habr hbcr⟩
              rw [List.all_eq_true]
              intro p hp
              have h1 := List.all_eq_true.mp hab1 p hp
              simp only [beq_iff_eq] at h1 ⊢
              have h2 := List.all_eq_true.mp hbc1 _ (omGet_mem h1)
              simpa using h2

theorem outExtB_leaves : ∀ (a b : Node), outExtB a b = true →
    leavesOf b = leavesOf a := by
  intro a
  induction a with
  | leaf l w =>
      intro b h
      cases b with
      | leaf l2 w2 =>
          rw [outExtB] at h
          simp only [Bool.and_eq_true, beq_iff_eq] at h
          rw [leavesOf, leavesOf, h.1, h.2]
      | internal _ _ _ _ _ _ _ => simp [outExtB] at h
  | internal out d nc mv mme l r ihl ihr =>
      intro b h
      cases b with
      | leaf _ _ => simp [outExtB] at h
      | internal out2 d2 nc2 mv2 mme2 l2 r2 =>
          rw [outExtB] at h
          simp only [Bool.and_eq_true] at h
          rw [leavesOf, leavesOf, ihl l2 h.1.2, ihr r2 h.2]

theorem reserveVarsFromTill_ext (minE maxE vm : Nat) (t : Node)
    (h : nodeInvB t = true) :
    outExtB t (reserveVarsFromTill minE maxE vm t).1 = true := by
  cases t with
  | leaf l w => simp [reserveVarsFromTill, outExtB]
  | internal out d nc mv mme l r =>
      rw [nodeInvB] at h
      simp only [Bool.and_eq_true, decide_eq_true_eq] at h
      obtain ⟨⟨⟨⟨hmv, hsort⟩, hall⟩, hil⟩, hir⟩ := h
      rw [reserveVarsFromTill_internal, outExtB]
      simp only [Bool.and_eq_true]
      refine ⟨⟨?_, outExtB_refl hil⟩, outExtB_refl hir⟩
      rw [List.all_eq_true]
      intro p hp
      obtain ⟨a, b⟩ := p
      simp only [beq_iff_eq]
      exact reserveKeys_get_old (omGet_of_mem_sorted hsort hp)

/-- The node returned by `encode_from_till` is the input node or its
reservation. -/
theorem encodeFromTill_fst (minE maxE vm : Nat) (t : Node) :
    (encodeFromTill minE maxE vm t).1 = t ∨
      (encodeFromTill minE maxE vm t).1 = (reserveVarsFromTill minE maxE vm t).1 := by
  by_cases hgt : minE > maxE
  · rw [encodeFromTill_of_gt hgt]
    exact .inl rfl
  · cases t with
    | leaf l w =>
        rw [encodeFromTill_leaf]
        exact .inl rfl
    | internal out d nc mv mme l r =>
        right
        by_cases h2 : minE > mv
        · rw [encodeFromTill_internal_hi vm out d nc mv mme l r hgt h2,
            reserveVarsFromTill_internal]
        · rw [encodeFromTill_internal_lo vm out d nc mv mme l r hgt h2,
            reserveVarsFromTill_internal]

theorem encodeFromTill_inv (minE maxE vm : Nat) (t : Node) (h : nodeInvB t = true) :
    nodeInvB (encodeFromTill minE maxE vm t).1 = true := by
  rcases encodeFromTill_fst minE maxE vm t with he | he
  · rw [he]
    exact h
  · rw [he]
    exact reserveVarsFromTill_inv minE maxE vm t h

theorem encodeFromTill_ext (minE maxE vm : Nat) (t : Node) (h : nodeInvB t = true) :
    outExtB t (encodeFromTill minE maxE vm t).1 = true := by
  rcases encodeFromTill_fst minE maxE vm t with he | he
  · rw [he]
    exact outExtB_refl h
  · rw [he]
    exact reserveVarsFromTill_ext minE maxE vm t h

/-- `nodeInvB` ignores the `n_clauses` and `min_max_enc` stats. -/
theorem nodeInvB_stats {out : OutMap} {d nc mv : Nat} {mme : Option (Nat × Nat)}
    {l r : Node} (nc2 : Nat) (mme2 : Option (Nat × Nat))
    (h : nodeInvB (.internal out d nc mv mme l r) = true) :
    nodeInvB (.internal out d nc2 mv mme2 l r) = true := by
  rw [nodeInvB] at h ⊢
  exact h

theorem outExtB_internal_build {out out2 : OutMap} {d nc mv : Nat}
    {mme : Option (Nat × Nat)} {d2 nc2 mv2 : Nat} {mme2 : Option (Nat × Nat)}
    {l r lt rt : Node}
    (hout : ∀ p ∈ out, omGet p.1 out2 = some p.2)
    (hl : outExtB l lt = true) (hr : outExtB r rt = true) :
    outExtB (.internal out d nc mv mme l r)
      (.internal out2 d2 nc2 mv2 mme2 lt rt) = true := by
  rw [outExtB]
  simp only [Bool.and_eq_true]
  refine ⟨⟨?_, hl⟩, hr⟩
  rw [List.all_eq_true]
  intro p hp
  simp only [beq_iff_eq]
  exact hout p hp

theorem outExtB_internal_elim {out out2 : OutMap} {d nc mv : Nat}
    {mme : Option (Nat × Nat)} {d2 nc2 mv2 : Nat} {mme2 : Option (Nat × Nat)}
    {l r lt rt : Node}
    (h : outExtB (.internal out d nc mv mme l r)
          (.internal out2 d2 nc2 mv2 mme2 lt rt) = true) :
    (∀ p ∈ out, omGet p.1 out2 = some p.2)
      ∧ outExtB l lt = true ∧ outExtB r rt = true := by
  rw [outExtB] at h
  simp only [Bool.and_eq_true] at h
  refine ⟨fun p hp => ?_, h.1.2, h.2⟩
  have h2 := List.all_eq_true.mp h.1.1 p hp
  simpa using h2

/-- Shape of the conditional kernel call of `encode_change_rec`. -/
theorem encodeFromTill_if_shape (cond : Prop) [Decidable cond] (minE maxE vm : Nat)
    (out : OutMap) (d nc mv : Nat) (mme : Option (Nat × Nat)) (l r : Node) :
    ∃ out2 vm2 cnf2,
      (if cond then encodeFromTill minE maxE vm (.internal out d nc mv mme l r)
       else (.internal out d nc mv mme l r, vm, ([] : CNF)))
        = (.internal out2 d nc mv mme l r, vm2, cnf2) := by
  by_cases hc : cond
  · rw [if_pos hc]
    exact encodeFromTill_shape minE maxE vm out d nc mv mme l r
  · rw [if_neg hc]
    exact ⟨out, vm, [], rfl⟩

/-- The conditional kernel call preserves the invariant and extends maps. -/
theorem encodeFromTill_if_inv_ext (cond : Prop) [Decidable cond] (minE maxE vm : Nat)
    (t : Node) (h : nodeInvB t = true) :
    nodeInvB (if cond then encodeFromTill minE maxE vm t else (t, vm, ([] : CNF))).1 = true
      ∧ outExtB t (if cond then encodeFromTill minE maxE vm t
          else (t, vm, ([] : CNF))).1 = true := by
  by_cases hc : cond
  · rw [if_pos hc]
    exact ⟨encodeFromTill_inv _ _ _ _ h, encodeFromTill_ext _ _ _ _ h⟩
  · rw [if_neg hc]
    exact ⟨h, outExtB_refl h⟩

theorem encodeRec_inv_ext : ∀ (t : Node) (minE maxE vm : Nat), nodeInvB t = true →
    nodeInvB (encodeRec minE maxE vm t).1 = true
      ∧ outExtB t (encodeRec minE maxE vm t).1 = true := by
  intro t
  induction t with
  | leaf l w =>
      intro minE maxE vm h
      exact ⟨h, by simp [encodeRec, outExtB]⟩
  | internal out d nc mv mme l r ihl ihr =>
      intro minE maxE vm h
      rw [nodeInvB] at h
      simp only [Bool.and_eq_true, decide_eq_true_eq] at h
      obtain ⟨⟨⟨⟨hmv, hsort⟩, hall⟩, hil⟩, hir⟩ := h
      rcases hlr : encodeRec (computeRequiredMinEnc minE maxE r) maxE vm l with ⟨lt, rest1⟩
      rcases rest1 with ⟨vm1, cL⟩
      rcases hrr : encodeRec (computeRequiredMinEnc minE maxE l) maxE vm1 r with ⟨rt, rest2⟩
      rcases rest2 with ⟨vm2, cR⟩
      rcases encodeFromTill_shape minE maxE vm2 out d nc mv mme lt rt with ⟨out2, vm3, cF, hf⟩
      have hL := ihl (computeRequiredMinEnc minE maxE r) maxE vm hil
      rw [hlr] at hL
      have hR := ihr (computeRequiredMinEnc minE maxE l) maxE vm1 hir
      rw [hrr] at hR
      have hll : leavesOf lt = leavesOf l := by
        have h5 := encodeRec_leaves (computeRequiredMinEnc minE maxE r) maxE vm l
        rw [hlr] at h5
        exact h5
      have hrl : leavesOf rt = leavesOf r := by
        have h5 := encodeRec_leaves (computeRequiredMinEnc minE maxE l) maxE vm1 r
        rw [hrr] at h5
        exact h5
      have hmid : nodeInvB (.internal out d nc mv mme lt rt) = true := by
        rw [nodeInvB]
        simp only [Bool.and_eq_true, decide_eq_true_eq]
        exact ⟨⟨⟨⟨by rw [hll, hrl]; exact hmv, hsort⟩, hall⟩, hL.1⟩, hR.1⟩
      have hfi : nodeInvB (.internal out2 d nc mv mme lt rt) = true := by
        have h5 := encodeFromTill_inv minE maxE vm2 (.internal out d nc mv mme lt rt) hmid
        rw [hf] at h5
        exact h5
      have hfe : outExtB (.internal out d nc mv mme lt rt)
          (.internal out2 d nc mv mme lt rt) = true := by
        have h5 := encodeFromTill_ext minE maxE vm2 (.internal out d nc mv mme lt rt) hmid
        rw [hf] at h5
        exact h5
      rw [encodeRec_internal_eq hlr hrr hf]
      constructor
      · exact nodeInvB_stats _ _ hfi
      · exact outExtB_internal_build (outExtB_internal_elim hfe).1 hL.2 hR.2

theorem encodeChangeRec_inv_ext : ∀ (t : Node) (minE maxE vm : Nat),
    nodeInvB t = true →
    nodeInvB (encodeChangeRec minE maxE vm t).1 = true
      ∧ outExtB t (encodeChangeRec minE maxE vm t).1 = true := by
  intro t
  induction t with
  | leaf l w =>
      intro minE maxE vm h
      exact ⟨h, by simp [encodeChangeRec, outExtB]⟩
  | internal out d nc mv mme l r ihl ihr =>
      intro minE maxE vm h
      rw [nodeInvB] at h
      simp only [Bool.and_eq_true, decide_eq_true_eq] at h
      obtain ⟨⟨⟨⟨hmv, hsort⟩, hall⟩, hil⟩, hir⟩ := h
      rcases hlr : encodeChangeRec (computeRequiredMinEnc minE maxE r) maxE vm l
        with ⟨lt, rest1⟩
      rcases rest1 with ⟨vm1, cL⟩
      rcases hrr : encodeChangeRec (computeRequiredMinEnc minE maxE l) maxE vm1 r
        with ⟨rt, rest2⟩
      rcases rest2 with ⟨vm2, cR⟩
      have hL := ihl (computeRequiredMinEnc minE maxE r) maxE vm hil
      rw [hlr] at hL
      have hR := ihr (computeRequiredMinEnc minE maxE l) maxE vm1 hir
      rw [hrr] at hR
      have hll : leavesOf lt = leavesOf l := outExtB_leaves l lt hL.2
      have hrl : leavesOf rt = leavesOf r := outExtB_leaves r rt hR.2
      have hmid : nodeInvB (.internal out d nc mv mme lt rt) = true := by
        rw [nodeInvB]
        simp only [Bool.and_eq_true, decide_eq_true_eq]
        exact ⟨⟨⟨⟨by rw [hll, hrl]; exact hmv, hsort⟩, hall⟩, hL.1⟩, hR.1⟩
      cases mme with
      | none =>
          rcases encodeFromTill_shape minE maxE vm2 out d nc mv none lt rt
            with ⟨out2, vm3, cF, hf⟩
          have hfi : nodeInvB (.internal out2 d nc mv none lt rt) = true := by
            have h5 := encodeFromTill_inv minE maxE vm2 (.internal out d nc mv none lt rt) hmid
            rw [hf] at h5
            exact h5
          have hfe : outExtB (.internal out d nc mv none lt rt)
              (.internal out2 d nc mv none lt rt) = true := by
            have h5 := encodeFromTill_ext minE maxE vm2 (.internal out d nc mv none lt rt) hmid
            rw [hf] at h5
            exact h5
          rw [encodeChangeRec_internal_none hlr hrr hf]
          exact ⟨nodeInvB_stats _ _ hfi,
            outExtB_internal_build (outExtB_internal_elim hfe).1 hL.2 hR.2⟩
      | some w0 =>
          obtain ⟨a0, b0⟩ := w0
          rcases encodeFromTill_if_shape (minE < a0) minE (a0 - 1) vm2 out d nc mv
            (some (a0, b0)) lt rt with ⟨outa, vma, cA, hfa⟩
          have hsta := encodeFromTill_if_inv_ext (minE < a0) minE (a0 - 1) vm2
            (.internal out d nc mv (some (a0, b0)) lt rt) hmid
          rw [hfa] at hsta
          have hmida : nodeInvB (.internal outa d nc mv (some (a0, b0)) lt rt) = true :=
            hsta.1
          have hexta : outExtB (.internal out d nc mv (some (a0, b0)) lt rt)
              (.internal outa d nc mv (some (a0, b0)) lt rt) = true := hsta.2
          rcases encodeFromTill_if_shape (maxE > b0) (b0 + 1) maxE vma outa d nc mv
            (some (a0, b0)) lt rt with ⟨outb, vmb, cB, hfb⟩
          have hstb := encodeFromTill_if_inv_ext (maxE > b0) (b0 + 1) maxE vma
            (.internal outa d nc mv (some (a0, b0)) lt rt) hmida
          rw [hfb] at hstb
          have hmidb : nodeInvB (.internal outb d nc mv (some (a0, b0)) lt rt) = true :=
            hstb.1
          have hextb : outExtB (.internal outa d nc mv (some (a0, b0)) lt rt)
              (.internal outb d nc mv (some (a0, b0)) lt rt) = true := hstb.2
          have hcomp : outExtB (.internal out d nc mv (some (a0, b0)) lt rt)
              (.internal outb d nc mv (some (a0, b0)) lt rt) = true :=
            outExtB_trans _ _ _ hexta hextb
          rw [encodeChangeRec_internal_some hlr hrr hfa hfb]
          exact ⟨nodeInvB_stats _ _ hmidb,
            outExtB_internal_build (outExtB_internal_elim hcomp).1 hL.2 hR.2⟩

theorem reserveAllVars_inv_ext (vm : Nat) (t : Node) (h : nodeInvB t = true) :
    nodeInvB (reserveAllVars vm t).1 = true
      ∧ outExtB t (reserveAllVars vm t).1 = true := by
  cases t with
  | leaf l w => exact ⟨h, outExtB_refl h⟩
  | internal out d nc mv mme l r =>
      exact ⟨reserveVarsFromTill_inv 0 mv vm _ h, reserveVarsFromTill_ext 0 mv vm _ h⟩

theorem reserveAllVarsRec_inv_ext : ∀ (t : Node) (vm : Nat), nodeInvB t = true →
    nodeInvB (reserveAllVarsRec vm t).1 = true
      ∧ outExtB t (reserveAllVarsRec vm t).1 = true := by
  intro t
  induction t with
  | leaf l w =>
      intro vm h
      exact ⟨h, by simp [reserveAllVarsRec, outExtB]⟩
  | internal out d nc mv mme l r ihl ihr =>
      intro vm h
      rw [nodeInvB] at h
      simp only [Bool.and_eq_true, decide_eq_true_eq] at h
      obtain ⟨⟨⟨⟨hmv, hsort⟩, hall⟩, hil⟩, hir⟩ := h
      rcases hlr : reserveAllVarsRec vm l with ⟨lt, vm1⟩
      rcases hrr : reserveAllVarsRec vm1 r with ⟨rt, vm2⟩
      have hL := ihl vm hil
      rw [hlr] at hL
      have hR := ihr vm1 hir
      rw [hrr] at hR
      have hmid : nodeInvB (.internal out d nc mv mme lt rt) = true := by
        rw [nodeInvB]
        simp only [Bool.and_eq_true, decide_eq_true_eq]
        refine ⟨⟨⟨⟨?_, hsort⟩, hall⟩, hL.1⟩, hR.1⟩
        rw [outExtB_leaves l lt hL.2, outExtB_leaves r rt hR.2]
        exact hmv
      have heq : reserveAllVarsRec vm (.internal out d nc mv mme l r)
          = reserveAllVars vm2 (.internal out d nc mv mme lt rt) := by
        rw [reserveAllVarsRec]
        simp only [hlr, hrr]
      rw [heq]
      have hres := reserveAllVars_inv_ext vm2 (.internal out d nc mv mme lt rt) hmid
      have hAM : outExtB (.internal out d nc mv mme l r)
          (.internal out d nc mv mme lt rt) = true :=
        outExtB_internal_build (fun p hp => omGet_of_mem_sorted hsort
          (by obtain ⟨a, b⟩ := p; exact hp)) hL.2 hR.2
      exact ⟨hres.1, outExtB_trans _ _ _ hAM hres.2⟩

theorem reserveAllVars_internal_eq (vm : Nat) (out : OutMap) (d nc mv : Nat)
    (mme : Option (Nat × Nat)) (l r : Node) :
    reserveAllVars vm (.internal out d nc mv mme l r)
      = reserveVarsFromTill 0 mv vm (.internal out d nc mv mme l r) := rfl

/-- `extend_tree` preserves the invariant of the root, and keeps the old
root's minted literals: the old root survives either in place (nothing was
added) or as the left child of the new root. -/
theorem extendTreeWith_root_inv (inv : Bool) (ord : List (Lit × Nat)) (w vm : Nat)
    (s : GTE) (hs : ∀ t0, s.root = some t0 → nodeInvB t0 = true) :
    ∀ t1, (extendTreeWith inv ord w vm s).1.root = some t1 →
      nodeInvB t1 = true
      ∧ ∀ t0, s.root = some t0 →
          (outExtB t0 t1 = true ∨ ∃ o2 d2 nc2 mv2 mme2 lc rc,
            t1 = .internal o2 d2 nc2 mv2 mme2 lc rc ∧ outExtB t0 lc = true) := by
  intro t1 ht1
  by_cases hbe : s.lit_buffer = []
  · rw [extendTreeWith, if_pos hbe] at ht1
    refine ⟨hs t1 ht1, fun t0 ht0 => .inl ?_⟩
    have he : t0 = t1 := by
      rw [ht0] at ht1
      exact Option.some.inj ht1
    rw [← he]
    exact outExtB_refl (hs t0 ht0)
  · rw [extendTreeWith, if_neg hbe] at ht1
    simp only at ht1
    by_cases hnl : ((ord.filter fun p => decide (p.2 ≤ w)).map
        fun p => (if inv then negLit p.1 else p.1, p.2)) = []
    · rw [if_pos hnl] at ht1
      refine ⟨hs t1 ht1, fun t0 ht0 => .inl ?_⟩
      have he : t0 = t1 := by
        rw [ht0] at ht1
        exact Option.some.inj ht1
      rw [← he]
      exact outExtB_refl (hs t0 ht0)
    · rw [if_neg hnl] at ht1
      simp only at ht1
      injection ht1 with ht1
      set sub := buildTree (sortByWeight ((ord.filter fun p => decide (p.2 ≤ w)).map
        fun p => (if inv then negLit p.1 else p.1, p.2))) with hsubdef
      have hsubinv : nodeInvB sub = true := by
        rw [hsubdef]
        exact buildTree_inv _
      rcases hroot : s.root with _ | oldRoot
      · rw [hroot] at ht1
        refine ⟨?_, fun t0 ht0 => by cases ht0⟩
        by_cases hrv : s.reserve_vars
        · simp [hrv] at ht1
          rw [← ht1]
          exact (reserveAllVarsRec_inv_ext sub vm hsubinv).1
        · simp [hrv] at ht1
          rw [← ht1]
          exact hsubinv
      · rw [hroot] at ht1
        have hinv0 : nodeInvB oldRoot = true := hs oldRoot hroot
        by_cases hrv : s.reserve_vars
        · simp [hrv] at ht1
          have hsrinv : nodeInvB (reserveAllVarsRec vm sub).1 = true :=
            (reserveAllVarsRec_inv_ext sub vm hsubinv).1
          have hnrinv : nodeInvB (newInternal oldRoot (reserveAllVarsRec vm sub).1)
              = true := nodeInvB_newInternal hinv0 hsrinv
          have hfin := reserveAllVars_inv_ext (reserveAllVarsRec vm sub).2
            (newInternal oldRoot (reserveAllVarsRec vm sub).1) hnrinv
          refine ⟨by rw [← ht1]; exact hfin.1, fun t0 ht0 => ?_⟩
          have he0 : oldRoot = t0 := Option.some.inj ht0
          right
          rw [newInternal, reserveAllVars_internal_eq, reserveVarsFromTill_internal] at ht1
          rw [← ht1]
          refine ⟨_, _, _, _, _, oldRoot, _, rfl, ?_⟩
          rw [← he0]
          exact outExtB_refl hinv0
        · simp [hrv] at ht1
          refine ⟨by rw [← ht1]; exact nodeInvB_newInternal hinv0 hsubinv,
            fun t0 ht0 => ?_⟩
          have he0 : oldRoot = t0 := Option.some.inj ht0
          right
          rw [newInternal] at ht1
          rw [← ht1]
          refine ⟨_, _, _, _, _, oldRoot, _, rfl, ?_⟩
          rw [← he0]
          exact outExtB_refl hinv0

/-- C8: every operation on the adder tree (building, extending, full
encoding, incremental encoding, variable reservation) preserves the
tree-wide invariants: at every internal node `max_val` equals the sum of the
subtree's leaf weights, `out_lits` has strictly ascending keys (hence no
duplicate output values) all of which are at most `max_val`; and every
binding already minted is kept, so an encoding touching a value reuses its
literal instead of minting a new one. -/
theorem tree_invariants_preserved (l : List (Lit × Nat)) (minE maxE vm w : Nat)
    (inv : Bool) (ord : List (Lit × Nat)) (s : GTE) (t : Node)
    (hinv : nodeInvB t = true)
    (hs : ∀ t0, s.root = some t0 → nodeInvB t0 = true) :
    nodeInvB (buildTree l) = true
    ∧ nodeInvB (reserveAllVarsRec vm t).1 = true
    ∧ outExtB t (reserveAllVarsRec vm t).1 = true
    ∧ nodeInvB (encodeRec minE maxE vm t).1 = true
    ∧ outExtB t (encodeRec minE maxE vm t).1 = true
    ∧ nodeInvB (encodeChangeRec minE maxE vm t).1 = true
    ∧ outExtB t (encodeChangeRec minE maxE vm t).1 = true
    ∧ ∀ t1, (extendTreeWith inv ord w vm s).1.root = some t1 →
        nodeInvB t1 = true
        ∧ ∀ t0, s.root = some t0 →
            (outExtB t0 t1 = true ∨ ∃ o2 d2 nc2 mv2 mme2 lc rc,
              t1 = .internal o2 d2 nc2 mv2 mme2 lc rc ∧ outExtB t0 lc = true) :=
  ⟨buildTree_inv l,
   (reserveAllVarsRec_inv_ext t vm hinv).1,
   (reserveAllVarsRec_inv_ext t vm hinv).2,
   (encodeRec_inv_ext t minE maxE vm hinv).1,
   (encodeRec_inv_ext t minE maxE vm hinv).2,
   (encodeChangeRec_inv_ext t minE maxE vm hinv).1,
   (encodeChangeRec_inv_ext t minE maxE vm hinv).2,
   extendTreeWith_root_inv inv ord w vm s hs⟩

/-- Witness for C8 on weights {2, 3}, full window `[1, 5]`, and an extension
of the empty encoder. -/
theorem tree_invariants_preserved_witness :
    nodeInvB (buildTree [(posLit 0, 2), (posLit 1, 3)]) = true
    ∧ nodeInvB (reserveAllVarsRec 2 (buildTree [(posLit 0, 2), (posLit 1, 3)])).1 = true
    ∧ outExtB (buildTree [(posLit 0, 2), (posLit 1, 3)])
        (reserveAllVarsRec 2 (buildTree [(posLit 0, 2), (posLit 1, 3)])).1 = true
    ∧ nodeInvB (encodeRec 1 5 2 (buildTree [(posLit 0, 2), (posLit 1, 3)])).1 = true
    ∧ outExtB (buildTree [(posLit 0, 2), (posLit 1, 3)])
        (encodeRec 1 5 2 (buildTree [(posLit 0, 2), (posLit 1, 3)])).1 = true
    ∧ nodeInvB (encodeChangeRec 1 5 2 (buildTree [(posLit 0, 2), (posLit 1, 3)])).1 = true
    ∧ outExtB (buildTree [(posLit 0, 2), (posLit 1, 3)])
        (encodeChangeRec 1 5 2 (buildTree [(posLit 0, 2), (posLit 1, 3)])).1 = true
    ∧ ∀ t1, (extendTreeWith false [(posLit 0, 2)] 5 0 newGTE).1.root = some t1 →
        nodeInvB t1 = true
        ∧ ∀ t0, newGTE.root = some t0 →
            (outExtB t0 t1 = true ∨ ∃ o2 d2 nc2 mv2 mme2 lc rc,
              t1 = Node.internal o2 d2 nc2 mv2 mme2 lc rc ∧ outExtB t0 lc = true) :=
  tree_invariants_preserved [(posLit 0, 2), (posLit 1, 3)] 1 5 2 5 false
    [(posLit 0, 2)] newGTE (buildTree [(posLit 0, 2), (posLit 1, 3)])
    (by decide) (fun t0 h => by simp [newGTE] at h)

/-! ### No clause is re-emitted by an incremental call (claim C4, amended) -/

theorem negLit_v (l : Lit) : (negLit l).v = l.v := rfl

theorem emptyOut_kiw : ∀ (t : Node), emptyOutB t = true → kiwB t = true := by
  intro t
  induction t with
  | leaf l w => intro h; exact h
  | internal out d nc mv mme l r ihl ihr =>
      intro h
      rw [emptyOutB] at h
      simp only [Bool.and_eq_true] at h
      have hout0 : out = [] := by
        cases out with
        | nil => rfl
        | cons p ps => simp [List.isEmpty] at h
      subst hout0
      cases mme with
      | none =>
          rw [kiwB]
          simp only [Bool.and_eq_true]
          exact ⟨⟨rfl, ihl h.1.2⟩, ihr h.2⟩
      | some w0 =>
          rw [kiwB]
          simp only [Bool.and_eq_true]
          exact ⟨⟨by simp, ihl h.1.2⟩, ihr h.2⟩

theorem buildTreeF_emptyOut : ∀ (fuel : Nat) (l : List (Lit × Nat)),
    emptyOutB (buildTreeF fuel l) = true := by
  intro fuel
  induction fuel with
  | zero =>
      intro l
      cases l with
      | nil => rfl
      | cons x xs => cases xs <;> rfl
  | succ fuel ih =>
      intro l
      match l with
      | [] => rfl
      | [x] => rfl
      | x :: y :: rest =>
          rw [buildTreeF, newInternal, emptyOutB]
          simp only [Bool.and_eq_true]
          exact ⟨⟨rfl, ih _⟩, ih _⟩

theorem buildTree_emptyOut (l : List (Lit × Nat)) : emptyOutB (buildTree l) = true :=
  buildTreeF_emptyOut l.length l

theorem allVarsB_newInternal {vmv : Nat} {a b : Node} (ha : allVarsB vmv a = true)
    (hb : allVarsB vmv b = true) : allVarsB vmv (newInternal a b) = true := by
  rw [newInternal, allVarsB]
  simp only [Bool.and_eq_true]
  exact ⟨⟨by simp, ha⟩, hb⟩

theorem buildTreeF_allVars (vmv : Nat) : ∀ (fuel : Nat) (l : List (Lit × Nat)),
    l.length ≤ fuel → l ≠ [] → (∀ p ∈ l, p.1.v < vmv) →
    allVarsB vmv (buildTreeF fuel l) = true := by
  intro fuel
  induction fuel with
  | zero =>
      intro l hlen hne _
      cases l with
      | nil => cases hne rfl
      | cons x xs => simp at hlen
  | succ fuel ih =>
      intro l hlen hne hv
      match l with
      | [] => cases hne rfl
      | [x] =>
          rw [buildTreeF, allVarsB]
          simp only [decide_eq_true_eq]
          exact hv x (.head _)
      | x :: y :: rest =>
          rw [buildTreeF]
          set n := (x :: y :: rest).length with hn
          have hlenn : n = rest.length + 2 := by rw [hn]; simp
          have hs1 : 1 ≤ n / 2 := Nat.one_le_div_iff (by omega) |>.mpr (by omega)
          have hslt : n / 2 < n := Nat.div_lt_self (by omega) (by omega)
          have htake : ((x :: y :: rest).take (n / 2)).length = n / 2 := by
            rw [List.length_take, ← hn]
            omega
          have hdrop : ((x :: y :: rest).drop (n / 2)).length = n - n / 2 := by
            rw [List.length_drop, ← hn]
          exact allVarsB_newInternal
            (ih _ (by rw [htake]; omega)
              (by
                intro h
                rw [h] at htake
                simp at htake
                omega)
              (fun p hp => hv p (List.take_subset _ _ hp)))
            (ih _ (by rw [hdrop]; omega)
              (by
                intro h
                rw [h] at hdrop
                simp at hdrop
                omega)
              (fun p hp => hv p (List.drop_subset _ _ hp)))

theorem buildTree_allVars {vmv : Nat} {l : List (Lit × Nat)} (hne : l ≠ [])
    (hv : ∀ p ∈ l, p.1.v < vmv) : allVarsB vmv (buildTree l) = true :=
  buildTreeF_allVars vmv l.length l (Nat.le_refl _) hne hv

theorem allVarsB_mono {vm vm' : Nat} (hle : vm ≤ vm') : ∀ {t : Node},
    allVarsB vm t = true → allVarsB vm' t = true := by
  intro t
  induction t with
  | leaf l w =>
      intro h
      rw [allVarsB] at h ⊢
      simp only [decide_eq_true_eq] at h ⊢
      omega
  | internal out d nc mv mme l r ihl ihr =>
      intro h
      rw [allVarsB] at h ⊢
      simp only [Bool.and_eq_true] at h ⊢
      refine ⟨⟨?_, ihl h.1.2⟩, ihr h.2⟩
      rw [List.all_eq_true]
      intro p hp
      have h5 := List.all_eq_true.mp h.1.1 p hp
      simp only [decide_eq_true_eq] at h5 ⊢
      omega

theorem nodeMap_vars_lt {vm : Nat} {t : Node} (h : allVarsB vm t = true) :
    ∀ p ∈ nodeMap t, p.2.v < vm := by
  cases t with
  | leaf l w =>
      intro p hp
      rw [nodeMap] at hp
      rw [allVarsB] at h
      simp only [decide_eq_true_eq] at h
      rcases List.mem_cons.mp hp with hp | hp
      · rw [hp]
        exact h
      · cases hp
  | internal out d nc mv mme l r =>
      intro p hp
      rw [allVarsB] at h
      simp only [Bool.and_eq_true] at h
      have h5 := List.all_eq_true.mp h.1.1 p hp
      simpa using h5

theorem reserveKeys_vars_lt : ∀ (ks : List Nat) (st : OutMap × Nat),
    (∀ q ∈ st.1, q.2.v < st.2) →
    ∀ p ∈ (reserveKeys ks st).1, p.2.v < (reserveKeys ks st).2
  | [], st, h => h
  | a :: as, st, h => by
      rw [reserveKeys]
      by_cases hc : omContains a st.1
      · rw [if_pos hc]
        exact reserveKeys_vars_lt as st h
      · rw [if_neg hc]
        refine reserveKeys_vars_lt as _ ?_
        intro q hq
        rcases mem_insert hq with hq | hq
        · rw [hq]
          exact Nat.lt_succ_self _
        · have h5 := h q hq
          omega

theorem reserveList_keys_ge {minE maxE : Nat} {lmap rmap : OutMap} :
    ∀ k ∈ reserveList minE maxE lmap rmap, minE ≤ k := by
  intro k hk
  rw [reserveList, List.mem_append, List.mem_append] at hk
  rcases hk with (hk | hk) | hk
  · rcases List.mem_map.mp hk with ⟨p, hp, he⟩
    have hf := (List.mem_filter.mp hp).2
    simp only [decide_eq_true_eq] at hf
    omega
  · rcases List.mem_map.mp hk with ⟨p, hp, he⟩
    have hf := (List.mem_filter.mp hp).2
    simp only [decide_eq_true_eq] at hf
    omega
  · rw [sumKeys] at hk
    rcases List.mem_flatMap.mp hk with ⟨p, hp, hk2⟩
    simp only at hk2
    rcases List.mem_filterMap.mp hk2 with ⟨q, hq, he⟩
    by_cases hc : p.1 + q.1 > maxE ∨ p.1 + q.1 < minE
    · rw [if_pos hc] at he
      cases he
    · rw [if_neg hc] at he
      injection he with he
      omega

theorem reserveList_keys_le_max {minE maxE : Nat} {lmap rmap : OutMap} :
    ∀ k ∈ reserveList minE maxE lmap rmap, k ≤ maxE := by
  intro k hk
  rw [reserveList, List.mem_append, List.mem_append] at hk
  rcases hk with (hk | hk) | hk
  · rcases List.mem_map.mp hk with ⟨p, hp, he⟩
    have hf := (List.mem_filter.mp hp).2
    simp only [decide_eq_true_eq] at hf
    omega
  · rcases List.mem_map.mp hk with ⟨p, hp, he⟩
    have hf := (List.mem_filter.mp hp).2
    simp only [decide_eq_true_eq] at hf
    omega
  · rw [sumKeys] at hk
    rcases List.mem_flatMap.mp hk with ⟨p, hp, hk2⟩
    simp only at hk2
    rcases List.mem_filterMap.mp hk2 with ⟨q, hq, he⟩
    by_cases hc : p.1 + q.1 > maxE ∨ p.1 + q.1 < minE
    · rw [if_pos hc] at he
      cases he
    · rw [if_neg hc] at he
      injection he with he
      omega

/-- Every clause of `encode_from_till` is a propagation clause: its
conclusion is a freshly looked-up output literal with key in the window, and
its other literals are negated child outputs. -/
theorem fromTillClauses_elim {minE maxE : Nat} {lmap rmap out : OutMap} {c : Clause}
    (h : c ∈ fromTillClauses minE maxE lmap rmap out) :
    ∃ k, k ∈ reserveList minE maxE lmap rmap ∧ minE ≤ k ∧ k ≤ maxE ∧
      ((∃ p ∈ lmap, c = litImplLit p.2 (omGetD k out))
        ∨ (∃ p ∈ rmap, c = litImplLit p.2 (omGetD k out))
        ∨ (∃ p ∈ lmap, ∃ q ∈ rmap, c = cubeImplLit p.2 q.2 (omGetD k out))) := by
  rw [fromTillClauses, List.mem_append, List.mem_append] at h
  rcases h with (h | h) | h
  · rcases List.mem_map.mp h with ⟨p, hp, he⟩
    rw [omRangeII] at hp
    have hp2 := List.mem_filter.mp hp
    have hb := hp2.2
    simp only [decide_eq_true_eq] at hb
    obtain ⟨a, la⟩ := p
    exact ⟨a, reserveList_mem_left hp2.1 hb.1 hb.2, hb.1, hb.2,
      .inl ⟨(a, la), hp2.1, he.symm⟩⟩
  · rcases List.mem_map.mp h with ⟨p, hp, he⟩
    rw [omRangeII] at hp
    have hp2 := List.mem_filter.mp hp
    have hb := hp2.2
    simp only [decide_eq_true_eq] at hb
    obtain ⟨a, la⟩ := p
    exact ⟨a, reserveList_mem_right hp2.1 hb.1 hb.2, hb.1, hb.2,
      .inr (.inl ⟨(a, la), hp2.1, he.symm⟩)⟩
  · rw [sumClauses] at h
    rcases List.mem_flatMap.mp h with ⟨p, hp, h2⟩
    obtain ⟨a, la⟩ := p
    simp only at h2 hp
    rcases List.mem_filterMap.mp h2 with ⟨q, hq, he⟩
    obtain ⟨b, lb⟩ := q
    simp only at he hq
    rw [omRangeEE] at hp
    have hp2 := List.mem_filter.mp hp
    have hpb := hp2.2
    simp only [decide_eq_true_eq] at hpb
    rw [omRangeII] at hq
    have hq2 := List.mem_filter.mp hq
    by_cases hc2 : a + b > maxE ∨ a + b < minE
    · rw [if_pos hc2] at he
      cases he
    · rw [if_neg hc2] at he
      injection he with he
      exact ⟨a + b, reserveList_mem_sum hp2.1 hq2.1 hpb.1 hpb.2 (by omega) (by omega),
        by omega, by omega, .inr (.inr ⟨(a, la), hp2.1, (b, lb), hq2.1, he.symm⟩)⟩

/-- A lookup in the output map after `encode_from_till` is an old binding or
a literal minted by this call. -/
theorem encodeFromTill_get_cases {minE maxE vm : Nat} {out : OutMap} {d nc mv : Nat}
    {mme : Option (Nat × Nat)} {l r : Node} {k : Nat} {v : Lit}
    (h : omGet k (nodeMap (encodeFromTill minE maxE vm
          (.internal out d nc mv mme l r)).1) = some v) :
    omGet k out = some v
      ∨ (vm ≤ v.v ∧ v.v < (encodeFromTill minE maxE vm
            (.internal out d nc mv mme l r)).2.1) := by
  by_cases hgt : minE > maxE
  · rw [encodeFromTill_of_gt hgt] at h
    exact .inl h
  · by_cases h2 : minE > mv
    · rw [encodeFromTill_internal_hi vm out d nc mv mme l r hgt h2] at h ⊢
      have h' : omGet k (reserveKeys (reserveList minE maxE (nodeMap l) (nodeMap r))
          (out, vm)).1 = some v := h
      rcases reserveKeys_get_cases h' with h5 | ⟨_, h6, h7, _⟩
      · exact .inl h5
      · exact .inr ⟨h6, h7⟩
    · rw [encodeFromTill_internal_lo vm out d nc mv mme l r hgt h2] at h ⊢
      have h' : omGet k (reserveKeys (reserveList minE maxE (nodeMap l) (nodeMap r))
          (out, vm)).1 = some v := h
      rcases reserveKeys_get_cases h' with h5 | ⟨_, h6, h7, _⟩
      · exact .inl h5
      · exact .inr ⟨h6, h7⟩

theorem encodeFromTill_out_vars {minE maxE vm : Nat} {out : OutMap} {d nc mv : Nat}
    {mme : Option (Nat × Nat)} {l r : Node}
    (hv : ∀ q ∈ out, q.2.v < vm) :
    ∀ p ∈ nodeMap (encodeFromTill minE maxE vm (.internal out d nc mv mme l r)).1,
      p.2.v < (encodeFromTill minE maxE vm (.internal out d nc mv mme l r)).2.1 := by
  by_cases hgt : minE > maxE
  · rw [encodeFromTill_of_gt hgt]
    exact hv
  · by_cases h2 : minE > mv
    · rw [encodeFromTill_internal_hi vm out d nc mv mme l r hgt h2]
      exact reserveKeys_vars_lt _ (out, vm) hv
    · rw [encodeFromTill_internal_lo vm out d nc mv mme l r hgt h2]
      exact reserveKeys_vars_lt _ (out, vm) hv

/-- Starting from an empty map, every key after `encode_from_till` comes
from the reservation list. -/
theorem encodeFromTill_mem_out {minE maxE vm : Nat} {d nc mv : Nat}
    {mme : Option (Nat × Nat)} {l r : Node} :
    ∀ p ∈ nodeMap (encodeFromTill minE maxE vm
        (.internal ([] : OutMap) d nc mv mme l r)).1,
      p.1 ∈ reserveList minE maxE (nodeMap l) (nodeMap r) := by
  by_cases hgt : minE > maxE
  · rw [encodeFromTill_of_gt hgt]
    intro p hp
    simp [nodeMap] at hp
  · by_cases h2 : minE > mv
    · rw [encodeFromTill_internal_hi vm [] d nc mv mme l r hgt h2]
      intro p hp
      have hp' : p ∈ (reserveKeys (reserveList minE maxE (nodeMap l) (nodeMap r))
          ([], vm)).1 := hp
      rcases reserveKeys_mem_cases hp' with h5 | ⟨_, _, h6⟩
      · cases h5
      · exact h6
    · rw [encodeFromTill_internal_lo vm [] d nc mv mme l r hgt h2]
      intro p hp
      have hp' : p ∈ (reserveKeys (reserveList minE maxE (nodeMap l) (nodeMap r))
          ([], vm)).1 := hp
      rcases reserveKeys_mem_cases hp' with h5 | ⟨_, _, h6⟩
      · cases h5
      · exact h6

/-- Every entry after `encode_from_till` is an old entry or freshly minted. -/
theorem encodeFromTill_mem_cases {minE maxE vm : Nat} {out : OutMap} {d nc mv : Nat}
    {mme : Option (Nat × Nat)} {l r : Node} :
    ∀ p ∈ nodeMap (encodeFromTill minE maxE vm (.internal out d nc mv mme l r)).1,
      p ∈ out ∨ vm ≤ p.2.v := by
  by_cases hgt : minE > maxE
  · rw [encodeFromTill_of_gt hgt]
    exact fun p hp => .inl hp
  · by_cases h2 : minE > mv
    · rw [encodeFromTill_internal_hi vm out d nc mv mme l r hgt h2]
      intro p hp
      have hp' : p ∈ (reserveKeys (reserveList minE maxE (nodeMap l) (nodeMap r))
          (out, vm)).1 := hp
      rcases reserveKeys_mem_cases hp' with h5 | ⟨_, h6, _⟩
      · exact .inl h5
      · exact .inr h6
    · rw [encodeFromTill_internal_lo vm out d nc mv mme l r hgt h2]
      intro p hp
      have hp' : p ∈ (reserveKeys (reserveList minE maxE (nodeMap l) (nodeMap r))
          (out, vm)).1 := hp
      rcases reserveKeys_mem_cases hp' with h5 | ⟨_, h6, _⟩
      · exact .inl h5
      · exact .inr h6

/-- Literal-level description of the clauses of one `encode_from_till`
call: some literal of each clause is a window-keyed output of the node, and
every literal is a negated child output or such an output. -/
theorem encodeFromTill_clause_lits {minE maxE vm : Nat} {out : OutMap} {d nc mv : Nat}
    {mme : Option (Nat × Nat)} {l r : Node} :
    ∀ c ∈ (encodeFromTill minE maxE vm (.internal out d nc mv mme l r)).2.2,
      (∃ x, x ∈ c ∧ ∃ k, minE ≤ k ∧ k ≤ maxE ∧ omGet k (nodeMap (encodeFromTill
          minE maxE vm (.internal out d nc mv mme l r)).1) = some x)
      ∧ ∀ x ∈ c,
          (∃ p ∈ nodeMap l, x = negLit p.2) ∨ (∃ p ∈ nodeMap r, x = negLit p.2)
          ∨ ∃ k, minE ≤ k ∧ k ≤ maxE ∧ omGet k (nodeMap (encodeFromTill
              minE maxE vm (.internal out d nc mv mme l r)).1) = some x := by
  by_cases hgt : minE > maxE
  · rw [encodeFromTill_of_gt hgt]
    intro c hc
    simp at hc
  · by_cases h2 : minE > mv
    · rw [encodeFromTill_internal_hi vm out d nc mv mme l r hgt h2]
      intro c hc
      simp at hc
    · intro c hc
      have hc' : c ∈ fromTillClauses minE maxE (nodeMap l) (nodeMap r)
          (reserveKeys (reserveList minE maxE (nodeMap l) (nodeMap r)) (out, vm)).1 := by
        rw [encodeFromTill_internal_lo vm out d nc mv mme l r hgt h2] at hc
        exact hc
      rcases fromTillClauses_elim hc' with ⟨k, hkres, hk1, hk2, hshape⟩
      rcases omContains_def.mp
          (@reserveKeys_contains_mem _ (out, vm) _ hkres) with ⟨v, hv⟩
      have hD : omGetD k (reserveKeys (reserveList minE maxE (nodeMap l) (nodeMap r))
          (out, vm)).1 = v := by
        rw [omGetD, hv]
        rfl
      have hvN : omGet k (nodeMap (encodeFromTill minE maxE vm
          (.internal out d nc mv mme l r)).1) = some v := by
        rw [encodeFromTill_internal_lo vm out d nc mv mme l r hgt h2]
        exact hv
      refine ⟨⟨v, ?_, k, hk1, hk2, hvN⟩, ?_⟩
      · rcases hshape with ⟨p, hp, hc3⟩ | ⟨p, hp, hc3⟩ | ⟨p, hp, q, hq, hc3⟩
        · rw [hc3, hD]
          simp [litImplLit]
        · rw [hc3, hD]
          simp [litImplLit]
        · rw [hc3, hD]
          simp [cubeImplLit]
      · intro x hx
        rcases hshape with ⟨p, hp, hc3⟩ | ⟨p, hp, hc3⟩ | ⟨p, hp, q, hq, hc3⟩
        · rw [hc3, litImplLit] at hx
          rcases List.mem_cons.mp hx with he | hx2
          · exact .inl ⟨p, hp, he⟩
          · rcases List.mem_cons.mp hx2 with he | hx3
            · exact .inr (.inr ⟨k, hk1, hk2, by rw [he, hD]; exact hvN⟩)
            · cases hx3
        · rw [hc3, litImplLit] at hx
          rcases List.mem_cons.mp hx with he | hx2
          · exact .inr (.inl ⟨p, hp, he⟩)
          · rcases List.mem_cons.mp hx2 with he | hx3
            · exact .inr (.inr ⟨k, hk1, hk2, by rw [he, hD]; exact hvN⟩)
            · cases hx3
        · rw [hc3, cubeImplLit] at hx
          rcases List.mem_cons.mp hx with he | hx2
          · exact .inl ⟨p, hp, he⟩
          · rcases List.mem_cons.mp hx2 with he | hx3
            · exact .inr (.inl ⟨q, hq, he⟩)
            · rcases List.mem_cons.mp hx3 with he | hx4
              · exact .inr (.inr ⟨k, hk1, hk2, by rw [he, hD]; exact hvN⟩)
              · cases hx4

theorem encodeFromTill_clause_vars {minE maxE vm : Nat} {out : OutMap} {d nc mv : Nat}
    {mme : Option (Nat × Nat)} {l r : Node}
    (hvo : ∀ q ∈ out, q.2.v < vm)
    (hvl : ∀ p ∈ nodeMap l, p.2.v < vm) (hvr : ∀ p ∈ nodeMap r, p.2.v < vm) :
    ∀ c ∈ (encodeFromTill minE maxE vm (.internal out d nc mv mme l r)).2.2,
      ∀ x ∈ c, x.v < (encodeFromTill minE maxE vm (.internal out d nc mv mme l r)).2.1 := by
  intro c hc x hx
  have hvm := encodeFromTill_vm_le minE maxE vm (.internal out d nc mv mme l r)
  rcases (encodeFromTill_clause_lits c hc).2 x hx with
    ⟨p, hp, he⟩ | ⟨p, hp, he⟩ | ⟨k, _, _, hg⟩
  · rw [he, negLit_v]
    have h5 := hvl p hp
    omega
  · rw [he, negLit_v]
    have h5 := hvr p hp
    omega
  · exact encodeFromTill_out_vars hvo _ (omGet_mem hg)

/-- If previously minted window-keyed outputs are all at least `W` (in
particular if there are none), every clause of the call has a literal with
variable at least `W`. -/
theorem encodeFromTill_fresh {W minE maxE vm : Nat} {out : OutMap} {d nc mv : Nat}
    {mme : Option (Nat × Nat)} {l r : Node} (hW : W ≤ vm)
    (hold : ∀ p ∈ out, minE ≤ p.1 → p.1 ≤ maxE → W ≤ p.2.v) :
    ∀ c ∈ (encodeFromTill minE maxE vm (.internal out d nc mv mme l r)).2.2,
      ∃ x ∈ c, W ≤ x.v := by
  intro c hc
  rcases (encodeFromTill_clause_lits c hc).1 with ⟨x, hxc, k, hk1, hk2, hg⟩
  refine ⟨x, hxc, ?_⟩
  rcases encodeFromTill_get_cases hg with hold2 | ⟨h6, _⟩
  · exact hold (k, x) (omGet_mem hold2) hk1 hk2
  · omega

/-- After a full `encode_rec` on a freshly built tree: all output variables
are below the returned counter, every key lies within the recorded window,
the counter grows, and every emitted clause only uses variables below the
returned counter. -/
theorem encodeRec_post : ∀ (t : Node) (minE maxE vm : Nat),
    nodeInvB t = true → emptyOutB t = true → allVarsB vm t = true →
    allVarsB (encodeRec minE maxE vm t).2.1 (encodeRec minE maxE vm t).1 = true
    ∧ kiwB (encodeRec minE maxE vm t).1 = true
    ∧ vm ≤ (encodeRec minE maxE vm t).2.1
    ∧ ∀ c ∈ (encodeRec minE maxE vm t).2.2, ∀ x ∈ c,
        x.v < (encodeRec minE maxE vm t).2.1 := by
  intro t
  induction t with
  | leaf l w =>
      intro minE maxE vm _ _ hall
      refine ⟨hall, rfl, Nat.le_refl _, fun c hc => ?_⟩
      simp [encodeRec] at hc
  | internal out d nc mv mme l r ihl ihr =>
      intro minE maxE vm hinv hemp hall
      rw [nodeInvB] at hinv
      simp only [Bool.and_eq_true, decide_eq_true_eq] at hinv
      obtain ⟨⟨⟨⟨hmv, hsort⟩, hkle⟩, hil⟩, hir⟩ := hinv
      rw [emptyOutB] at hemp
      simp only [Bool.and_eq_true] at hemp
      have hout0 : out = [] := by
        cases out with
        | nil => rfl
        | cons p ps => simp [List.isEmpty] at hemp
      subst hout0
      rw [allVarsB] at hall
      simp only [Bool.and_eq_true] at hall
      obtain ⟨⟨hao, hal⟩, har⟩ := hall
      rcases hlr : encodeRec (computeRequiredMinEnc minE maxE r) maxE vm l with ⟨lt, rest1⟩
      rcases rest1 with ⟨vm1, cL⟩
      rcases hrr : encodeRec (computeRequiredMinEnc minE maxE l) maxE vm1 r with ⟨rt, rest2⟩
      rcases rest2 with ⟨vm2, cR⟩
      have hLpost := ihl (computeRequiredMinEnc minE maxE r) maxE vm hil hemp.1.2 hal
      rw [hlr] at hLpost
      obtain ⟨haLt, hkLt, hvmL, hcL⟩ := hLpost
      have hRpost := ihr (computeRequiredMinEnc minE maxE l) maxE vm1 hir hemp.2
        (allVarsB_mono hvmL har)
      rw [hrr] at hRpost
      obtain ⟨haRt, hkRt, hvmR, hcR⟩ := hRpost
      have hinvLt : nodeInvB lt = true := by
        have h5 := (encodeRec_inv_ext l (computeRequiredMinEnc minE maxE r) maxE vm hil).1
        rw [hlr] at h5
        exact h5
      have hinvRt : nodeInvB rt = true := by
        have h5 := (encodeRec_inv_ext r (computeRequiredMinEnc minE maxE l) maxE vm1 hir).1
        rw [hrr] at h5
        exact h5
      have hcvL : childVal lt = childVal l := by
        have h5 := encodeRec_leaves (computeRequiredMinEnc minE maxE r) maxE vm l
        rw [hlr] at h5
        rw [childVal_eq_wsum_leaves hinvLt, childVal_eq_wsum_leaves hil, h5]
      have hcvR : childVal rt = childVal r := by
        have h5 := encodeRec_leaves (computeRequiredMinEnc minE maxE l) maxE vm1 r
        rw [hrr] at h5
        rw [childVal_eq_wsum_leaves hinvRt, childVal_eq_wsum_leaves hir, h5]
      have hsum : childVal l + childVal r = mv := by
        rw [childVal_eq_wsum_leaves hil, childVal_eq_wsum_leaves hir]
        omega
      have hkeysmv : ∀ k ∈ reserveList minE maxE (nodeMap lt) (nodeMap rt), k ≤ mv := by
        intro k hk
        have h5 := reserveList_keys_le (nodeMap_keys_le hinvLt) (nodeMap_keys_le hinvRt) k hk
        omega
      rcases encodeFromTill_shape minE maxE vm2 [] d nc mv mme lt rt
        with ⟨out2, vm3, cF, hf⟩
      have hvmL' : vm ≤ vm1 := hvmL
      have hvmR' : vm1 ≤ vm2 := hvmR
      have hcL' : ∀ c ∈ cL, ∀ x ∈ c, x.v < vm1 := hcL
      have hcR' : ∀ c ∈ cR, ∀ x ∈ c, x.v < vm2 := hcR
      have haLt' : allVarsB vm1 lt = true := haLt
      have haRt' : allVarsB vm2 rt = true := haRt
      have hkLt' : kiwB lt = true := hkLt
      have hkRt' : kiwB rt = true := hkRt
      have hvo : ∀ q ∈ ([] : OutMap), q.2.v < vm2 := fun q hq =>
        absurd hq (List.not_mem_nil q)
      have hvl : ∀ p ∈ nodeMap lt, p.2.v < vm2 :=
        nodeMap_vars_lt (allVarsB_mono hvmR' haLt')
      have hvr : ∀ p ∈ nodeMap rt, p.2.v < vm2 := nodeMap_vars_lt haRt'
      have hvars_out := @encodeFromTill_out_vars minE maxE vm2 [] d nc mv mme lt rt hvo
      have hmemout := @encodeFromTill_mem_out minE maxE vm2 d nc mv mme lt rt
      have hclvars := @encodeFromTill_clause_vars minE maxE vm2 [] d nc mv mme lt rt
        hvo hvl hvr
      have hvm3 := encodeFromTill_vm_le minE maxE vm2 (.internal [] d nc mv mme lt rt)
      rw [hf] at hvars_out hmemout hclvars hvm3
      have hvm3' : vm2 ≤ vm3 := hvm3
      rw [encodeRec_internal_eq hlr hrr hf]
      refine ⟨?_, ?_, ?_, ?_⟩
      · have hres : allVarsB vm3 (.internal out2 d (nc + cF.length) mv
            (some (minE, min mv maxE)) lt rt) = true := by
          rw [allVarsB]
          simp only [Bool.and_eq_true]
          refine ⟨⟨?_, allVarsB_mono (by omega) haLt'⟩, allVarsB_mono hvm3' haRt'⟩
          rw [List.all_eq_true]
          intro p hp
          simp only [decide_eq_true_eq]
          exact hvars_out p hp
        exact hres
      · have hres : kiwB (.internal out2 d (nc + cF.length) mv
            (some (minE, min mv maxE)) lt rt) = true := by
          rw [kiwB]
          simp only [Bool.and_eq_true]
          refine ⟨⟨?_, hkLt'⟩, hkRt'⟩
          rw [List.all_eq_true]
          intro p hp
          simp only [decide_eq_true_eq]
          show minE ≤ p.1 ∧ p.1 ≤ min mv maxE
          have hk := hmemout p hp
          have h6 := reserveList_keys_ge p.1 hk
          have h7 := reserveList_keys_le_max p.1 hk
          have h8 := hkeysmv p.1 hk
          omega
        exact hres
      · have hres : vm ≤ vm3 := by omega
        exact hres
      · have hres : ∀ c ∈ cL ++ cR ++ cF, ∀ x ∈ c, x.v < vm3 := by
          intro c hc x hx
          rw [List.mem_append, List.mem_append] at hc
          rcases hc with (hc | hc) | hc
          · have h5 := hcL' c hc x hx
            omega
          · have h5 := hcR' c hc x hx
            omega
          · exact hclvars c hc x hx
        exact hres

theorem encodeFromTill_if_vm_le (cond : Prop) [Decidable cond] (minE maxE vm : Nat)
    (t : Node) :
    vm ≤ (if cond then encodeFromTill minE maxE vm t else (t, vm, ([] : CNF))).2.1 := by
  by_cases hc : cond
  · rw [if_pos hc]
    exact encodeFromTill_vm_le minE maxE vm t
  · rw [if_neg hc]

theorem encodeChangeRec_vm_le : ∀ (t : Node) (minE maxE vm : Nat),
    vm ≤ (encodeChangeRec minE maxE vm t).2.1 := by
  intro t
  induction t with
  | leaf l w => intro minE maxE vm; exact Nat.le_refl _
  | internal out d nc mv mme l r ihl ihr =>
      intro minE maxE vm
      rcases hlr : encodeChangeRec (computeRequiredMinEnc minE maxE r) maxE vm l
        with ⟨lt, rest1⟩
      rcases rest1 with ⟨vm1, cL⟩
      rcases hrr : encodeChangeRec (computeRequiredMinEnc minE maxE l) maxE vm1 r
        with ⟨rt, rest2⟩
      rcases rest2 with ⟨vm2, cR⟩
      have h1 := ihl (computeRequiredMinEnc minE maxE r) maxE vm
      rw [hlr] at h1
      have h1' : vm ≤ vm1 := h1
      have h2 := ihr (computeRequiredMinEnc minE maxE l) maxE vm1
      rw [hrr] at h2
      have h2' : vm1 ≤ vm2 := h2
      cases mme with
      | none =>
          rcases encodeFromTill_shape minE maxE vm2 out d nc mv none lt rt
            with ⟨out2, vm3, cF, hf⟩
          have h3 := encodeFromTill_vm_le minE maxE vm2 (.internal out d nc mv none lt rt)
          rw [hf] at h3
          have h3' : vm2 ≤ vm3 := h3
          rw [encodeChangeRec_internal_none hlr hrr hf]
          have hres : vm ≤ vm3 := by omega
          exact hres
      | some w0 =>
          obtain ⟨a0, b0⟩ := w0
          rcases encodeFromTill_if_shape (minE < a0) minE (a0 - 1) vm2 out d nc mv
            (some (a0, b0)) lt rt with ⟨outa, vma, cA, hfa⟩
          have h3 := encodeFromTill_if_vm_le (minE < a0) minE (a0 - 1) vm2
            (.internal out d nc mv (some (a0, b0)) lt rt)
          rw [hfa] at h3
          have h3' : vm2 ≤ vma := h3
          rcases encodeFromTill_if_shape (maxE > b0) (b0 + 1) maxE vma outa d nc mv
            (some (a0, b0)) lt rt with ⟨outb, vmb, cB, hfb⟩
          have h4 := encodeFromTill_if_vm_le (maxE > b0) (b0 + 1) maxE vma
            (.internal outa d nc mv (some (a0, b0)) lt rt)
          rw [hfb] at h4
          have h4' : vma ≤ vmb := h4
          rw [encodeChangeRec_internal_some hlr hrr hfa hfb]
          have hres : vm ≤ vmb := by omega
          exact hres

/-- Every clause emitted by `encode_change_rec` on a tree whose output keys
all lie inside the recorded windows contains a literal minted during this
call (variable at least the starting counter): the change regions are
disjoint from the stored windows, so their conclusions are fresh. -/
theorem encodeChangeRec_fresh : ∀ (t : Node) (minE maxE vm : Nat), kiwB t = true →
    ∀ c ∈ (encodeChangeRec minE maxE vm t).2.2, ∃ x ∈ c, vm ≤ x.v := by
  intro t
  induction t with
  | leaf l w =>
      intro minE maxE vm _ c hc
      simp [encodeChangeRec] at hc
  | internal out d nc mv mme l r ihl ihr =>
      intro minE maxE vm hkiw c hc
      rcases hlr : encodeChangeRec (computeRequiredMinEnc minE maxE r) maxE vm l
        with ⟨lt, rest1⟩
      rcases rest1 with ⟨vm1, cL⟩
      rcases hrr : encodeChangeRec (computeRequiredMinEnc minE maxE l) maxE vm1 r
        with ⟨rt, rest2⟩
      rcases rest2 with ⟨vm2, cR⟩
      have h1 := encodeChangeRec_vm_le l (computeRequiredMinEnc minE maxE r) maxE vm
      rw [hlr] at h1
      have h1' : vm ≤ vm1 := h1
      have h2 := encodeChangeRec_vm_le r (computeRequiredMinEnc minE maxE l) maxE vm1
      rw [hrr] at h2
      have h2' : vm1 ≤ vm2 := h2
      cases mme with
      | none =>
          rw [kiwB] at hkiw
          simp only [Bool.and_eq_true] at hkiw
          obtain ⟨⟨hoe, hkl⟩, hkr⟩ := hkiw
          have hout0 : out = [] := by
            cases out with
            | nil => rfl
            | cons p ps => simp [List.isEmpty] at hoe
          subst hout0
          rcases encodeFromTill_shape minE maxE vm2 [] d nc mv none lt rt
            with ⟨out2, vm3, cF, hf⟩
          have hfresh := @encodeFromTill_fresh vm minE maxE vm2 [] d nc mv none lt rt
            (by omega) (fun p hp => absurd hp (List.not_mem_nil p))
          rw [hf] at hfresh
          rw [encodeChangeRec_internal_none hlr hrr hf] at hc
          have hc' : c ∈ cL ++ cR ++ cF := hc
          rw [List.mem_append, List.mem_append] at hc'
          rcases hc' with (hc2 | hc2) | hc2
          · have hcl : c ∈ (encodeChangeRec (computeRequiredMinEnc minE maxE r)
                maxE vm l).2.2 := by
              rw [hlr]
              exact hc2
            exact ihl (computeRequiredMinEnc minE maxE r) maxE vm hkl c hcl
          · have hcr : c ∈ (encodeChangeRec (computeRequiredMinEnc minE maxE l)
                maxE vm1 r).2.2 := by
              rw [hrr]
              exact hc2
            rcases ihr (computeRequiredMinEnc minE maxE l) maxE vm1 hkr c hcr
              with ⟨x, hx, hge⟩
            exact ⟨x, hx, by omega⟩
          · exact hfresh c hc2
      | some w0 =>
          obtain ⟨a0, b0⟩ := w0
          rw [kiwB] at hkiw
          simp only [Bool.and_eq_true] at hkiw
          obtain ⟨⟨hwin, hkl⟩, hkr⟩ := hkiw
          have hwin' : ∀ p ∈ out, a0 ≤ p.1 ∧ p.1 ≤ b0 := by
            intro p hp
            have h5 := List.all_eq_true.mp hwin p hp
            simpa using h5
          rcases encodeFromTill_if_shape (minE < a0) minE (a0 - 1) vm2 out d nc mv
            (some (a0, b0)) lt rt with ⟨outa, vma, cA, hfa⟩
          have h3 := encodeFromTill_if_vm_le (minE < a0) minE (a0 - 1) vm2
            (.internal out d nc mv (some (a0, b0)) lt rt)
          rw [hfa] at h3
          have h3' : vm2 ≤ vma := h3
          obtain ⟨hcA, houta⟩ : (∀ c2 ∈ cA, ∃ x ∈ c2, vm ≤ x.v)
              ∧ (∀ p ∈ outa, p ∈ out ∨ vm2 ≤ p.2.v) := by
            by_cases hA : minE < a0
            · rw [if_pos hA] at hfa
              constructor
              · have hold : ∀ p ∈ out, minE ≤ p.1 → p.1 ≤ a0 - 1 → vm ≤ p.2.v := by
                  intro p hp h5 h6
                  have h7 := (hwin' p hp).1
                  omega
                have hfresh := @encodeFromTill_fresh vm minE (a0 - 1) vm2 out d nc mv
                  (some (a0, b0)) lt rt (by omega) hold
                rw [hfa] at hfresh
                exact hfresh
              · have h5 := @encodeFromTill_mem_cases minE (a0 - 1) vm2 out d nc mv
                  (some (a0, b0)) lt rt
                rw [hfa] at h5
                exact h5
            · rw [if_neg hA] at hfa
              injection hfa with h5 h6
              injection h6 with h6 h7
              injection h5 with e1 e2 e3 e4 e5 e6 e7
              constructor
              · rw [← h7]
                intro c2 hc2
                cases hc2
              · rw [← e1]
                exact fun p hp => .inl hp
          rcases encodeFromTill_if_shape (maxE > b0) (b0 + 1) maxE vma outa d nc mv
            (some (a0, b0)) lt rt with ⟨outb, vmb, cB, hfb⟩
          have hcB : ∀ c2 ∈ cB, ∃ x ∈ c2, vm ≤ x.v := by
            by_cases hB : maxE > b0
            · rw [if_pos hB] at hfb
              have hold : ∀ p ∈ outa, b0 + 1 ≤ p.1 → p.1 ≤ maxE → vm ≤ p.2.v := by
                intro p hp h5 h6
                rcases houta p hp with hpo | hge
                · have h7 := (hwin' p hpo).2
                  omega
                · omega
              have hfresh := @encodeFromTill_fresh vm (b0 + 1) maxE vma outa d nc mv
                (some (a0, b0)) lt rt (by omega) hold
              rw [hfb] at hfresh
              exact hfresh
            · rw [if_neg hB] at hfb
              injection hfb with h5 h6
              injection h6 with h6 h7
              rw [← h7]
              intro c2 hc2
              cases hc2
          rw [encodeChangeRec_internal_some hlr hrr hfa hfb] at hc
          have hc' : c ∈ cL ++ cR ++ (cA ++ cB) := hc
          rw [List.mem_append, List.mem_append, List.mem_append] at hc'
          rcases hc' with (hc2 | hc2) | hc2 | hc2
          · have hcl : c ∈ (encodeChangeRec (computeRequiredMinEnc minE maxE r)
                maxE vm l).2.2 := by
              rw [hlr]
              exact hc2
            exact ihl (computeRequiredMinEnc minE maxE r) maxE vm hkl c hcl
          · have hcr : c ∈ (encodeChangeRec (computeRequiredMinEnc minE maxE l)
                maxE vm1 r).2.2 := by
              rw [hrr]
              exact hc2
            rcases ihr (computeRequiredMinEnc minE maxE l) maxE vm1 hkr c hcr
              with ⟨x, hx, hge⟩
            exact ⟨x, hx, by omega⟩
          · exact hcA c hc2
          · exact hcB c hc2

theorem extendTreeWith_rv (inv : Bool) (ord : List (Lit × Nat)) (w vm : Nat) (s : GTE) :
    (extendTreeWith inv ord w vm s).1.reserve_vars = s.reserve_vars := by
  by_cases hbe : s.lit_buffer = []
  · rw [extendTreeWith, if_pos hbe]
  · by_cases hnl : ((ord.filter fun p => decide (p.2 ≤ w)).map
        fun p => (if inv then negLit p.1 else p.1, p.2)) = []
    · rw [extendTreeWith, if_neg hbe]
      simp only [hnl]
      rw [if_pos trivial]
    · rw [extendTreeWith, if_neg hbe]
      simp only [if_neg hnl]

/-- The root after a non-reserving `extend_tree`: unchanged, a freshly built
tree (no previous root), or the old root joined with a freshly built tree. -/
theorem extendTreeWith_root_cases (inv : Bool) (ord : List (Lit × Nat)) (w vm : Nat)
    (s : GTE) (hrv : s.reserve_vars = false) :
    (extendTreeWith inv ord w vm s).2 = vm
    ∧ ((extendTreeWith inv ord w vm s).1.root = s.root
       ∨ (s.root = none
           ∧ ((ord.filter fun p => decide (p.2 ≤ w)).map
               fun p => (if inv then negLit p.1 else p.1, p.2)) ≠ []
           ∧ (extendTreeWith inv ord w vm s).1.root
             = some (buildTree (sortByWeight ((ord.filter fun p => decide (p.2 ≤ w)).map
                 fun p => (if inv then negLit p.1 else p.1, p.2)))))
       ∨ (∃ oldRoot, s.root = some oldRoot
           ∧ ((ord.filter fun p => decide (p.2 ≤ w)).map
               fun p => (if inv then negLit p.1 else p.1, p.2)) ≠ []
           ∧ (extendTreeWith inv ord w vm s).1.root
               = some (newInternal oldRoot
                   (buildTree (sortByWeight ((ord.filter fun p => decide (p.2 ≤ w)).map
                     fun p => (if inv then negLit p.1 else p.1, p.2))))))) := by
  by_cases hbe : s.lit_buffer = []
  · rw [extendTreeWith, if_pos hbe]
    exact ⟨rfl, .inl rfl⟩
  · by_cases hnl : ((ord.filter fun p => decide (p.2 ≤ w)).map
        fun p => (if inv then negLit p.1 else p.1, p.2)) = []
    · constructor
      · rw [extendTreeWith, if_neg hbe]
        simp only [hnl]
        rw [if_pos trivial]
      · left
        rw [extendTreeWith, if_neg hbe]
        simp only [hnl]
        rw [if_pos trivial]
    · rcases hroot : s.root with _ | oldRoot
      · refine ⟨?_, .inr (.inl ⟨rfl, hnl, ?_⟩)⟩
        · rw [extendTreeWith, if_neg hbe]
          simp only [if_neg hnl, hroot, hrv, Bool.false_eq_true, if_false]
        · rw [extendTreeWith, if_neg hbe]
          simp only [if_neg hnl, hroot, hrv, Bool.false_eq_true, if_false]
      · refine ⟨?_, .inr (.inr ⟨oldRoot, rfl, hnl, ?_⟩)⟩
        · rw [extendTreeWith, if_neg hbe]
          simp only [if_neg hnl, hroot, hrv, Bool.false_eq_true, if_false]
        · rw [extendTreeWith, if_neg hbe]
          simp only [if_neg hnl, hroot, hrv, Bool.false_eq_true, if_false]

/-- C4 (amended): starting from a fresh non-reserving encoder whose input
variables are below the manager counter, no clause emitted by `encode_ub` is
re-emitted by a following `encode_ub_change`, whatever the two windows are:
every clause of the second call contains a variable minted during it. -/
theorem no_clause_reemitted (a b a2 b2 vm : Nat) (s : GTE)
    (cnf1 cnf2 : CNF) (s1 s2 : GTE) (vm1 vm2 : Nat)
    (hroot : s.root = none) (hrv : s.reserve_vars = false)
    (hvars : ∀ p ∈ s.lit_buffer, p.1.v < vm)
    (h1 : encodeUb a b vm s = .ok (cnf1, s1, vm1))
    (h2 : encodeUbChange a2 b2 vm1 s1 = .ok (cnf2, s2, vm2)) :
    ∀ c ∈ cnf2, c ∉ cnf1 := by
  by_cases hab : a > b
  · rw [encodeUb, encodeUbWith, if_pos hab] at h1
    cases h1
  by_cases hab2 : a2 > b2
  · rw [encodeUbChange, encodeUbChangeWith, if_pos hab2] at h2
    cases h2
  rw [encodeUb, encodeUbWith, if_neg hab] at h1
  rcases hex : extendTreeWith false s.lit_buffer b vm s with ⟨se, vme⟩
  rw [hex] at h1
  simp only at h1
  have hrc := extendTreeWith_root_cases false s.lit_buffer b vm s hrv
  rw [hex] at hrc
  have hvme : vme = vm := hrc.1
  rw [hvme] at h1
  have hrv1 : se.reserve_vars = false := by
    have h5 := extendTreeWith_rv false s.lit_buffer b vm s
    rw [hex] at h5
    have h6 : se.reserve_vars = s.reserve_vars := h5
    rw [h6, hrv]
  rcases hrc.2 with hcase | ⟨_, hne1, hcase⟩ | ⟨oldR, holdR, _⟩
  · -- the first call built no tree: it emitted no clauses
    have hse : se.root = none := by
      have h6 : se.root = s.root := hcase
      rw [h6, hroot]
    simp only [hse] at h1
    rw [Except.ok.injEq, Prod.mk.injEq, Prod.mk.injEq] at h1
    obtain ⟨hcnf1, _, _⟩ := h1
    intro c _ hmem
    rw [← hcnf1] at hmem
    cases hmem
  · -- the first call built and fully encoded a fresh tree
    have hse : se.root = some (buildTree (sortByWeight
        ((s.lit_buffer.filter fun p => decide (p.2 ≤ b)).map
          fun p => (if false then negLit p.1 else p.1, p.2)))) := hcase
    set NL := (s.lit_buffer.filter fun p => decide (p.2 ≤ b)).map
      (fun p => ((if false then negLit p.1 else p.1 : Lit), p.2)) with hNL
    set T0 := buildTree (sortByWeight NL) with hT0
    simp only [hse] at h1
    set er := encodeRec (a + 1) (b + se.max_leaf_weight) vm T0 with her
    rw [Except.ok.injEq, Prod.mk.injEq, Prod.mk.injEq] at h1
    obtain ⟨hcnf1, hs1, hvm1⟩ := h1
    have hNLne : sortByWeight NL ≠ [] := by
      intro h
      have hl := (List.perm_insertionSort (fun p q : Lit × Nat => p.2 ≤ q.2) NL).length_eq
      rw [sortByWeight] at h
      rw [h] at hl
      simp only [List.length_nil] at hl
      exact hne1 (List.length_eq_zero.mp hl.symm)
    have hT0vars : allVarsB vm T0 = true := by
      rw [hT0]
      refine buildTree_allVars hNLne ?_
      intro p hp
      have hp2 : p ∈ NL :=
        (List.perm_insertionSort (fun p q : Lit × Nat => p.2 ≤ q.2) NL).subset hp
      rw [hNL] at hp2
      rcases List.mem_map.mp hp2 with ⟨q, hq, he⟩
      simp only [Bool.false_eq_true, if_false] at he
      rw [← he]
      exact hvars q (List.mem_of_mem_filter hq)
    have hpost := encodeRec_post T0 (a + 1) (b + se.max_leaf_weight) vm
      (buildTree_inv _) (buildTree_emptyOut _) hT0vars
    rw [← her] at hpost
    obtain ⟨-, hker, -, hcer⟩ := hpost
    have hcnf1vars : ∀ c ∈ cnf1, ∀ x ∈ c, x.v < vm1 := by
      intro c hc x hx
      have h5 := hcer c (by rw [hcnf1]; exact hc) x hx
      rw [hvm1] at h5
      exact h5
    have hs1root : s1.root = some er.1 := by
      rw [← hs1]
    have hs1rv : s1.reserve_vars = false := by
      rw [← hs1]
      exact hrv1
    -- the second call
    rw [encodeUbChange, encodeUbChangeWith, if_neg hab2] at h2
    rcases hex2 : extendTreeWith false s1.lit_buffer b2 vm1 s1 with ⟨se2, vme2⟩
    rw [hex2] at h2
    simp only at h2
    have hrc2 := extendTreeWith_root_cases false s1.lit_buffer b2 vm1 s1 hs1rv
    rw [hex2] at hrc2
    have hvme2 : vme2 = vm1 := hrc2.1
    rw [hvme2] at h2
    rcases hrc2.2 with hcase2 | ⟨hnone2, _, _⟩ | ⟨oldR2, hold2, _, hcase2⟩
    · -- tree unchanged by the second extension
      have hse2 : se2.root = some er.1 := by
        have h6 : se2.root = s1.root := hcase2
        rw [h6, hs1root]
      simp only [hse2] at h2
      set er2 := encodeChangeRec (a2 + 1) (b2 + se2.max_leaf_weight) vm1 er.1 with her2
      rw [Except.ok.injEq, Prod.mk.injEq, Prod.mk.injEq] at h2
      obtain ⟨hcnf2, -, -⟩ := h2
      have hfresh := encodeChangeRec_fresh er.1 (a2 + 1) (b2 + se2.max_leaf_weight)
        vm1 hker
      intro c hc hmem
      rcases hfresh c (by rw [← her2, hcnf2]; exact hc) with ⟨x, hx, hge⟩
      have h9 := hcnf1vars c hmem x hx
      omega
    · rw [hs1root] at hnone2
      cases hnone2
    · -- new literals joined in: the old root is the left child
      rw [hs1root] at hold2
      have holdeq : oldR2 = er.1 := (Option.some.inj hold2).symm
      subst holdeq
      have hkt2 : kiwB (newInternal er.1 (buildTree (sortByWeight
          ((s1.lit_buffer.filter fun p => decide (p.2 ≤ b2)).map
            fun p => (if false then negLit p.1 else p.1, p.2))))) = true := by
        rw [newInternal, kiwB]
        simp only [Bool.and_eq_true]
        exact ⟨⟨rfl, hker⟩, emptyOut_kiw _ (buildTree_emptyOut _)⟩
      have hse2 : se2.root = some (newInternal er.1 (buildTree (sortByWeight
          ((s1.lit_buffer.filter fun p => decide (p.2 ≤ b2)).map
            fun p => (if false then negLit p.1 else p.1, p.2))))) := hcase2
      simp only [hse2] at h2
      rw [Except.ok.injEq, Prod.mk.injEq, Prod.mk.injEq] at h2
      obtain ⟨hcnf2, -, -⟩ := h2
      have hfresh := encodeChangeRec_fresh _ (a2 + 1) (b2 + se2.max_leaf_weight)
        vm1 hkt2
      intro c hc hmem
      rcases hfresh c (by rw [hcnf2]; exact hc) with ⟨x, hx, hge⟩
      have h9 := hcnf1vars c hmem x hx
      omega
  · rw [hroot] at holdR
    cases holdR

/-- Witness for C4 (amended) on weights {5, 5, 3, 3}: `encode_ub(0, 5)`
followed by `encode_ub_change(0, 7)`. -/
theorem no_clause_reemitted_witness :
    c5state.root = none
    ∧ ∀ c ∈ exCnf (encodeUbChange 0 7 (exVm (encodeUb 0 5 4 c5state))
        (exState (encodeUb 0 5 4 c5state))),
      c ∉ exCnf (encodeUb 0 5 4 c5state) :=
  ⟨by decide, no_clause_reemitted 0 5 0 7 4 c5state
    (exCnf (encodeUb 0 5 4 c5state))
    (exCnf (encodeUbChange 0 7 (exVm (encodeUb 0 5 4 c5state))
      (exState (encodeUb 0 5 4 c5state))))
    (exState (encodeUb 0 5 4 c5state))
    (exState (encodeUbChange 0 7 (exVm (encodeUb 0 5 4 c5state))
      (exState (encodeUb 0 5 4 c5state))))
    (exVm (encodeUb 0 5 4 c5state))
    (exVm (encodeUbChange 0 7 (exVm (encodeUb 0 5 4 c5state))
      (exState (encodeUb 0 5 4 c5state))))
    (by decide) (by decide) (by decide) (by decide) (by decide)⟩

/-- Sanity check against the repository's unit test `adder_1`: two leaves of
weights 5 and 3 encoded over `[0, 8]` yield three clauses and three output
literals. -/
theorem sanity_adder1 :
    (Node.encodeFromTill 0 8 2
      (Node.newInternal (Node.newLeaf ⟨0, true⟩ 5) (Node.newLeaf ⟨1, true⟩ 3))).2.2.length = 3 :=
  by decide

/-- Sanity check against the unit test `ub_gte_functions`: weights
{5, 5, 3, 3}, `encode_ub(0, 6)` gives depth 3 and mints 10 variables. -/
theorem sanity_ub_gte_functions :
    ((exState (encodeUb 0 6 4 c5state)).root.map Node.getDepth = some 3)
      ∧ (exState (encodeUb 0 6 4 c5state)).n_vars = 10 := by decide

/-- C10: on an encoder with no literals added, `encode_ub(a, b, vm)` with
`a ≤ b` succeeds with an empty clause set, an unchanged state and no
variables minted, and `enforce_ub(k)` succeeds with no assumptions. -/
theorem empty_encoder_encode_enforce (a b vm k : Nat) (h : a ≤ b) :
    encodeUb a b vm newGTE = .ok ([], newGTE, vm)
      ∧ enforceUb k newGTE = .ok [] := by
  constructor
  · simp [encodeUb, encodeUbWith, extendTreeWith, newGTE, Nat.not_lt.mpr h]
  · simp [enforceUb, enforceTree, newGTE]

/-- Witness for C10 at `a = 0`, `b = 3`, `vm = 5`, `k = 7`. -/
theorem empty_encoder_encode_enforce_witness :
    encodeUb 0 3 5 newGTE = .ok ([], newGTE, 5) ∧ enforceUb 7 newGTE = .ok [] :=
  empty_encoder_encode_enforce 0 3 5 7 (by decide)

/-- C1 (failing input): for inputs of weights {3, 3, 3}, after the successful
`encode_ub(4, 5)` the call `enforce_ub(4)` succeeds, yet the assignment
making exactly the first two inputs true satisfies every emitted clause and
every returned assumption although its weighted sum is 6 > 4.  The child
window narrowing (`compute_required_min_enc` with a leaf sibling) requests
`min_enc - 1` instead of `min_enc - leaf_weight`, so the sum 6 = 3 + 3 is
never wired through the right child. -/
theorem enforce_ub_partial_window_unsound :
    (enforceUb 4 (exState c1res)).isOk = true
      ∧ cnfSatB c1sigma (exCnf c1res) = true
      ∧ assumpsSatB c1sigma (exAssumps (enforceUb 4 (exState c1res))) = true
      ∧ trueWeight c1sigma c1adds = 6 := by decide

/-- C2 (counterexample): with a single added literal of weight 1 (so total
weight `W = 1`), `encode_lb(2, 2)` does not fail with `Unsat` although the
requested lower bound 2 exceeds `W`; it succeeds (the source converts the
bound with `unwrap_or(0)`, discarding the error). -/
theorem encode_lb_no_unsat_counterexample :
    encodeLb 2 2 1 c2state ≠ .error .unsat
      ∧ (encodeLb 2 2 1 c2state).isOk = true
      ∧ c2state.total_weight < 2 := by decide

/-- The tree part of the enforce assumptions can only fail with
`NotEncoded`, never `Unsat`. -/
theorem enforceTree_ne_unsat (ub : Nat) (s : GTE) :
    enforceTree ub s ≠ .error .unsat := by
  unfold enforceTree
  rcases h : s.root with _ | t
  · simp
  · match t with
    | .leaf l w => simp
    | .internal out d nc mv mme l r =>
        dsimp only
        split
        · simp
        · match mme with
          | none => simp
          | some w => dsimp only; split <;> simp

/-- C2 (amended): `encode_lb` and `encode_lb_change` never report `Unsat`:
with ordered limits they succeed even when the requested lower bound exceeds
the total weight (the conversion failure is clamped to 0).  The `Unsat`
error for a bound `lb ≥ W` is raised by `enforce_lb` instead. -/
theorem encode_lb_ok_enforce_lb_unsat (s : GTE) (minLb maxLb vm lb : Nat)
    (h : minLb ≤ maxLb) :
    (encodeLb minLb maxLb vm s).isOk = true
      ∧ (encodeLbChange minLb maxLb vm s).isOk = true
      ∧ (enforceLb lb s = .error .unsat ↔ s.total_weight ≤ lb) := by
  refine ⟨?_, ?_, ?_, ?_⟩
  · simp [encodeLb, Nat.not_lt.mpr h, Except.isOk, Except.toBool]
  · simp [encodeLbChange, Nat.not_lt.mpr h, Except.isOk, Except.toBool]
  · intro he
    by_contra hw
    have hgt : s.total_weight > lb := Nat.lt_of_not_le hw
    rw [enforceLb, convertLbUb, if_pos hgt] at he
    dsimp only at he
    split at he
    · simp at he
    · split at he
      next e heq =>
        injection he with h2
        rw [h2] at heq
        exact enforceTree_ne_unsat _ s heq
      next => simp at he
  · intro hw
    rw [enforceLb, convertLbUb, if_neg (Nat.not_lt.mpr hw)]

/-- Witness for C2 (amended) at the C2 state with bounds `(0, 2)` and
`lb = 2`. -/
theorem encode_lb_ok_enforce_lb_unsat_witness :
    (encodeLb 0 2 1 c2state).isOk = true
      ∧ (encodeLbChange 0 2 1 c2state).isOk = true
      ∧ (enforceLb 2 c2state = .error .unsat ↔ c2state.total_weight ≤ 2) :=
  encode_lb_ok_enforce_lb_unsat c2state 0 2 1 2 (by decide)

/-- C9 (counterexample): an encoder holding `(ℓ1, 0)` in addition to
`(ℓ0, 1)` does not behave like the encoder without the zero-weight pair:
`enforce_ub(0)` fails with `NotEncoded` on the former (the buffered weight 0
is `≤ 0`) and succeeds on the latter. -/
theorem zero_weight_not_absent_counterexample :
    enforceUb 0 c9stateZ = .error .notEncoded
      ∧ enforceUb 0 c9state = .ok [negLit ⟨0, true⟩] := by decide

/-- C9 (amended): a zero-weight pair is not treated as absence.  It does
leave the total weight unchanged, but while it sits in the buffer every
`enforce_ub` fails with `NotEncoded`, and once admitted to the tree it can
change the emitted clauses (see the counterexample). -/
theorem zero_weight_behaviour (s : GTE) (z : Lit) (ub : Nat)
    (hz : (z, 0) ∈ s.lit_buffer) :
    (addLits [(z, 0)] s).total_weight = s.total_weight
      ∧ enforceUb ub s = .error .notEncoded := by
  constructor
  · simp [addLits]
  · rw [enforceUb, if_pos]
    exact List.any_eq_true.mpr ⟨(z, 0), hz, by simp⟩

/-- Witness for C9 (amended) at the concrete state holding `(ℓ1, 0)`. -/
theorem zero_weight_behaviour_witness :
    (addLits [((⟨1, true⟩ : Lit), 0)] c9stateZ).total_weight = c9stateZ.total_weight
      ∧ enforceUb 3 c9stateZ = .error .notEncoded :=
  zero_weight_behaviour c9stateZ ⟨1, true⟩ 3 (by decide)

/-- C3 (counterexample): two runs executing the same single
`encode_ub(0, 2)` call on the same two equal-weight literals, whose hash-map
buffers merely iterate in different (both permissible) orders, emit
different clause sequences. -/
theorem determinism_counterexample :
    c3trace1.map Prod.fst = c3trace2.map Prod.fst
      ∧ validTraceB c3trace1 c3state 2 = true
      ∧ validTraceB c3trace2 c3state 2 = true
      ∧ (runTrace c3trace1 c3state 2).2.2 ≠ (runTrace c3trace2 c3state 2).2.2 := by
  decide

/-- C4 (counterexample): for inputs of weights {1, 2}, `encode_ub(1, 2)`
followed by `encode_ub_change(0, 2)` yields a clause union that is not a
permutation of the one-shot `encode_ub(0, 2)` clause set of a fresh encoder:
the minted output variables are associated with different output values in
the two runs. -/
theorem incremental_union_counterexample :
    (c4step1.isOk = true ∧ c4step2.isOk = true)
      ∧ [negLit ⟨0, true⟩, (⟨2, true⟩ : Lit)] ∈ c4oneshot
      ∧ [negLit ⟨0, true⟩, (⟨2, true⟩ : Lit)] ∉ c4union
      ∧ ¬ c4union.Perm c4oneshot := by decide

/-- C7 (counterexample): the emitted clauses are implications only, so a
satisfying assignment may set output literals true without support: after
`encode_ub(0, 2)` on two unit-weight inputs, the assignment making both
inputs false and all minted variables true satisfies every clause, the root
has `out_lits[1]` true, yet no input literal is true at all. -/
theorem threshold_iff_counterexample :
    cnfSatB c7sigma (exCnf c7res) = true
      ∧ omGet 1 (Node.nodeMap c7root) = some ⟨2, true⟩
      ∧ litValB c7sigma ⟨2, true⟩ = true
      ∧ (Node.leavesOf c7root).all (fun p => !litValB c7sigma p.1) = true := by decide

end GteSpec
